import Mathlib

/-!
# ELF symbol resolution (`core/src/main/jni/src/elf_util.cpp`)

A shallow embedding of `SandHook::ElfImg`: the three symbol lookup strategies
(GNU hash, SysV hash, lazily built linear index), the section walk of
`ElfImg::parse`, the decode loop of `ElfImg::xzdecompress`, the constructor and
the module-base heuristic `ElfImg::findModuleBase`; and of the patch of the key/
value store of an OAT header (`dex2oat/src/main/cpp/oat_hook.cpp`).

Conventions of the embedding.

* A pointer to 32-bit words (`ElfW(Word) *`) is the view of memory through it:
  a function from a signed word offset to the word stored there.  Pointer
  arithmetic `p + k` shifts the view.  A read is reduced modulo `2^32`.
* A byte string (`std::string_view`, `std::string`, a C string) is a list of
  byte values.  A C string read from a table stops at the first NUL byte.
* A loop whose termination depends on the data (the SysV chain walk, the GNU
  run scan) takes a bound on the number of times its body may run; `none`
  means that the bound was reached before the loop left.
-/

namespace SandHook

/-! ## Data model -/

/-- Byte strings: contents of a `std::string_view`, a `std::string` or a C string. -/
abbrev Bytes := List Nat

/-- The ELF class selected by the `ElfW(...)` wrapper: `Elf32_*` or `Elf64_*`. -/
inductive ElfClass where
  | elf32
  | elf64
  deriving DecidableEq, Repr

/-- Number of 32-bit words in one `ElfW(Addr)`. -/
def ElfClass.addrWords : ElfClass → Nat
  | .elf32 => 1
  | .elf64 => 2

/-- The constant `bloom_mask_bits = sizeof(ElfW(Addr)) * 8` of `GnuLookup`. -/
def bloom_mask_bits (cls : ElfClass) : Nat := (4 * cls.addrWords) * 8

/-- The fields of an `ElfW(Sym)` record that the lookups read. -/
structure ElfSym where
  st_name : Nat
  st_info : Nat
  st_value : Nat
  st_size : Nat
  deriving DecidableEq, Repr

/-- The macro `ELF_ST_TYPE(i)` of `<elf.h>`: the low four bits of `st_info`. -/
def ELF_ST_TYPE (st_info : Nat) : Nat := st_info &&& 0xf

/-- The `<elf.h>` symbol type constant `STT_OBJECT`. -/
def STT_OBJECT : Nat := 1

/-- The `<elf.h>` symbol type constant `STT_FUNC`. -/
def STT_FUNC : Nat := 2

/-- A pointer to 32-bit words, as the view of memory through it. -/
abbrev WordPtr := Int → Nat

/-- Pointer arithmetic `p + k` on a word pointer. -/
def WordPtr.add (p : WordPtr) (k : Int) : WordPtr := fun i => p (k + i)

/-- The read `p[i]` of a `uint32_t`. -/
def WordPtr.get (p : WordPtr) (i : Int) : Nat := p i % 2 ^ 32

/-- The read `((ElfW(Addr) *) p)[k]`: one word for `Elf32`, two little-endian
words for `Elf64`. -/
def readAddr (cls : ElfClass) (p : WordPtr) (k : Int) : Nat :=
  match cls with
  | .elf32 => p.get k
  | .elf64 => p.get (2 * k) + 2 ^ 32 * p.get (2 * k + 1)

/-- The C string that starts at byte offset `off` of `tab`: the bytes up to,
and without, the first NUL.  The bytes given are taken to end with a NUL, as an
ELF string table does: a string that reaches their end stops there. -/
def cstr (tab : Bytes) (off : Nat) : Bytes := (tab.drop off).takeWhile (fun b => b != 0)

/-- The byte values of an ASCII literal. -/
def ascii (s : String) : Bytes := s.toList.map Char.toNat

/-- The test `strcmp(a, b) == 0`. -/
def strcmp_eq (a b : Bytes) : Bool := cstr a 0 == cstr b 0

/-- The order of `std::string_view::operator<`: byte-wise lexicographic, a proper
initial segment first. -/
def keyLt : Bytes → Bytes → Bool
  | [], [] => false
  | [], _ :: _ => true
  | _ :: _, [] => false
  | a :: as, b :: bs => if a < b then true else if b < a then false else keyLt as bs

/-- The test `s.starts_with(p)` of `std::string_view`. -/
def starts_with (s p : Bytes) : Bool := p.isPrefixOf s

/-- Modelled from the spec: the container type of `symtabs_`, declared in
`elf_util.h` (not among the sources).  The spec calls the linear index "an
ordered multi-mapping from symbol name to SymbolEntry": the entries of a
`std::multimap`, listed in iteration order (ascending keys, equal keys in
insertion order).  The mapped value `ElfW(Sym) *` is the record pointed to. -/
abbrev SymMap := List (Bytes × ElfSym)

/-- The member `emplace` of a `std::multimap`: the new entry goes to the upper
bound of its key, behind the entries with an equivalent key. -/
def SymMap.emplace (m : SymMap) (k : Bytes) (v : ElfSym) : SymMap :=
  match m with
  | [] => [(k, v)]
  | e :: rest => if keyLt k e.1 then (k, v) :: e :: rest else e :: SymMap.emplace rest k v

/-- The member `lower_bound`: the iterator to the first entry whose key is not
less than `k`, as the remaining entries from there (`[]` is `end()`). -/
def SymMap.lower_bound (m : SymMap) (k : Bytes) : SymMap :=
  m.dropWhile (fun e => keyLt e.1 k)

/-- The member `find`: the first entry with a key equivalent to `k`. -/
def SymMap.find (m : SymMap) (k : Bytes) : Option (Bytes × ElfSym) :=
  match m.lower_bound k with
  | [] => none
  | e :: _ => if keyLt k e.1 then none else some e

/-- The member `equal_range`: the entries from `lower_bound` up to `upper_bound`. -/
def SymMap.equal_range (m : SymMap) (k : Bytes) : SymMap :=
  (m.lower_bound k).takeWhile (fun e => !keyLt k e.1)

/-- The fields of an `ElfW(Shdr)` section header that `parse` reads. -/
structure ElfShdr where
  sh_name : Nat
  sh_type : Nat
  sh_addr : Nat
  sh_offset : Nat
  sh_size : Nat
  sh_entsize : Nat
  deriving DecidableEq, Repr

/-- The `<elf.h>` section type constant `SHT_PROGBITS`. -/
def SHT_PROGBITS : Nat := 1

/-- The `<elf.h>` section type constant `SHT_SYMTAB`. -/
def SHT_SYMTAB : Nat := 2

/-- The `<elf.h>` section type constant `SHT_STRTAB`. -/
def SHT_STRTAB : Nat := 3

/-- The `<elf.h>` section type constant `SHT_HASH`. -/
def SHT_HASH : Nat := 5

/-- The `<elf.h>` section type constant `SHT_DYNSYM`. -/
def SHT_DYNSYM : Nat := 11

/-- The `<elf.h>` section type constant `SHT_GNU_HASH`. -/
def SHT_GNU_HASH : Nat := 0x6ffffff6

/-- An ELF image in memory (`ElfW(Ehdr) *`), as the views that `parse` takes of
it: its bytes, the `e_shnum` section headers at `e_shoff` in table order, the
bytes at `section_header[e_shstrndx].sh_offset` (the section names), and what
`offsetOf` shows at a byte offset as 32-bit words and as symbol records. -/
structure ElfFile where
  bytes : Bytes
  shdrs : List ElfShdr
  section_str : Bytes
  words : Nat → WordPtr
  syms : Nat → Nat → ElfSym

/-- The state of an `ElfImg` object.  `base = 0` is the null pointer; a section
pointer (`dynsym`, `symtab`, `strtab`) is `none` when null; `elf_debugdata` is
empty while unset. -/
structure ElfImg where
  elf : Bytes
  base : Nat
  size : Int := 0
  bias : Int := -4396
  header : Option Bytes
  header_debugdata : Option Bytes
  elf_debugdata : Bytes := []
  section_header : List ElfShdr := []
  dynsym : Option ElfShdr := none
  dynsym_offset : Nat := 0
  symtab : Option ElfShdr := none
  symtab_offset : Nat := 0
  symtab_size : Nat := 0
  strtab : Option ElfShdr := none
  symstr_offset : Nat := 0
  debugdata_offset : Nat := 0
  debugdata_size : Nat := 0
  dynsym_start : Nat → ElfSym
  strtab_start : Bytes
  symtab_start : Option (Nat → ElfSym)
  symtab_count : Nat
  symstr_offset_for_symtab : Nat
  nbucket_ : Nat
  bucket_ : WordPtr
  chain_ : WordPtr
  gnu_nbucket_ : Nat
  gnu_symndx_ : Nat
  gnu_bloom_size_ : Nat
  gnu_shift2_ : Nat
  gnu_bloom_filter_ : WordPtr
  gnu_bucket_ : WordPtr
  gnu_chain_ : WordPtr
  symtabs_ : SymMap

/-- An image object as its default member initialisers leave it: every field
zero, null or empty, and `bias` at `-4396`.  The initialisers stand in
`elf_util.h`, which is not among the sources; the values are the ones that the
code tests for (`nullptr`, `0`, `-4396`). -/
def blankImg : ElfImg where
  elf := []
  base := 0
  header := none
  header_debugdata := none
  dynsym_start := fun _ => ⟨0, 0, 0, 0⟩
  strtab_start := []
  symtab_start := none
  symtab_count := 0
  symstr_offset_for_symtab := 0
  nbucket_ := 0
  bucket_ := fun _ => 0
  chain_ := fun _ => 0
  gnu_nbucket_ := 0
  gnu_symndx_ := 0
  gnu_bloom_size_ := 0
  gnu_shift2_ := 0
  gnu_bloom_filter_ := fun _ => 0
  gnu_bucket_ := fun _ => 0
  gnu_chain_ := fun _ => 0
  symtabs_ := []

/-! ## `ElfImg::parse`: the hash sections -/

/-- The `SHT_HASH` branch of `parse`; `d_un` points to the section's first word. -/
def parseHash (img : ElfImg) (d_un : WordPtr) : ElfImg :=
  let nbucket := d_un.get 0
  let bucket := d_un.add 2
  { img with nbucket_ := nbucket, bucket_ := bucket, chain_ := bucket.add (nbucket : Int) }

/-- The `SHT_GNU_HASH` branch of `parse`; `d_buf` points to the section's first word. -/
def parseGnuHash (cls : ElfClass) (img : ElfImg) (d_buf : WordPtr) : ElfImg :=
  let nbucket := d_buf.get 0
  let symndx := d_buf.get 1
  let bloom_size := d_buf.get 2
  let shift2 := d_buf.get 3
  let bloom_filter := d_buf.add 4
  let bucket := bloom_filter.add ((cls.addrWords * bloom_size : Nat) : Int)
  { img with
    gnu_nbucket_ := nbucket
    gnu_symndx_ := symndx
    gnu_bloom_size_ := bloom_size
    gnu_shift2_ := shift2
    gnu_bloom_filter_ := bloom_filter
    gnu_bucket_ := bucket
    gnu_chain_ := (bucket.add (nbucket : Int)).add (-(symndx : Int)) }

/-- The cast `(off_t) x` of an `ElfW(Addr)` or `ElfW(Off)` value: the signed
reading of its bits (`off_t` has the width of these types). -/
def off_t_cast (cls : ElfClass) (x : Nat) : Int :=
  if x % 2 ^ (32 * cls.addrWords) < 2 ^ (32 * cls.addrWords - 1) then
    ((x % 2 ^ (32 * cls.addrWords) : Nat) : Int)
  else ((x % 2 ^ (32 * cls.addrWords) : Nat) : Int) - ((2 ^ (32 * cls.addrWords) : Nat) : Int)

/-- The difference `a - b` of two `off_t` values as the compiled code stores it in
an `off_t`: reduced to the signed range of the width of `off_t` (C leaves the
overflow of a signed subtraction undefined). -/
def off_t_sub (cls : ElfClass) (a b : Int) : Int :=
  (a - b + 2 ^ (32 * cls.addrWords - 1)) % 2 ^ (32 * cls.addrWords) -
    2 ^ (32 * cls.addrWords - 1)

/-- The value `-4396` that `bias` holds while the load bias is not computed. -/
def bias_unset : Int := -4396

/-- The `case SHT_DYNSYM` of `parse`. -/
def parse.dynsym_case (hdr : ElfFile) (img : ElfImg) (section_h : ElfShdr) : ElfImg :=
  if img.bias = bias_unset then
    { img with
      dynsym := some section_h
      dynsym_offset := section_h.sh_offset
      dynsym_start := hdr.syms section_h.sh_offset }
  else img

/-- The `case SHT_SYMTAB` of `parse`; `sname` is the section's name.  The
division is that of a run that does not fault: for `sh_entsize` 0 the code
divides by zero, which `parse.faults` tells. -/
def parse.symtab_case (hdr : ElfFile) (img : ElfImg) (section_h : ElfShdr) (sname : Bytes) :
    ElfImg :=
  if strcmp_eq sname (ascii ".symtab") then
    { img with
      symtab := some section_h
      symtab_offset := section_h.sh_offset
      symtab_size := section_h.sh_size
      symtab_count := section_h.sh_size / section_h.sh_entsize
      symtab_start := some (hdr.syms section_h.sh_offset) }
  else img

/-- The first `if` of the `case SHT_STRTAB` of `parse`: the dynamic string table. -/
def parse.strtab_record (hdr : ElfFile) (img : ElfImg) (section_h : ElfShdr) : ElfImg :=
  if img.bias = bias_unset then
    { img with
      strtab := some section_h
      symstr_offset := section_h.sh_offset
      strtab_start := hdr.bytes.drop section_h.sh_offset }
  else img

/-- The `case SHT_STRTAB` of `parse`; `sname` is the section's name. -/
def parse.strtab_case (hdr : ElfFile) (img : ElfImg) (section_h : ElfShdr) (sname : Bytes) :
    ElfImg :=
  if strcmp_eq sname (ascii ".strtab") then
    { parse.strtab_record hdr img section_h with
      symstr_offset_for_symtab := section_h.sh_offset }
  else parse.strtab_record hdr img section_h

/-- The first `if` of the `case SHT_PROGBITS` of `parse`: the debug data. -/
def parse.debugdata_record (img : ElfImg) (section_h : ElfShdr) (sname : Bytes) : ElfImg :=
  if strcmp_eq sname (ascii ".gnu_debugdata") then
    { img with
      debugdata_offset := section_h.sh_offset
      debugdata_size := section_h.sh_size }
  else img

/-- The rest of the `case SHT_PROGBITS` of `parse`: the load bias. -/
def parse.bias_record (cls : ElfClass) (img : ElfImg) (section_h : ElfShdr) : ElfImg :=
  if img.strtab = none ∨ img.dynsym = none then img
  else if img.bias = bias_unset then
    { img with
      bias := off_t_sub cls (off_t_cast cls section_h.sh_addr) (off_t_cast cls section_h.sh_offset) }
  else img

/-- The `case SHT_PROGBITS` of `parse`; `sname` is the section's name. -/
def parse.progbits_case (cls : ElfClass) (img : ElfImg) (section_h : ElfShdr) (sname : Bytes) :
    ElfImg :=
  parse.bias_record cls (parse.debugdata_record img section_h sname) section_h

/-- Whether `parse` faults on the table of `hdr`: the division `symtab_size /
entsize` of the `case SHT_SYMTAB` is not guarded, so a section `.symtab` with
`sh_entsize` 0 stops the process with a division by zero.  This depends on the
table alone. -/
def parse.faults (hdr : ElfFile) : Bool :=
  hdr.shdrs.any (fun section_h =>
    decide (section_h.sh_type = SHT_SYMTAB) &&
      strcmp_eq (cstr hdr.section_str section_h.sh_name) (ascii ".symtab") &&
      decide (section_h.sh_entsize = 0))

/-- One run of the body of the `for` loop of `parse`, for the section header
`section_h` of the image `hdr`. -/
def parse.step (cls : ElfClass) (hdr : ElfFile) (img : ElfImg) (section_h : ElfShdr) : ElfImg :=
  let sname := cstr hdr.section_str section_h.sh_name
  if section_h.sh_type = SHT_DYNSYM then parse.dynsym_case hdr img section_h
  else if section_h.sh_type = SHT_SYMTAB then parse.symtab_case hdr img section_h sname
  else if section_h.sh_type = SHT_STRTAB then parse.strtab_case hdr img section_h sname
  else if section_h.sh_type = SHT_PROGBITS then parse.progbits_case cls img section_h sname
  else if section_h.sh_type = SHT_HASH then parseHash img (hdr.words section_h.sh_offset)
  else if section_h.sh_type = SHT_GNU_HASH then
    parseGnuHash cls img (hdr.words section_h.sh_offset)
  else img

/-- The walk of `ElfImg::parse` over the section header table: the object behind
it, for a table on which the walk does not fault (`parse.faults`). -/
def parse (cls : ElfClass) (img : ElfImg) (hdr : ElfFile) : ElfImg :=
  hdr.shdrs.foldl (parse.step cls hdr) { img with section_header := hdr.shdrs }

/-- The method `ElfImg::parse` as a call: `none` when the walk faults with a
division by zero, else the object behind the walk. -/
def parse.run (cls : ElfClass) (img : ElfImg) (hdr : ElfFile) : Option ElfImg :=
  if parse.faults hdr = true then none else some (parse cls img hdr)

/-! ## The three lookup strategies -/

/-- The `for` loop of `ElfLookup`, entered with chain index `n`; `fuel` bounds
the number of runs of the body. -/
def ElfLookup.loop (img : ElfImg) (name : Bytes) : Nat → Nat → Option Nat
  | fuel, n =>
    if n = 0 then some 0
    else
      match fuel with
      | 0 => none
      | fuel + 1 =>
        let sym := img.dynsym_start n
        if name = cstr img.strtab_start sym.st_name then some sym.st_value
        else ElfLookup.loop img name fuel (img.chain_.get (n : Int))

/-- The method `ElfImg::ElfLookup`. -/
def ElfLookup (img : ElfImg) (fuel : Nat) (name : Bytes) (hash : Nat) : Option Nat :=
  if img.nbucket_ = 0 then some 0
  else ElfLookup.loop img name fuel (img.bucket_.get ((hash % img.nbucket_ : Nat) : Int))

/-- The `do ... while` loop of `GnuLookup`, entered with `sym_index`; `fuel`
bounds the number of runs of the body.  Leaving the loop leads to `return 0`. -/
def GnuLookup.loop (img : ElfImg) (name : Bytes) (hash : Nat) : Nat → Nat → Option Nat
  | 0, _ => none
  | fuel + 1, sym_index =>
    let sym := img.dynsym_start sym_index
    if (img.gnu_chain_.get (sym_index : Int) ^^^ hash) >>> 1 = 0 ∧
        name = cstr img.strtab_start sym.st_name then some sym.st_value
    else if img.gnu_chain_.get (sym_index : Int) &&& 1 = 0 then
      GnuLookup.loop img name hash fuel ((sym_index + 1) % 2 ^ 32)
    else some 0

/-- The bloom mask of `GnuLookup`: the two bits derived from the hash.  The
shift `hash >> gnu_shift2_` is a shift of a `uint32_t`: for a count below 32 it
is the mathematical shift; C leaves a count of 32 or more undefined, and the
compiled code (x86-64, AArch64) takes the count modulo 32, which is what stands
here. -/
def GnuLookup.mask (cls : ElfClass) (img : ElfImg) (hash : Nat) : Nat :=
  0 ||| 1 <<< (hash % bloom_mask_bits cls) |||
    1 <<< ((hash >>> (img.gnu_shift2_ % 32)) % bloom_mask_bits cls)

/-- The bloom word that `GnuLookup` selects for the hash. -/
def GnuLookup.bloom_word (cls : ElfClass) (img : ElfImg) (hash : Nat) : Nat :=
  readAddr cls img.gnu_bloom_filter_
    (((hash / bloom_mask_bits cls) % img.gnu_bloom_size_ : Nat) : Int)

/-- The method `ElfImg::GnuLookup`. -/
def GnuLookup (cls : ElfClass) (img : ElfImg) (fuel : Nat) (name : Bytes) (hash : Nat) :
    Option Nat :=
  if img.gnu_nbucket_ = 0 ∨ img.gnu_bloom_size_ = 0 then some 0
  else
    let bloom_word := GnuLookup.bloom_word cls img hash
    let mask := GnuLookup.mask cls img hash
    if mask &&& bloom_word = mask then
      let sym_index := img.gnu_bucket_.get ((hash % img.gnu_nbucket_ : Nat) : Int)
      if sym_index ≥ img.gnu_symndx_ then GnuLookup.loop img name hash fuel sym_index
      else some 0
    else some 0

/-- The image bytes that `MayInitLinearMap` reads names from:
`header_debugdata != nullptr ? header_debugdata : header`. -/
def ElfImg.hdr (img : ElfImg) : Bytes :=
  match img.header_debugdata with
  | some d => d
  | none => img.header.getD []

/-- One run of the body of the `for` loop of `MayInitLinearMap`. -/
def MayInitLinearMap.step (hdr : Bytes) (symstr_offset_for_symtab : Nat)
    (symtab_start : Nat → ElfSym) (m : SymMap) (i : Nat) : SymMap :=
  let st_type := ELF_ST_TYPE (symtab_start i).st_info
  let st_name := cstr hdr (symstr_offset_for_symtab + (symtab_start i).st_name)
  if (st_type = STT_FUNC ∨ st_type = STT_OBJECT) ∧ (symtab_start i).st_size ≠ 0 then
    m.emplace st_name (symtab_start i)
  else m

/-- The method `ElfImg::MayInitLinearMap`. -/
def MayInitLinearMap (img : ElfImg) : ElfImg :=
  if img.symtabs_.isEmpty then
    match img.symtab_start with
    | some symtab_start =>
      if img.symstr_offset_for_symtab ≠ 0 then
        { img with
          symtabs_ := (List.range img.symtab_count).foldl
            (MayInitLinearMap.step img.hdr img.symstr_offset_for_symtab symtab_start)
            img.symtabs_ }
      else img
    | none => img
  else img

/-- The method `ElfImg::LinearLookup`: the result and the image with its cache. -/
def LinearLookup (img : ElfImg) (name : Bytes) : Nat × ElfImg :=
  let img1 := MayInitLinearMap img
  match img1.symtabs_.find name with
  | some e => (e.2.st_value, img1)
  | none => (0, img1)

/-- The method `ElfImg::LinearRangeLookup`. -/
def LinearRangeLookup (img : ElfImg) (name : Bytes) : List Nat × ElfImg :=
  let img1 := MayInitLinearMap img
  ((img1.symtabs_.equal_range name).foldl (fun res e => res ++ [e.2.st_value]) [], img1)

/-- The method `ElfImg::PrefixLookupFirst`. -/
def PrefixLookupFirst (img : ElfImg) (pfx : Bytes) : Nat × ElfImg :=
  let img1 := MayInitLinearMap img
  match img1.symtabs_.lower_bound pfx with
  | e :: _ => if starts_with e.1 pfx then (e.2.st_value, img1) else (0, img1)
  | [] => (0, img1)

/-- The method `ElfImg::getSymbOffset`. -/
def getSymbOffset (cls : ElfClass) (img : ElfImg) (fuel : Nat) (name : Bytes)
    (gnu_hash elf_hash : Nat) : Option (Nat × ElfImg) :=
  match GnuLookup cls img fuel name gnu_hash with
  | none => none
  | some offset =>
    if offset > 0 then some (offset, img)
    else
      match ElfLookup img fuel name elf_hash with
      | none => none
      | some offset =>
        if offset > 0 then some (offset, img)
        else
          let r := LinearLookup img name
          if r.1 > 0 then some (r.1, r.2) else some (0, r.2)

/-! ## `ElfImg::findModuleBase` -/

/-- The test `strstr(haystack, needle) != nullptr`: the C string `needle` occurs
in the C string `haystack`. -/
def strstr_found (haystack needle : Bytes) : Bool :=
  decide (cstr needle 0 <:+: cstr haystack 0)

/-- The width of `uintptr_t` in bits, which is that of `ElfW(Addr)`. -/
def uintptr_bits (cls : ElfClass) : Nat := 32 * cls.addrWords

/-- The struct `MapEntry`. -/
structure MapEntry where
  start_addr : Nat
  perms : Bytes
  pathname : Bytes
  deriving DecidableEq, Repr

/-- What `sscanf` made of one line of the map listing: the number of items
assigned and the three output buffers. -/
structure MapLine where
  items_parsed : Int
  temp_start : Nat
  p : Bytes
  path_buffer : Bytes
  deriving DecidableEq, Repr

/-- Step 1 of `findModuleBase`: the `while` loop that builds `filtered_list`.
The cast of `temp_start` to `uintptr_t` keeps its low bits. -/
def filterMaps (cls : ElfClass) (elf : Bytes) (lines : List MapLine) : List MapEntry :=
  lines.foldl
    (fun filtered_list line =>
      if line.items_parsed = 3 ∧ strstr_found line.path_buffer elf then
        filtered_list ++
          [{ start_addr := line.temp_start % 2 ^ uintptr_bits cls
             perms := (cstr line.p 0).take 4
             pathname := cstr line.path_buffer 0 }]
      else filtered_list)
    []

/-- The condition of the step 2 loop at index `i`: entry `i` is `r--p` and the
entry behind it is `r-xp`. -/
def pairAt (filtered_list : List MapEntry) (i : Nat) : Bool :=
  match filtered_list.get? i, filtered_list.get? (i + 1) with
  | some a, some b => strcmp_eq a.perms (ascii "r--p") && strcmp_eq b.perms (ascii "r-xp")
  | _, _ => false

/-- Steps 2 and its fallback: the value of `found_block` behind the two loops. -/
def findBlock (filtered_list : List MapEntry) : Option MapEntry :=
  match (List.range (filtered_list.length - 1)).find? (pairAt filtered_list) with
  | some i => filtered_list.get? i
  | none => filtered_list.find? (fun entry => strcmp_eq entry.perms (ascii "r-xp"))

/-- The method `ElfImg::findModuleBase`; `maps` is `none` when `fopen` fails and
the parsed lines of `/proc/self/maps` otherwise. -/
def findModuleBase (cls : ElfClass) (img : ElfImg) (maps : Option (List MapLine)) :
    Bool × ElfImg :=
  match maps with
  | none => (false, img)
  | some lines =>
    let filtered_list := filterMaps cls img.elf lines
    if filtered_list.isEmpty then (false, img)
    else
      match findBlock filtered_list with
      | none => (false, img)
      | some found_block =>
        (true, { img with base := found_block.start_addr, elf := found_block.pathname })

/-! ## `ElfImg::xzdecompress` -/

/-- The values of `enum xz_ret` (`linux/xz.h`) that `xz_dec_run` returns; `other`
is a value outside the enumeration. -/
inductive xz_ret where
  | XZ_OK
  | XZ_STREAM_END
  | XZ_UNSUPPORTED_CHECK
  | XZ_MEM_ERROR
  | XZ_MEMLIMIT_ERROR
  | XZ_FORMAT_ERROR
  | XZ_OPTIONS_ERROR
  | XZ_DATA_ERROR
  | XZ_BUF_ERROR
  | other (n : Nat)
  deriving DecidableEq, Repr

/-- The decoder of `linux/xz.h`, an external collaborator: `xz_dec_init` gives
its state or fails, and a call of `xz_dec_run` with the input bytes and the
number of free bytes of the output window gives the next state, the bytes
appended to the window and the return value. -/
structure XzDecoder where
  σ : Type
  xz_dec_init : Option σ
  xz_dec_run : σ → Bytes → Nat → σ × Bytes × xz_ret

/-- The macro `BUFSIZE`. -/
def BUFSIZE : Nat := 1024 * 1024

/-- The variables of the decode loop: the decoder state, the contents of the
block that `sBuffOut` points to (by byte offset), `iSzOut`, the offset of
`str_xz_buf.out` from `sBuffOut`, `str_xz_buf.out_pos` and `iSkip`.  `iSzOut` is
an `int`; it is kept unbounded here, and leaves the range of `int` only behind
two thousand chunks. -/
structure XzLoop (σ : Type) where
  dec : σ
  sBuffOut : Nat → Nat
  iSzOut : Int
  out : Nat
  out_pos : Nat
  iSkip : Nat

/-- The memory `buf` after `bytes` were stored from offset `pos` on. -/
def writeAt (buf : Nat → Nat) (pos : Nat) (bytes : Bytes) : Nat → Nat := fun i =>
  if pos ≤ i ∧ i < pos + bytes.length then bytes.getD (i - pos) 0 else buf i

/-- One call of `xz_dec_run` and the `if` on `out_pos` behind it: the variables
afterwards, the bytes appended and the return value.  The decoder writes inside
the window only, and `iSkip` is a `uint8_t`. -/
def xzdecompress.call (d : XzDecoder) (input : Bytes) (st : XzLoop d.σ) :
    XzLoop d.σ × Bytes × xz_ret :=
  let r := d.xz_dec_run st.dec input (BUFSIZE - st.out_pos)
  let written := r.2.1.take (BUFSIZE - st.out_pos)
  let st1 : XzLoop d.σ :=
    { st with
      dec := r.1
      sBuffOut := writeAt st.sBuffOut (st.out + st.out_pos) written
      out_pos := st.out_pos + written.length }
  let st2 : XzLoop d.σ :=
    if st1.out_pos = BUFSIZE then { st1 with out_pos := 0, iSkip := (st1.iSkip + 1) % 2 ^ 8 }
    else { st1 with iSzOut := st1.iSzOut - ((BUFSIZE - st1.out_pos : Nat) : Int) }
  (st2, written, r.2.2)

/-- The block `if (ret == XZ_OK)` of the decode loop: one more chunk; `realloc`
keeps the contents of the block. -/
def xzdecompress.grow {σ : Type} (st : XzLoop σ) : XzLoop σ :=
  { st with iSzOut := st.iSzOut + (BUFSIZE : Int), out := st.iSkip * BUFSIZE }

/-- The `while (true)` loop of `xzdecompress`; `fuel` bounds the number of calls
of `xz_dec_run`, and `any_check` tells whether `XZ_DEC_ANY_CHECK` is defined.
The result is the state behind the loop and the last return value. -/
def xzdecompress.loop (d : XzDecoder) (any_check : Bool) (input : Bytes) :
    Nat → XzLoop d.σ → Option (XzLoop d.σ × xz_ret)
  | 0, _ => none
  | fuel + 1, st =>
    let c := xzdecompress.call d input st
    if c.2.2 = xz_ret.XZ_OK then
      xzdecompress.loop d any_check input fuel (xzdecompress.grow c.1)
    else if any_check = true ∧ c.2.2 = xz_ret.XZ_UNSUPPORTED_CHECK then
      xzdecompress.loop d any_check input fuel c.1
    else some (c.1, c.2.2)

/-- The input of the decoder: `debugdata_size` bytes at `header + debugdata_offset`. -/
def xzdecompress.input (img : ElfImg) : Bytes :=
  ((img.header.getD []).drop img.debugdata_offset).take img.debugdata_size

/-- The variables of the decode loop before its first run: one chunk of memory
as `malloc` returned it, nothing written. -/
def xzdecompress.start (d : XzDecoder) (heap : Nat → Nat) (str_xz_dec : d.σ) : XzLoop d.σ :=
  { dec := str_xz_dec, sBuffOut := heap, iSzOut := (BUFSIZE : Int), out := 0, out_pos := 0,
    iSkip := 0 }

/-- The method `ElfImg::xzdecompress`.  `malloc_ok` tells whether the first
`malloc` succeeds and `heap` is what the memory it returns holds.  The result is
`none` when the call does not return: the bound on the calls of `xz_dec_run` is
reached, or `iSzOut` is negative behind the loop, where the constructor of
`std::string` throws `std::length_error` for the length `(size_t) iSzOut`. -/
def xzdecompress (d : XzDecoder) (any_check malloc_ok : Bool) (heap : Nat → Nat) (fuel : Nat)
    (img : ElfImg) : Option (Bool × ElfImg) :=
  match d.xz_dec_init with
  | none => some (false, img)
  | some str_xz_dec =>
    if malloc_ok = false then some (false, img)
    else
      match xzdecompress.loop d any_check (xzdecompress.input img) fuel
          (xzdecompress.start d heap str_xz_dec) with
      | none => none
      | some (st, ret) =>
        let bError := decide (ret ≠ xz_ret.XZ_STREAM_END)
        if bError = true then some (false, img)
        else if st.sBuffOut 0 ≠ 0x7F ∧ st.sBuffOut 1 ≠ 0x45 ∧ st.sBuffOut 2 ≠ 0x4C ∧
            st.sBuffOut 3 ≠ 0x46 then some (false, img)
        else if st.iSzOut < 0 then none
        else some (true, { img with elf_debugdata := (List.range st.iSzOut.toNat).map st.sBuffOut })

/-! ## The constructor `ElfImg::ElfImg` -/

/-- What `open`, `lseek` and `mmap` give for a file that can be opened: its
length and its mapping, `none` for `MAP_FAILED`. -/
structure OpenFile where
  size : Int
  mapped : Option ElfFile

/-- The surroundings of a construction: the map listing (`none` when `fopen`
fails), the files (`none` when `open` fails), the decoder with its build flag,
the allocator, and how `reinterpret_cast<ElfW(Ehdr) *>` shows a byte buffer. -/
structure Env where
  maps : Option (List MapLine)
  files : Bytes → Option OpenFile
  decoder : XzDecoder
  any_check : Bool
  malloc_ok : Bool
  heap : Nat → Nat
  as_elf : Bytes → ElfFile

/-- What a construction does to the outside: a call of `open` on a path, a call
of `parse` on an image (`none` for the pointer `MAP_FAILED`). -/
inductive Event where
  | open_file (path : Bytes)
  | parse_image (bytes : Option Bytes)
  deriving DecidableEq, Repr

/-- The outcome of a construction: the object, the calls made in order, and
whether the construction ran into unmapped memory or a division by zero. -/
structure Constructed where
  img : ElfImg
  events : List Event
  crashed : Bool

/-- Modelled from the spec: the test `isStripped()`, declared in `elf_util.h`
(not among the sources).  The spec: "If no `.symtab` section was found (binary
is stripped) and a `.gnu_debugdata` section exists, invoke the Decompressor". -/
def isStripped (img : ElfImg) : Bool :=
  decide (img.symtab = none ∧ img.debugdata_offset ≠ 0)

/-- Modelled from the spec: the validity check `isValid()`, declared in
`elf_util.h` (not among the sources).  The spec: an invalid image is
"equivalent to a null/empty handle", that is, its base is null. -/
def isValid (img : ElfImg) : Bool := decide (img.base ≠ 0)

/-- The end of the constructor, behind the first `parse`: the nested image. -/
def ElfImg.debugdata (cls : ElfClass) (env : Env) (fuel : Nat) (img : ElfImg) :
    Option Constructed :=
  if isStripped img = true then
    match xzdecompress env.decoder env.any_check env.malloc_ok env.heap fuel img with
    | none => none
    | some (false, img1) => some { img := img1, events := [], crashed := false }
    | some (true, img1) =>
      match parse.run cls { img1 with header_debugdata := some img1.elf_debugdata }
          (env.as_elf img1.elf_debugdata) with
      | none =>
        some
          { img := { img1 with header_debugdata := some img1.elf_debugdata }
            events := [Event.parse_image (some img1.elf_debugdata)]
            crashed := true }
      | some img2 =>
        some
          { img := img2
            events := [Event.parse_image (some img1.elf_debugdata)]
            crashed := false }
  else some { img := img, events := [], crashed := false }

/-- The constructor `ElfImg::ElfImg(base_name)`.  A `parse` of `MAP_FAILED`
reads unmapped memory and a `parse` that faults divides by zero: the
construction ends there as crashed, with the object as it was at the call. -/
def ElfImg.ctor (cls : ElfClass) (env : Env) (fuel : Nat) (base_name : Bytes) :
    Option Constructed :=
  match findModuleBase cls { blankImg with elf := base_name } env.maps with
  | (false, img) => some { img := { img with base := 0 }, events := [], crashed := false }
  | (true, img) =>
    match env.files (cstr img.elf 0) with
    | none => some { img := img, events := [Event.open_file (cstr img.elf 0)], crashed := false }
    | some f =>
      match f.mapped with
      | none =>
        some
          { img := { img with size := f.size }
            events := [Event.open_file (cstr img.elf 0), Event.parse_image none]
            crashed := true }
      | some hdr =>
        match parse.run cls { img with size := f.size, header := some hdr.bytes } hdr with
        | none =>
          some
            { img := { img with size := f.size, header := some hdr.bytes }
              events := [Event.open_file (cstr img.elf 0), Event.parse_image (some hdr.bytes)]
              crashed := true }
        | some img2 =>
          match ElfImg.debugdata cls env fuel img2 with
          | none => none
          | some r =>
            some
              { img := r.img
                events :=
                  [Event.open_file (cstr img.elf 0), Event.parse_image (some hdr.bytes)] ++
                    r.events
                crashed := r.crashed }

/-! ## The key/value store of the OAT header (`oat_hook.cpp`) -/

/-- The constant `param_to_remove`. -/
def param_to_remove : Bytes := ascii " --inline-max-code-units=0"

/-- The bytes of the range `[first, last)` of a block of memory. -/
def memRange (mem : Nat → Nat) (first last : Nat) : Bytes :=
  (List.range' first (last - first)).map mem

/-- The call `std::search(store_begin, store_end, s_first, s_last)`, by offset
from `store_begin`: the start of the first occurrence of the pattern in the
range, and `store_end` when there is none. -/
def std_search (mem : Nat → Nat) (store_end : Nat) (pat : Bytes) : Nat :=
  ((List.range (store_end + 1 - pat.length)).find?
    (fun i => decide (memRange mem i (i + pat.length) = pat))).getD store_end

/-- Step 2 of `ModifyStoreInPlace`: the value of `has_padding`, for the parameter
found at offset `location_of_param`. -/
def ModifyStoreInPlace.has_padding (mem : Nat → Nat) (store_end location_of_param : Nat) :
    Bool :=
  let byte_after_param := location_of_param + param_to_remove.length
  decide (byte_after_param + 1 < store_end ∧ mem (byte_after_param + 1) = 0)

/-- CASE A of `ModifyStoreInPlace`: the memory behind the `memset`. -/
def ModifyStoreInPlace.overwrite (mem : Nat → Nat) (location_of_param : Nat) : Nat → Nat :=
  writeAt mem location_of_param (List.replicate param_to_remove.length 0)

/-- CASE B of `ModifyStoreInPlace`: the memory behind the `memmove`, which
copies as if through a buffer of its own. -/
def ModifyStoreInPlace.shift (mem : Nat → Nat) (store_end location_of_param : Nat) :
    Nat → Nat :=
  let source := location_of_param + param_to_remove.length
  let destination := location_of_param
  let bytes_to_move := store_end - source
  if bytes_to_move > 0 then
    writeAt mem destination (memRange mem source (source + bytes_to_move))
  else mem

/-- The function `ModifyStoreInPlace`: the value returned and the memory at
`store` afterwards (`none` is the null pointer). -/
def ModifyStoreInPlace (store : Option (Nat → Nat)) (store_size : Nat) :
    Bool × Option (Nat → Nat) :=
  match store with
  | none => (false, none)
  | some mem =>
    if store_size = 0 then (false, some mem)
    else
      let store_end := store_size
      let it := std_search mem store_end param_to_remove
      if it = store_end then (false, some mem)
      else if ModifyStoreInPlace.has_padding mem store_end it = true then
        (false, some (ModifyStoreInPlace.overwrite mem it))
      else (true, some (ModifyStoreInPlace.shift mem store_end it))

/-- The fields of `art::OatHeader` that the hooks reach: the size field and the
memory from `key_value_store_` on. -/
structure OatHeader where
  key_value_store_size_ : Nat
  key_value_store_ : Nat → Nat

/-- The function of ART behind `old__ZNK3art9OatHeader20GetKeyValueStoreSizeEv`;
`oat.cpp` gives the body of `OatHeader::GetKeyValueStoreSize`: it reads the size
field. -/
def old_GetKeyValueStoreSize (header : OatHeader) : Nat := header.key_value_store_size_ % 2 ^ 32

/-- The function of ART behind `old__ZNK3art9OatHeader16GetKeyValueStoreEv`;
`oat.cpp` gives the body of `OatHeader::GetKeyValueStore`: the address of the
store inside the header, which is never null. -/
def old_GetKeyValueStore (header : OatHeader) : Option (Nat → Nat) :=
  some header.key_value_store_

/-- What the hooks work on: the header and the global `store_resized`. -/
structure HookState where
  header : OatHeader
  store_resized : Bool

/-- The hook `new__ZNK3art9OatHeader20GetKeyValueStoreSizeEv`: the value
returned, a `uint32_t`. -/
def new_GetKeyValueStoreSize (st : HookState) : Nat :=
  let size := old_GetKeyValueStoreSize st.header
  if st.store_resized = true then (size + 2 ^ 32 - param_to_remove.length % 2 ^ 32) % 2 ^ 32
  else size

/-- The hook `new__ZNK3art9OatHeader16GetKeyValueStoreEv`: the state afterwards;
the value returned is the address of the store. -/
def new_GetKeyValueStore (st : HookState) : HookState :=
  let key_value_store_ := old_GetKeyValueStore st.header
  let key_value_store_size_ := old_GetKeyValueStoreSize st.header
  let r := ModifyStoreInPlace key_value_store_ key_value_store_size_
  { header := { st.header with key_value_store_ := r.2.getD st.header.key_value_store_ }
    store_resized := r.1 }

/-! ## Specification-side definitions -/

/-- The resolver as the spec words it: the strategies are tried in the given
order, the first success (a non-zero address) is returned, and NotFound (zero)
when all of them fail.  A strategy that does not finish (`none`) is reached only
when the ones before it failed. -/
def resolveSpec : List (Option Nat) → Option Nat
  | [] => some 0
  | none :: _ => none
  | some a :: rest => if a ≠ 0 then some a else resolveSpec rest

/-- Entries `i` and `i + 1` of the list form an adjacent (`r--p`, `r-xp`) pair. -/
def IsPair (filtered_list : List MapEntry) (i : Nat) : Prop :=
  ∃ a b, filtered_list.get? i = some a ∧ filtered_list.get? (i + 1) = some b ∧
    a.perms = ascii "r--p" ∧ b.perms = ascii "r-xp"

/-- The invariant of the multimap: keys ascend in iteration order. -/
def SymMap.Ordered (m : SymMap) : Prop := m.Pairwise (fun a b => keyLt b.1 a.1 = false)


/-- A symbol qualifies for the linear index: function or object type, non-zero size. -/
def indexed (s : ElfSym) : Bool :=
  decide ((ELF_ST_TYPE s.st_info = STT_FUNC ∨ ELF_ST_TYPE s.st_info = STT_OBJECT) ∧ s.st_size ≠ 0)

/-- The bytes of the image that holds the static symbol table and its string
table: the decompressed debug data when the object has them (the static tables
of a stripped file are recovered from there), the mapped file otherwise. -/
def staticImage (img : ElfImg) : Bytes :=
  match img.header_debugdata with
  | some nested => nested
  | none => img.header.getD []

/-- The name of static symbol `i`: the C string at its name offset in the static
string table, which starts at the recorded offset of `.strtab` in the image that
holds the static tables. -/
def staticName (img : ElfImg) (tab : Nat → ElfSym) (i : Nat) : Bytes :=
  cstr (staticImage img) (img.symstr_offset_for_symtab + (tab i).st_name)

/-- The qualifying symbols of the static symbol table with their names, in the
order in which the table stores them. -/
def indexedEntries (img : ElfImg) (tab : Nat → ElfSym) : List (Bytes × ElfSym) :=
  ((List.range img.symtab_count).filter (fun i => indexed (tab i))).map
    (fun i => (staticName img tab i, tab i))

/-- The states of the cache `symtabs_` that an image can be in: still empty, or
holding what the lazy build makes of the image's static symbol table. -/
def ElfImg.cacheReachable (img : ElfImg) : Prop :=
  img.symtabs_ = [] ∨ img.symtabs_ = (MayInitLinearMap { img with symtabs_ := [] }).symtabs_

/-- The name of dynamic symbol `i`: the C string at its name offset in the
dynamic string table. -/
def dynName (img : ElfImg) (i : Nat) : Bytes :=
  cstr img.strtab_start (img.dynsym_start i).st_name

/-- Bucket entry `b` of a HASH section: the bucket array starts at word 2. -/
def hashBucketWord (sec : WordPtr) (b : Nat) : Nat := sec.get (2 + (b : Int))

/-- Chain entry `n` of a HASH section: the chain array follows the buckets,
whose count is word 0. -/
def hashChainWord (sec : WordPtr) (n : Nat) : Nat :=
  sec.get (2 + (sec.get 0 : Int) + (n : Int))

/-- The SysV chain entered at index `n` visits exactly the indices `l`, in this
order, and then reaches the terminator 0. -/
def ChainWalk (chain : Nat → Nat) : Nat → List Nat → Prop
  | n, [] => n = 0
  | n, m :: l => n ≠ 0 ∧ m = n ∧ ChainWalk chain (chain n) l

/-- Bloom word `k` of a GNU_HASH section: the filter starts at word 4, behind
the four header words (bucket count, symbol-index floor, bloom word count,
shift). -/
def gnuBloomWord (cls : ElfClass) (sec : WordPtr) (k : Nat) : Nat :=
  readAddr cls (sec.add 4) (k : Int)

/-- Bucket entry `b` of a GNU_HASH section: the bucket array follows the bloom
filter of `sec[2]` address-sized words. -/
def gnuBucketWord (cls : ElfClass) (sec : WordPtr) (b : Nat) : Nat :=
  sec.get (4 + ((cls.addrWords * sec.get 2 : Nat) : Int) + (b : Int))

/-- The chain entry of symbol `i` in a GNU_HASH section: word `i` minus the
symbol-index floor `sec[1]` of the chain array, which follows the `sec[0]`
buckets. -/
def gnuChainWord (cls : ElfClass) (sec : WordPtr) (i : Nat) : Nat :=
  sec.get (4 + ((cls.addrWords * sec.get 2 : Nat) : Int) + (sec.get 0 : Int) +
    ((i : Int) - (sec.get 1 : Int)))

/-- The run of symbols that starts at `start` ends at `e`: `e` is the first
index from `start` on whose chain entry has its lowest bit set. -/
def GnuRunEnd (chain : Nat → Nat) (start e : Nat) : Prop :=
  start ≤ e ∧ e < 2 ^ 32 ∧ (∀ i, start ≤ i → i < e → chain i % 2 = 0) ∧ chain e % 2 = 1

/-- Symbol `i` qualifies for the query: its chain entry equals the hash in every
bit but the lowest, and its name equals the queried name. -/
def gnuQualifies (img : ElfImg) (chain : Nat → Nat) (name : Bytes) (hash : Nat) (i : Nat) :
    Bool :=
  decide (chain i / 2 = hash / 2 ∧ name = dynName img i)

/-- The value of the first symbol among `start, ..., e` that qualifies, and 0
when none does. -/
def gnuRunResult (img : ElfImg) (chain : Nat → Nat) (name : Bytes) (hash : Nat)
    (start e : Nat) : Nat :=
  match (List.range' start (e - start + 1)).find? (gnuQualifies img chain name hash) with
  | some i => (img.dynsym_start i).st_value
  | none => 0

/-- The value of the first symbol of the chain `l` with the queried name, and 0
when there is none. -/
def chainResult (img : ElfImg) (name : Bytes) (l : List Nat) : Nat :=
  match l.find? (fun n => decide (name = dynName img n)) with
  | some n => (img.dynsym_start n).st_value
  | none => 0

/-- Whether a list of indices is the walk of a chain can be computed. -/
instance ChainWalk.decidable (chain : Nat → Nat) : ∀ n l, Decidable (ChainWalk chain n l)
  | n, [] => inferInstanceAs (Decidable (n = 0))
  | n, m :: l =>
    have := ChainWalk.decidable chain (chain n) l
    inferInstanceAs (Decidable (n ≠ 0 ∧ m = n ∧ ChainWalk chain (chain n) l))

/-- The SysV hash table of the image is well formed over the dynamic symbols
`syms`, for the hash function `hS`: there is at least one bucket, the chain of
every bucket ends in 0 and links only symbols of `syms`, and every symbol of
`syms` is linked into the chain of the bucket that the hash of its name
selects. -/
structure SysvWellFormed (img : ElfImg) (hS : Bytes → Nat) (syms : List Nat) : Prop where
  nbucket_ne : img.nbucket_ ≠ 0
  chains_end : ∀ b, b < img.nbucket_ →
    ∃ l, ChainWalk (fun n => img.chain_.get (n : Int)) (img.bucket_.get (b : Int)) l ∧
      ∀ s ∈ l, s ∈ syms
  complete : ∀ s ∈ syms,
    ∃ l, ChainWalk (fun n => img.chain_.get (n : Int))
      (img.bucket_.get ((hS (dynName img s) % img.nbucket_ : Nat) : Int)) l ∧ s ∈ l

/-- The GNU hash table of the image is well formed over the dynamic symbols
`syms`, for the hash function `hG`: the table is not empty, its shift count is
below 32 (the width of the hash), the run of every
bucket whose entry is not below the symbol-index floor ends with a chain entry
that has its lowest bit set and holds only symbols of `syms`, and for every
symbol of `syms` both bloom bits of the hash of its name are set and the symbol
stands, with that hash as its chain entry, in the run of the bucket that the
hash selects. -/
structure GnuWellFormed (cls : ElfClass) (img : ElfImg) (hG : Bytes → Nat) (syms : List Nat) :
    Prop where
  nbucket_ne : img.gnu_nbucket_ ≠ 0
  bloom_size_ne : img.gnu_bloom_size_ ≠ 0
  shift_lt : img.gnu_shift2_ < 32
  runs_end : ∀ b, b < img.gnu_nbucket_ → img.gnu_symndx_ ≤ img.gnu_bucket_.get (b : Int) →
    ∃ e, GnuRunEnd (fun i => img.gnu_chain_.get (i : Int)) (img.gnu_bucket_.get (b : Int)) e ∧
      ∀ i, img.gnu_bucket_.get (b : Int) ≤ i → i ≤ e → i ∈ syms
  bloom_set : ∀ s ∈ syms,
    (readAddr cls img.gnu_bloom_filter_
      (((hG (dynName img s) / bloom_mask_bits cls) % img.gnu_bloom_size_ : Nat) : Int)).testBit
        (hG (dynName img s) % bloom_mask_bits cls) = true ∧
    (readAddr cls img.gnu_bloom_filter_
      (((hG (dynName img s) / bloom_mask_bits cls) % img.gnu_bloom_size_ : Nat) : Int)).testBit
        ((hG (dynName img s) >>> img.gnu_shift2_) % bloom_mask_bits cls) = true
  complete : ∀ s ∈ syms,
    img.gnu_symndx_ ≤
        img.gnu_bucket_.get ((hG (dynName img s) % img.gnu_nbucket_ : Nat) : Int) ∧
      ∃ e, GnuRunEnd (fun i => img.gnu_chain_.get (i : Int))
          (img.gnu_bucket_.get ((hG (dynName img s) % img.gnu_nbucket_ : Nat) : Int)) e ∧
        img.gnu_bucket_.get ((hG (dynName img s) % img.gnu_nbucket_ : Nat) : Int) ≤ s ∧ s ≤ e ∧
        img.gnu_chain_.get (s : Int) / 2 = hG (dynName img s) / 2

/-- The state of `parse` behind the sections `pre` of the table of `hdr`. -/
def parse.upTo (cls : ElfClass) (hdr : ElfFile) (img : ElfImg) (pre : List ElfShdr) : ElfImg :=
  pre.foldl (parse.step cls hdr) { img with section_header := hdr.shdrs }

/-- Two states record the same dynamic symbol table: section, offset and start
pointer. -/
def SameDynsym (a b : ElfImg) : Prop :=
  a.dynsym = b.dynsym ∧ a.dynsym_offset = b.dynsym_offset ∧ a.dynsym_start = b.dynsym_start

/-- Two states record the same dynamic string table: section, offset and start
pointer. -/
def SameDynstr (a b : ElfImg) : Prop :=
  a.strtab = b.strtab ∧ a.symstr_offset = b.symstr_offset ∧ a.strtab_start = b.strtab_start

/-- Two states hold the same SysV hash table fields. -/
def SameSysvHash (a b : ElfImg) : Prop :=
  a.nbucket_ = b.nbucket_ ∧ a.bucket_ = b.bucket_ ∧ a.chain_ = b.chain_

/-- Two states hold the same GNU hash table fields. -/
def SameGnuHash (a b : ElfImg) : Prop :=
  a.gnu_nbucket_ = b.gnu_nbucket_ ∧ a.gnu_symndx_ = b.gnu_symndx_ ∧
    a.gnu_bloom_size_ = b.gnu_bloom_size_ ∧ a.gnu_shift2_ = b.gnu_shift2_ ∧
    a.gnu_bloom_filter_ = b.gnu_bloom_filter_ ∧ a.gnu_bucket_ = b.gnu_bucket_ ∧
    a.gnu_chain_ = b.gnu_chain_

/-- Modelled from the spec: the address translation of `elf_util.h` (not among
the sources).  The spec: "`runtimeAddress(symbol) == moduleBase + symbol.value −
loadBias`". -/
def runtimeAddress (img : ElfImg) (value : Nat) : Int :=
  (img.base : Int) + (value : Int) - img.bias

/-- The bytes that the decoder appends over the calls of the decode loop, in
the order of the calls. -/
def xzdecompress.written (d : XzDecoder) (any_check : Bool) (input : Bytes) :
    Nat → XzLoop d.σ → Option Bytes
  | 0, _ => none
  | fuel + 1, st =>
    let c := xzdecompress.call d input st
    if c.2.2 = xz_ret.XZ_OK then
      (xzdecompress.written d any_check input fuel (xzdecompress.grow c.1)).map (c.2.1 ++ ·)
    else if any_check = true ∧ c.2.2 = xz_ret.XZ_UNSUPPORTED_CHECK then
      (xzdecompress.written d any_check input fuel c.1).map (c.2.1 ++ ·)
    else some c.2.1

/-- Whether every call of the decode loop that asks for more space has filled
its chunk, over at most `fuel` calls from the variables `st` on. -/
def xzdecompress.fullChunks (d : XzDecoder) (input : Bytes) : Nat → XzLoop d.σ → Bool
  | 0, _ => true
  | fuel + 1, st =>
    let c := xzdecompress.call d input st
    if c.2.2 = xz_ret.XZ_OK then
      decide (c.2.1.length = BUFSIZE) && xzdecompress.fullChunks d input fuel (xzdecompress.grow c.1)
    else true

/-- The parameter stands at offset `i` of the store of `n` bytes. -/
def Occurs (mem : Nat → Nat) (n i : Nat) : Prop :=
  i + param_to_remove.length ≤ n ∧ memRange mem i (i + param_to_remove.length) = param_to_remove

/-- Offset `i` is the first occurrence of the parameter in the store of `n`
bytes. -/
def FirstOccurrence (mem : Nat → Nat) (n i : Nat) : Prop :=
  Occurs mem n i ∧ ∀ j, j < i → ¬ Occurs mem n j

/-- A call of one of the two hooks. -/
inductive HookCall where
  | GetKeyValueStore
  | GetKeyValueStoreSize
  deriving DecidableEq, Repr

/-- A sequence of calls of the hooks on one header: the sizes that the calls of
the hooked `GetKeyValueStoreSize` report, in order, and the state afterwards. -/
def runHooks : HookState → List HookCall → List Nat × HookState
  | st, [] => ([], st)
  | st, HookCall.GetKeyValueStore :: calls => runHooks (new_GetKeyValueStore st) calls
  | st, HookCall.GetKeyValueStoreSize :: calls =>
    ((new_GetKeyValueStoreSize st) :: (runHooks st calls).1, (runHooks st calls).2)

/-- Whether the parameter stands at an offset can be computed. -/
instance Occurs.decidable (mem : Nat → Nat) (n i : Nat) : Decidable (Occurs mem n i) :=
  inferInstanceAs (Decidable (i + param_to_remove.length ≤ n ∧
    memRange mem i (i + param_to_remove.length) = param_to_remove))

/-- Whether an offset is the first occurrence of the parameter can be computed. -/
instance FirstOccurrence.decidable (mem : Nat → Nat) (n i : Nat) :
    Decidable (FirstOccurrence mem n i) :=
  inferInstanceAs (Decidable (Occurs mem n i ∧ ∀ j, j < i → ¬ Occurs mem n j))

/-! ## Concrete images for the examples -/

/-- File bytes of the example images: the ELF magic, then at offset 4 a string
table with `foobar` at 1, `foobaz` at 8, `zzz` at 15 and `dup` at 19. -/
def exampleFile : Bytes :=
  [127, 69, 76, 70] ++ 0 :: ascii "foobar" ++ 0 :: ascii "foobaz" ++ 0 :: ascii "zzz" ++
    0 :: ascii "dup" ++ [0]

/-- A static symbol table: `zzz`, `foobaz` and `foobar` out of name order, a weak
and a global function both named `dup` with an untyped `dup` between them, and
a `foobar` of size zero. -/
def exampleSymtab : Nat → ElfSym := fun i =>
  [ (⟨0, 0, 0, 0⟩ : ElfSym), ⟨15, 18, 0x300, 8⟩, ⟨8, 18, 0x200, 8⟩, ⟨1, 17, 0x100, 4⟩,
    ⟨19, 34, 0x400, 8⟩, ⟨19, 16, 0x999, 8⟩, ⟨19, 18, 0x500, 8⟩, ⟨1, 18, 0x777, 0⟩ ].getD i
    ⟨0, 0, 0, 0⟩

/-- An image with the static symbol table `exampleSymtab` and an empty cache. -/
def exampleImg : ElfImg :=
  { blankImg with
    header := some exampleFile
    symtab_start := some exampleSymtab
    symtab_count := 8
    symstr_offset_for_symtab := 4 }

/-- An image whose static symbol table holds one function, `foobar`, of size 4
and value 0. -/
def zeroValueImg : ElfImg :=
  { blankImg with
    header := some exampleFile
    symtab_start := some (fun i => [(⟨0, 0, 0, 0⟩ : ElfSym), ⟨1, 18, 0, 4⟩].getD i ⟨0, 0, 0, 0⟩)
    symtab_count := 2
    symstr_offset_for_symtab := 4 }

/-- A map listing: a line of another library, then for `libart.so` a lone `r-xp`
mapping followed by an `r--p` mapping and its `r-xp` mapping. -/
def exampleMaps : List MapLine :=
  [ ⟨3, 0x1000, ascii "r-xp", ascii "/system/lib64/libc.so"⟩,
    ⟨3, 0x5000, ascii "r-xp", ascii "/apex/lib64/libart.so"⟩,
    ⟨3, 0x7000, ascii "r--p", ascii "/apex/lib64/libart.so"⟩,
    ⟨3, 0x8000, ascii "r-xp", ascii "/apex/lib64/libart.so"⟩,
    ⟨2, 0x9000, ascii "rw-p", []⟩ ]

/-- A map listing without an adjacent pair: for `libart.so` an `rw-p` mapping
and two `r-xp` mappings. -/
def fallbackMaps : List MapLine :=
  [ ⟨3, 0x1000, ascii "r--p", ascii "/system/lib64/libc.so"⟩,
    ⟨3, 0x4000, ascii "rw-p", ascii "/apex/lib64/libart.so"⟩,
    ⟨3, 0x5000, ascii "r-xp", ascii "/apex/lib64/libart.so"⟩,
    ⟨3, 0x6000, ascii "r-xp", ascii "/apex/lib64/libart.so"⟩ ]

/-- The image object at the start of the constructor, for the fragment `libart.so`. -/
def libartImg : ElfImg := { blankImg with elf := ascii "libart.so" }

/-- The SysV hash function of the ELF gABI on 32-bit words.  The helper of
`elf_util.h` that computes it is not among the sources; the properties below
take the hash function as a parameter, and this definition only supplies hash
values for the concrete examples. -/
def ElfHash (name : Bytes) : Nat :=
  name.foldl
    (fun h p =>
      let h1 := ((h <<< 4) + p) % 2 ^ 32
      let g := h1 &&& 0xf0000000
      (h1 ^^^ g) ^^^ (g >>> 24))
    0

/-- The GNU hash function (`h = 5381`, then `h = h * 33 + c`) on 32-bit words.
As for `ElfHash`, it only supplies hash values for the concrete examples. -/
def GnuHash (name : Bytes) : Nat :=
  name.foldl (fun h p => (h + ((h <<< 5) % 2 ^ 32 + p)) % 2 ^ 32) 5381

/-- A word pointer to the first of the words `l`; the memory around them reads 0. -/
def wordsOf (l : List Nat) : WordPtr := fun i => if i < 0 then 0 else l.getD i.toNat 0

/-- A HASH section with one bucket: `bucket[0] = 2`, `chain[2] = 1`,
`chain[1] = 0`. -/
def sysvWords : List Nat := [1, 3, 2, 0, 0, 1]

/-- A dynamic symbol table with the functions `a` (index 1, value `0x10`) and
`b` (index 2, value `0x20`), and its string table. -/
def dynBase : ElfImg :=
  { blankImg with
    dynsym_start := fun i =>
      [(⟨0, 0, 0, 0⟩ : ElfSym), ⟨1, 18, 0x10, 8⟩, ⟨3, 18, 0x20, 8⟩].getD i ⟨0, 0, 0, 0⟩
    strtab_start := 0 :: ascii "a" ++ 0 :: ascii "b" ++ [0] }

/-- A GNU_HASH section for `dynBase` (`Elf64`): one bucket, floor 1, one bloom
word with the bits 6, 7 and 24, shift 6, `bucket[0] = 1`, and the chain entries
of the symbols 1 and 2 (the hashes of `a` and `b`, the second closing the run). -/
def gnuWords : List Nat := [1, 1, 1, 6, 16777408, 0, 1, 177670, 177671]

/-- The image `dynBase` with both hash sections parsed. -/
def dynImg : ElfImg :=
  parseGnuHash .elf64 (parseHash dynBase (wordsOf sysvWords)) (wordsOf gnuWords)

/-- A dynamic symbol table in which two functions (index 1, value `0x10`, and
index 2, value `0x20`) carry the same name `f`, as with versioned symbols. -/
def dupBase : ElfImg :=
  { blankImg with
    dynsym_start := fun i =>
      [(⟨0, 0, 0, 0⟩ : ElfSym), ⟨1, 18, 0x10, 8⟩, ⟨1, 18, 0x20, 8⟩].getD i ⟨0, 0, 0, 0⟩
    strtab_start := 0 :: ascii "f" ++ [0] }

/-- A GNU_HASH section for `dupBase` (`Elf64`): one bucket, floor 1, one bloom
word with the bits 11 and 24, shift 6, `bucket[0] = 1`, and the hash of `f` as
the chain entry of the symbols 1 and 2, the second closing the run. -/
def dupGnuWords : List Nat := [1, 1, 1, 6, 16779264, 0, 1, 177674, 177675]

/-- The image `dupBase` with both hash sections parsed. -/
def dupImg : ElfImg :=
  parseGnuHash .elf64 (parseHash dupBase (wordsOf sysvWords)) (wordsOf dupGnuWords)

/-- A dynamic symbol table with the import `imp` (index 1, undefined, value 0)
and the functions `a` (index 2, value `0x10`) and `b` (index 3, value `0x20`),
and its string table. -/
def impBase : ElfImg :=
  { blankImg with
    dynsym_start := fun i =>
      [(⟨0, 0, 0, 0⟩ : ElfSym), ⟨5, 18, 0, 0⟩, ⟨1, 18, 0x10, 8⟩, ⟨3, 18, 0x20, 8⟩].getD i
        ⟨0, 0, 0, 0⟩
    strtab_start := 0 :: ascii "a" ++ 0 :: ascii "b" ++ 0 :: ascii "imp" ++ [0] }

/-- A HASH section for `impBase` with one bucket: `bucket[0] = 3`, `chain[3] = 2`,
`chain[2] = 1`, `chain[1] = 0`; the import is linked like the other symbols. -/
def impSysvWords : List Nat := [1, 4, 3, 0, 0, 1, 2]

/-- A GNU_HASH section for `impBase` (`Elf64`): one bucket, floor 2 (the import
stands below it), one bloom word with the bits 6, 7 and 24, shift 6,
`bucket[0] = 2`, and the chain entries of the symbols 2 and 3. -/
def impGnuWords : List Nat := [1, 2, 1, 6, 16777408, 0, 2, 177670, 177671]

/-- The image `impBase` with both hash sections parsed. -/
def impImg : ElfImg :=
  parseGnuHash .elf64 (parseHash impBase (wordsOf impSysvWords)) (wordsOf impGnuWords)

/-- Section names of the example tables: `.dynsym` at 1, `.dynstr` at 9, `.text`
at 17, `.strtab` at 23, `.symtab` at 31, `.gnu_debugdata` at 39, `.hash` at 54
and `.comment` at 60. -/
def sectionNames : Bytes :=
  0 :: ascii ".dynsym" ++ 0 :: ascii ".dynstr" ++ 0 :: ascii ".text" ++ 0 :: ascii ".strtab" ++
    0 :: ascii ".symtab" ++ 0 :: ascii ".gnu_debugdata" ++ 0 :: ascii ".hash" ++
    0 :: ascii ".comment" ++ [0]

/-- An image with the section header table `shdrs`, the names `sectionNames`,
and `hashWords` as the words seen at every offset. -/
def tableFile (shdrs : List ElfShdr) (hashWords : List Nat) : ElfFile where
  bytes := []
  shdrs := shdrs
  section_str := sectionNames
  words := fun _ => wordsOf hashWords
  syms := fun _ _ => ⟨0, 0, 0, 0⟩

/-- The section `.dynsym` of the examples, at offset `0x200`. -/
def shDynsym : ElfShdr := ⟨1, SHT_DYNSYM, 0x200, 0x200, 0x60, 24⟩

/-- The section `.dynstr` of the examples, at offset `0x300`. -/
def shDynstr : ElfShdr := ⟨9, SHT_STRTAB, 0x300, 0x300, 0x40, 0⟩

/-- The section `.text` of the examples: address `0x3000`, offset `0x1000`. -/
def shText : ElfShdr := ⟨17, SHT_PROGBITS, 0x3000, 0x1000, 0x100, 0⟩

/-- The section `.strtab` of the examples, at offset `0x900`. -/
def shStrtab : ElfShdr := ⟨23, SHT_STRTAB, 0, 0x900, 0x80, 0⟩

/-- The section `.symtab` of the examples, at offset `0x800`. -/
def shSymtab : ElfShdr := ⟨31, SHT_SYMTAB, 0, 0x800, 0x60, 24⟩

/-- The section `.hash` of the examples, at offset `0x500`. -/
def shHash : ElfShdr := ⟨54, SHT_HASH, 0x500, 0x500, 0x18, 4⟩

/-- A section `.comment` that is not loaded: address 0, offset `4396`. -/
def shComment : ElfShdr := ⟨60, SHT_PROGBITS, 0, 4396, 0x20, 0⟩

/-- A table in the usual order: `.dynsym`, `.dynstr`, `.text`, `.hash`, then the
sections `.comment` and `.strtab`. -/
def usualFile : ElfFile :=
  tableFile [shDynsym, shDynstr, shText, shHash, shComment, shStrtab] sysvWords

/-- A table whose first PROGBITS section behind `.dynsym` and `.dynstr` has
address `0x1000` and offset `0x212c`, which differ by `-4396`, and is followed by
a PROGBITS section with address `0x6000` and offset `0x1000`. -/
def biasFile : ElfFile :=
  tableFile
    [shDynsym, shDynstr, ⟨17, SHT_PROGBITS, 0x1000, 0x212c, 0x100, 0⟩,
      ⟨17, SHT_PROGBITS, 0x6000, 0x1000, 0x100, 0⟩] []

/-- A table in which `.comment` (address 0, offset 4396) is the first PROGBITS
section behind `.dynsym` and `.dynstr`, and `.text` follows. -/
def commentFile : ElfFile := tableFile [shDynsym, shDynstr, shComment, shText] []

/-- A table with two DYNSYM sections, at the offsets `0x200` and `0x400`. -/
def twoDynsymFile : ElfFile :=
  tableFile [shDynsym, ⟨1, SHT_DYNSYM, 0x400, 0x400, 0x60, 24⟩] []

/-- A table with `.dynstr` directly followed by `.strtab`. -/
def twoStrtabFile : ElfFile := tableFile [shDynstr, shStrtab] []

/-- A table with a DYNSYM section before and one behind the section that
assigns the load bias. -/
def lateDynsymFile : ElfFile :=
  tableFile
    [⟨1, SHT_DYNSYM, 0x100, 0x100, 0x60, 24⟩, shDynsym, shDynstr, shText,
      ⟨1, SHT_DYNSYM, 0x400, 0x400, 0x60, 24⟩] []

/-- A nested table that holds a DYNSYM section at offset `0x40` and a HASH
section whose first word, the bucket count, is 7. -/
def nestedDynFile : ElfFile :=
  tableFile [⟨1, SHT_DYNSYM, 0, 0x40, 0x60, 24⟩, ⟨54, SHT_HASH, 0, 0x80, 0x18, 4⟩] [7, 0]

/-- A nested table as mini debug info has it: `.symtab` and `.strtab`. -/
def nestedSymFile : ElfFile := tableFile [shSymtab, shStrtab] []

/-- A decoder that cannot be set up: `xz_dec_init` returns `NULL`. -/
def noDecoder : XzDecoder where
  σ := Unit
  xz_dec_init := none
  xz_dec_run := fun s _ _ => (s, [], xz_ret.XZ_MEM_ERROR)

/-- A decoder that plays back a script: call `n` appends the bytes of entry `n`
of `script` and returns its value; behind the script it reports a buffer error. -/
def scriptDecoder (script : List (Bytes × xz_ret)) : XzDecoder where
  σ := Nat
  xz_dec_init := some 0
  xz_dec_run := fun n _ _ =>
    (n + 1, (script.getD n ([], xz_ret.XZ_BUF_ERROR)).1,
      (script.getD n ([], xz_ret.XZ_BUF_ERROR)).2)

/-- The surroundings of the example constructions: the map listing `maps`, the
file `file` under every path, the decoder `d`, fresh memory that reads `0xAA`,
and `nestedSymFile` as the view of every decompressed buffer. -/
def exampleEnv (maps : List MapLine) (file : Option OpenFile) (d : XzDecoder) : Env where
  maps := some maps
  files := fun _ => file
  decoder := d
  any_check := false
  malloc_ok := true
  heap := fun _ => 0xAA
  as_elf := fun _ => nestedSymFile

/-- A stripped image: `.dynsym`, `.dynstr`, `.text` and a section
`.gnu_debugdata` at offset `0x700`, no `.symtab`. -/
def strippedFile : ElfFile :=
  tableFile [shDynsym, shDynstr, shText, ⟨39, SHT_PROGBITS, 0, 0x700, 0x40, 0⟩] []

/-- A map listing in which no path contains `libart.so`. -/
def otherMaps : List MapLine :=
  [ ⟨3, 0x1000, ascii "r--p", ascii "/system/lib64/libc.so"⟩,
    ⟨3, 0x2000, ascii "r-xp", ascii "/system/lib64/libc.so"⟩ ]

/-- A map listing in which `libart.so` has a writable mapping only. -/
def dataMaps : List MapLine :=
  [ ⟨3, 0x1000, ascii "r-xp", ascii "/system/lib64/libc.so"⟩,
    ⟨3, 0x4000, ascii "rw-p", ascii "/apex/lib64/libart.so"⟩ ]

/-- The file that every example path opens: length `0x1000`, mapped as
`strippedFile`. -/
def strippedOpen : OpenFile := ⟨0x1000, some strippedFile⟩

/-- A decoder run that ends with corrupt data behind three bytes. -/
def corruptEnv : Env :=
  exampleEnv exampleMaps (some strippedOpen) (scriptDecoder [([1, 2, 3], xz_ret.XZ_DATA_ERROR)])

/-- A decoder run that ends the stream behind six bytes of which only the first
is that of the ELF magic. -/
def badMagicEnv : Env :=
  exampleEnv exampleMaps (some strippedOpen)
    (scriptDecoder [([0x7F, 0, 0, 0, 1, 2], xz_ret.XZ_STREAM_END)])

/-- A decoder run of two calls: the first appends the three bytes `7F 45 4C` and
asks for more space, the second appends `46 02` and ends the stream. -/
def partialEnv : Env :=
  exampleEnv exampleMaps (some strippedOpen)
    (scriptDecoder [([0x7F, 0x45, 0x4C], xz_ret.XZ_OK), ([0x46, 2], xz_ret.XZ_STREAM_END)])

/-- The object of the example constructions behind the parse of the outer image. -/
def strippedImg : ElfImg :=
  parse .elf64
    { blankImg with
      elf := ascii "/apex/lib64/libart.so"
      base := 0x7000
      size := 0x1000
      header := some strippedFile.bytes }
    strippedFile

/-- A stripped image with a SysV hash section: `.dynsym`, `.dynstr`, `.text`,
`.hash` (bucket count 1) and `.gnu_debugdata`. -/
def strippedHashFile : ElfFile :=
  tableFile [shDynsym, shDynstr, shText, shHash, ⟨39, SHT_PROGBITS, 0, 0x700, 0x40, 0⟩] sysvWords

/-- A stripped image without a PROGBITS section behind its dynamic tables:
`.gnu_debugdata` comes first, then `.dynsym`, `.dynstr` and `.hash`. -/
def earlyDebugFile : ElfFile :=
  tableFile [⟨39, SHT_PROGBITS, 0, 0x700, 0x40, 0⟩, shDynsym, shDynstr, shHash] sysvWords

/-- A construction over the outer image `outer` whose debug data decompress to
the four bytes of the ELF magic, seen as the image `nestedDynFile`. -/
def nestedEnv (outer : ElfFile) : Env :=
  { exampleEnv exampleMaps (some ⟨0x1000, some outer⟩)
      (scriptDecoder [([0x7F, 0x45, 0x4C, 0x46], xz_ret.XZ_STREAM_END)]) with
    as_elf := fun _ => nestedDynFile }

/-- The section `.gnu_debugdata` of the examples: not loaded (address 0), at
offset `0x700`, `0x40` bytes. -/
def shDebugdata : ElfShdr := ⟨39, SHT_PROGBITS, 0, 0x700, 0x40, 0⟩

/-- A table in which `.gnu_debugdata` is the first PROGBITS section behind
`.dynsym` and `.dynstr`, and `.text` follows. -/
def debugFirstFile : ElfFile := tableFile [shDynsym, shDynstr, shDebugdata, shText] []

/-- A block of memory that holds the bytes `l` and zeros behind them. -/
def memOf (l : Bytes) : Nat → Nat := fun i => l.getD i 0

/-- A store without padding: the key `dex2oat-cmdline` with a value that ends
with the parameter (at offset 19), then the key `debuggable` with the value
`false`; 63 bytes. -/
def plainStore : Bytes :=
  ascii "dex2oat-cmdline" ++ 0 :: ascii "--x" ++ param_to_remove ++ 0 :: ascii "debuggable" ++
    0 :: ascii "false" ++ [0]

/-- A store with padding: the key `dex2oat-cmdline` with a value that ends with
the parameter (at offset 19), its terminator and three bytes of padding; 49
bytes. -/
def paddedStore : Bytes :=
  ascii "dex2oat-cmdline" ++ 0 :: ascii "--x" ++ param_to_remove ++ [0, 0, 0, 0]

/-- A store without padding in which a blank follows the parameter (at offset
19) before the value ends; 64 bytes. -/
def blankStore : Bytes :=
  ascii "dex2oat-cmdline" ++ 0 :: ascii "--x" ++ param_to_remove ++ ascii " " ++
    0 :: ascii "debuggable" ++ 0 :: ascii "false" ++ [0]

/-- A file with the bytes `exampleFile` whose section table holds `.symtab` (the
table `exampleSymtab`, 8 entries of 24 bytes) and its string table at offset 4,
under the section name at offset `strName` of `sectionNames`. -/
def symFile (strName : Nat) : ElfFile where
  bytes := exampleFile
  shdrs := [⟨31, SHT_SYMTAB, 0, 0x40, 192, 24⟩, ⟨strName, SHT_STRTAB, 0, 4, 24, 0⟩]
  section_str := sectionNames
  words := fun _ => wordsOf []
  syms := fun _ => exampleSymtab

/-- The object behind the parse of a file whose static string table is not named
`.strtab` (its name is `.dynstr`). -/
def noStrtabImg : ElfImg :=
  parse .elf64 { blankImg with header := some exampleFile } (symFile 9)

/-- A construction over the stripped file `strippedFile` whose debug data
decompress to the bytes `exampleFile`, the image `symFile 23` with `.symtab` and
`.strtab`. -/
def strippedSymEnv : Env :=
  { exampleEnv exampleMaps (some strippedOpen)
      (scriptDecoder [(exampleFile, xz_ret.XZ_STREAM_END)]) with
    as_elf := fun _ => symFile 23 }

/-- The object that the construction `strippedSymEnv` returns: the mapped file
holds no byte of the static tables, the decompressed image holds them. -/
def strippedSymImg : ElfImg :=
  ((ElfImg.ctor .elf64 strippedSymEnv 1 (ascii "libart.so")).map (fun r => r.img)).getD blankImg

/-! # Properties -/

/-! ## Symbol resolution order -/

/-- C1: the value returned by `getSymbOffset` is the first non-zero result among
`GnuLookup`, `ElfLookup` and `LinearLookup`, tried in this order, and it is zero
exactly when all three strategies return zero. -/
theorem getSymbOffset_first_success (cls : ElfClass) (img : ElfImg) (fuel : Nat) (name : Bytes)
    (gnu_hash elf_hash : Nat) :
    (getSymbOffset cls img fuel name gnu_hash elf_hash).map Prod.fst =
        resolveSpec [GnuLookup cls img fuel name gnu_hash, ElfLookup img fuel name elf_hash,
          some (LinearLookup img name).1] ∧
      ((getSymbOffset cls img fuel name gnu_hash elf_hash).map Prod.fst = some 0 ↔
        GnuLookup cls img fuel name gnu_hash = some 0 ∧
          ElfLookup img fuel name elf_hash = some 0 ∧ (LinearLookup img name).1 = 0) := by
  have key : (getSymbOffset cls img fuel name gnu_hash elf_hash).map Prod.fst =
      resolveSpec [GnuLookup cls img fuel name gnu_hash, ElfLookup img fuel name elf_hash,
        some (LinearLookup img name).1] := by
    unfold getSymbOffset
    cases hg : GnuLookup cls img fuel name gnu_hash with
    | none => simp [resolveSpec]
    | some g =>
      by_cases h0 : g = 0
      · subst h0
        cases he : ElfLookup img fuel name elf_hash with
        | none => simp [resolveSpec]
        | some e =>
          by_cases h1 : e = 0
          · subst h1
            by_cases h2 : (LinearLookup img name).1 = 0
            · simp [resolveSpec, h2]
            · have : (LinearLookup img name).1 > 0 := Nat.pos_of_ne_zero h2
              simp [resolveSpec, h2, this]
          · have : e > 0 := Nat.pos_of_ne_zero h1
            simp [resolveSpec, h1, this]
      · have : g > 0 := Nat.pos_of_ne_zero h0
        simp [resolveSpec, h0, this]
  refine ⟨key, ?_⟩
  rw [key]
  cases hg : GnuLookup cls img fuel name gnu_hash with
  | none => simp [resolveSpec]
  | some g =>
    by_cases h0 : g = 0
    · subst h0
      cases he : ElfLookup img fuel name elf_hash with
      | none => simp [resolveSpec]
      | some e =>
        by_cases h1 : e = 0
        · subst h1
          by_cases h2 : (LinearLookup img name).1 = 0
          · simp [resolveSpec, h2]
          · simp [resolveSpec, h2]
        · simp [resolveSpec, h1]
    · simp [resolveSpec, h0]

/-! ## Module base -/

/-- A C string read from offset 0. -/
theorem cstr_zero (p : Bytes) : cstr p 0 = p.takeWhile (fun b => b != 0) := by
  simp [cstr]

/-- Bytes without NUL are their own C string. -/
theorem cstr_zero_of_no_nul (p : Bytes) (h : ∀ b ∈ p, b ≠ 0) : cstr p 0 = p := by
  rw [cstr_zero, List.takeWhile_eq_self_iff]
  intro b hb
  simpa using h b hb

/-- A C string holds no NUL. -/
theorem cstr_no_nul (tab : Bytes) (off : Nat) : ∀ b ∈ cstr tab off, b ≠ 0 := by
  intro b hb
  have := List.mem_takeWhile_imp hb
  simpa using this

/-- The permission strings of the filtered entries hold no NUL. -/
theorem mem_filterMaps_perms (cls : ElfClass) (elf : Bytes) (lines : List MapLine) :
    ∀ e ∈ filterMaps cls elf lines, cstr e.perms 0 = e.perms := by
  unfold filterMaps
  suffices H : ∀ (acc : List MapEntry), (∀ e ∈ acc, cstr e.perms 0 = e.perms) →
      ∀ e ∈ lines.foldl
        (fun filtered_list line =>
          if line.items_parsed = 3 ∧ strstr_found line.path_buffer elf then
            filtered_list ++
              [{ start_addr := line.temp_start % 2 ^ uintptr_bits cls
                 perms := (cstr line.p 0).take 4
                 pathname := cstr line.path_buffer 0 }]
          else filtered_list) acc, cstr e.perms 0 = e.perms from H [] (by simp)
  induction lines with
  | nil => intro acc h; simpa using h
  | cons line rest ih =>
    intro acc h
    rw [List.foldl_cons]
    apply ih
    split
    · intro e he
      rcases List.mem_append.mp he with he | he
      · exact h e he
      · have : e.perms = (cstr line.p 0).take 4 := by
          simp at he; rw [he]
        rw [this]
        apply cstr_zero_of_no_nul
        intro b hb
        exact cstr_no_nul _ _ b (List.mem_of_mem_take hb)
    · exact h

/-- On strings without NUL, `strcmp` returns 0 exactly for equal strings. -/
theorem strcmp_eq_iff (p lit : Bytes) (hp : cstr p 0 = p) (hl : cstr lit 0 = lit) :
    strcmp_eq p lit = true ↔ p = lit := by
  simp [strcmp_eq, hp, hl]

/-- The literal `r--p` holds no NUL. -/
theorem cstr_r__p : cstr (ascii "r--p") 0 = ascii "r--p" := by decide

/-- The literal `r-xp` holds no NUL. -/
theorem cstr_r_xp : cstr (ascii "r-xp") 0 = ascii "r-xp" := by decide

/-- On filtered entries the loop condition of step 2 holds exactly at the
adjacent pairs. -/
theorem pairAt_iff (fl : List MapEntry) (hfl : ∀ e ∈ fl, cstr e.perms 0 = e.perms) (i : Nat) :
    pairAt fl i = true ↔ IsPair fl i := by
  unfold pairAt IsPair
  cases ha : fl.get? i with
  | none => simp
  | some a =>
    cases hb : fl.get? (i + 1) with
    | none => simp
    | some b =>
      have h1 := hfl a (List.get?_mem ha)
      have h2 := hfl b (List.get?_mem hb)
      simp [strcmp_eq_iff _ _ h1 cstr_r__p, strcmp_eq_iff _ _ h2 cstr_r_xp]

/-- A search through `0, ..., n - 1` stops at the least index that passes. -/
theorem find?_range_first (p : Nat → Bool) (n i : Nat) (hi : i < n) (hp : p i = true)
    (hmin : ∀ j < i, p j = false) : (List.range n).find? p = some i := by
  induction n with
  | zero => omega
  | succ n ih =>
    rw [List.range_succ, List.find?_append]
    by_cases h : i < n
    · rw [ih h]; rfl
    · have hin : i = n := by omega
      subst hin
      have : (List.range i).find? p = none := by
        rw [List.find?_eq_none]
        intro j hj
        simp [hmin j (List.mem_range.mp hj)]
      simp [this, hp]

/-- C9: when the filtered list holds an adjacent (`r--p`, `r-xp`) pair,
`findModuleBase` succeeds and takes the base and the path from the `r--p` entry
of the first such pair, whatever stands before it. -/
theorem findModuleBase_prefers_pair (cls : ElfClass) (img : ElfImg) (lines : List MapLine)
    (h : ∃ i, IsPair (filterMaps cls img.elf lines) i) :
    ∃ i a, (filterMaps cls img.elf lines).get? i = some a ∧
      IsPair (filterMaps cls img.elf lines) i ∧
      (∀ j < i, ¬ IsPair (filterMaps cls img.elf lines) j) ∧
      findModuleBase cls img (some lines) =
        (true, { img with base := a.start_addr, elf := a.pathname }) := by
  classical
  have hfl := mem_filterMaps_perms cls img.elf lines
  generalize hgen : filterMaps cls img.elf lines = fl at h hfl
  let i := Nat.find h
  have hi : IsPair fl i := Nat.find_spec h
  have hmin : ∀ j < i, ¬ IsPair fl j := fun j hj => Nat.find_min h hj
  obtain ⟨a, b, ha, hb, hpa, hpb⟩ := hi
  refine ⟨i, a, ha, ⟨a, b, ha, hb, hpa, hpb⟩, hmin, ?_⟩
  have hlen : i + 1 < fl.length := by
    rcases Nat.lt_or_ge (i + 1) fl.length with h1 | h1
    · exact h1
    · rw [List.get?_eq_none.mpr h1] at hb; cases hb
  have hfind : (List.range (fl.length - 1)).find? (pairAt fl) = some i := by
    apply find?_range_first
    · omega
    · exact (pairAt_iff fl hfl i).mpr ⟨a, b, ha, hb, hpa, hpb⟩
    · intro j hj
      have := hmin j hj
      rw [← pairAt_iff fl hfl j] at this
      simpa using this
  have hne : fl.isEmpty = false := by
    cases fl with
    | nil => simp at hlen
    | cons _ _ => rfl
  have ha' : fl[i]? = some a := by rw [← List.get?_eq_getElem?]; exact ha
  simp [findModuleBase, hgen, hne, findBlock, hfind, ha']

/-- C10: when the filtered list holds no adjacent (`r--p`, `r-xp`) pair but some
`r-xp` entry, `findModuleBase` succeeds and takes the base and the path from the
first `r-xp` entry in listing order. -/
theorem findModuleBase_fallback (cls : ElfClass) (img : ElfImg) (lines : List MapLine)
    (hno : ∀ i, ¬ IsPair (filterMaps cls img.elf lines) i)
    (hex : ∃ y ∈ filterMaps cls img.elf lines, y.perms = ascii "r-xp") :
    ∃ pre x post, filterMaps cls img.elf lines = pre ++ x :: post ∧
      x.perms = ascii "r-xp" ∧ (∀ y ∈ pre, y.perms ≠ ascii "r-xp") ∧
      findModuleBase cls img (some lines) =
        (true, { img with base := x.start_addr, elf := x.pathname }) := by
  have hperm := mem_filterMaps_perms cls img.elf lines
  generalize hgen : filterMaps cls img.elf lines = fl at hno hex hperm
  have hfind : (List.range (fl.length - 1)).find? (pairAt fl) = none := by
    rw [List.find?_eq_none]
    intro j _
    have := hno j
    rw [← pairAt_iff fl hperm j] at this
    simpa using this
  obtain ⟨y, hy, hyp⟩ := hex
  cases hfb : fl.find? (fun entry => strcmp_eq entry.perms (ascii "r-xp")) with
  | none =>
    rw [List.find?_eq_none] at hfb
    exact absurd ((strcmp_eq_iff _ _ (hperm y hy) cstr_r_xp).mpr hyp) (hfb y hy)
  | some x =>
    obtain ⟨hx, pre, post, hfl, hpre⟩ := List.find?_eq_some.mp hfb
    have hxm : x ∈ fl := by rw [hfl]; simp
    refine ⟨pre, x, post, hfl, (strcmp_eq_iff _ _ (hperm x hxm) cstr_r_xp).mp hx, ?_, ?_⟩
    · intro z hz hzp
      have hzm : z ∈ fl := by rw [hfl]; simp [hz]
      have h1 := (strcmp_eq_iff _ _ (hperm z hzm) cstr_r_xp).mpr hzp
      have h2 := hpre z hz
      rw [h1] at h2
      cases h2
    · have hne : fl.isEmpty = false := by
        rw [hfl]; cases pre <;> rfl
      simp [findModuleBase, hgen, hne, findBlock, hfind, hfb]

/-! ## The order of keys -/

/-- No key is below itself. -/
theorem keyLt_irrefl (a : Bytes) : keyLt a a = false := by
  induction a with
  | nil => rfl
  | cons x xs ih => simp [keyLt, ih]

/-- The order of keys is asymmetric. -/
theorem keyLt_asymm : ∀ (a b : Bytes), keyLt a b = true → keyLt b a = false
  | [], [] => by simp [keyLt]
  | [], _ :: _ => by simp [keyLt]
  | _ :: _, [] => by simp [keyLt]
  | x :: xs, y :: ys => by
    intro h
    rcases Nat.lt_trichotomy x y with hxy | hxy | hxy
    · have : ¬ y < x := by omega
      simp [keyLt, this, hxy]
    · subst hxy
      simp [keyLt] at h ⊢
      exact keyLt_asymm xs ys h
    · have : ¬ x < y := by omega
      simp [keyLt, this, hxy] at h

/-- The order of keys is transitive. -/
theorem keyLt_trans : ∀ (a b c : Bytes), keyLt a b = true → keyLt b c = true → keyLt a c = true
  | [], [], _ => by simp [keyLt]
  | [], _ :: _, [] => by simp [keyLt]
  | [], _ :: _, _ :: _ => by simp [keyLt]
  | _ :: _, [], _ => by simp [keyLt]
  | _ :: _, _ :: _, [] => by simp [keyLt]
  | x :: xs, y :: ys, z :: zs => by
    intro h1 h2
    rcases Nat.lt_trichotomy x y with hxy | hxy | hxy
    · rcases Nat.lt_trichotomy y z with hyz | hyz | hyz
      · have : x < z := by omega
        simp [keyLt, this]
      · subst hyz; simp [keyLt, hxy]
      · have : ¬ y < z := by omega
        simp [keyLt, this, hyz] at h2
    · subst hxy
      rcases Nat.lt_trichotomy x z with hyz | hyz | hyz
      · simp [keyLt, hyz]
      · subst hyz
        simp [keyLt] at h1 h2 ⊢
        exact keyLt_trans xs ys zs h1 h2
      · have : ¬ x < z := by omega
        simp [keyLt, this, hyz] at h2
    · have : ¬ x < y := by omega
      simp [keyLt, this, hxy] at h1

/-- Two keys of which neither is below the other are equal. -/
theorem keyLt_total : ∀ (a b : Bytes), keyLt a b = false → keyLt b a = false → a = b
  | [], [] => by simp
  | [], _ :: _ => by simp [keyLt]
  | _ :: _, [] => by simp [keyLt]
  | x :: xs, y :: ys => by
    intro h1 h2
    rcases Nat.lt_trichotomy x y with hxy | hxy | hxy
    · simp [keyLt, hxy] at h1
    · subst hxy
      simp [keyLt] at h1 h2
      rw [keyLt_total xs ys h1 h2]
    · simp [keyLt, hxy] at h2

/-- A key is never below one of its initial segments. -/
theorem keyLt_of_starts_with : ∀ (a p : Bytes), starts_with a p = true → keyLt a p = false
  | _, [] => by intro _; cases ‹Bytes› <;> simp [keyLt]
  | [], _ :: _ => by simp [starts_with, List.isPrefixOf]
  | x :: xs, y :: ys => by
    intro h
    simp [starts_with, List.isPrefixOf] at h
    obtain ⟨hxy, h⟩ := h
    subst hxy
    simp [keyLt]
    exact keyLt_of_starts_with xs ys (by simpa [starts_with] using h)

/-- A key not below `p` that does not start with `p` lies above every key that
starts with `p`. -/
theorem keyLt_of_not_starts_with : ∀ (p a b : Bytes), keyLt a p = false →
    starts_with a p = false → starts_with b p = true → keyLt b a = true
  | [], a, _ => by simp [starts_with]
  | _ :: _, [], _ => by simp [keyLt]
  | _ :: _, _ :: _, [] => by simp [starts_with, List.isPrefixOf]
  | x :: ps, y :: as, z :: bs => by
    intro h1 h2 h3
    simp [starts_with, List.isPrefixOf] at h3
    obtain ⟨hxz, h3⟩ := h3
    subst hxz
    rcases Nat.lt_trichotomy x y with hxy | hxy | hxy
    · simp [keyLt, hxy]
    · subst hxy
      simp [keyLt] at h1 ⊢
      simp [starts_with, List.isPrefixOf] at h2
      exact keyLt_of_not_starts_with ps as bs h1 (by simpa [starts_with] using h2)
        (by simpa [starts_with] using h3)
    · simp [keyLt, hxy] at h1

/-! ## The multimap -/

/-- The entries after `emplace`: the new one and the old ones. -/
theorem SymMap.mem_emplace (m : SymMap) (k : Bytes) (v : ElfSym) (x : Bytes × ElfSym) :
    x ∈ SymMap.emplace m k v ↔ x = (k, v) ∨ x ∈ m := by
  induction m with
  | nil => simp [SymMap.emplace]
  | cons e rest ih =>
    unfold SymMap.emplace
    split
    · simp
    · simp only [List.mem_cons, ih]
      tauto

/-- The member `emplace` adds exactly one entry. -/
theorem SymMap.emplace_perm (m : SymMap) (k : Bytes) (v : ElfSym) :
    (SymMap.emplace m k v).Perm ((k, v) :: m) := by
  induction m with
  | nil => simp [SymMap.emplace]
  | cons e rest ih =>
    unfold SymMap.emplace
    split
    · exact List.Perm.refl _
    · exact (List.Perm.cons e ih).trans (List.Perm.swap _ _ _)

/-- The member `emplace` keeps the keys ascending. -/
theorem SymMap.emplace_ordered (m : SymMap) (k : Bytes) (v : ElfSym) (h : SymMap.Ordered m) :
    SymMap.Ordered (SymMap.emplace m k v) := by
  induction m with
  | nil => simp [SymMap.emplace, SymMap.Ordered]
  | cons e rest ih =>
    unfold SymMap.Ordered at h ih ⊢
    rw [List.pairwise_cons] at h
    unfold SymMap.emplace
    split
    · rename_i hlt
      rw [List.pairwise_cons]
      refine ⟨?_, List.pairwise_cons.mpr h⟩
      intro x hx
      rcases List.mem_cons.mp hx with hx | hx
      · subst hx; exact keyLt_asymm _ _ hlt
      · cases hxk : keyLt x.1 k with
        | false => rfl
        | true =>
          have := keyLt_trans _ _ _ hxk hlt
          rw [h.1 x hx] at this
          cases this
    · rename_i hlt
      rw [List.pairwise_cons]
      refine ⟨?_, ih h.2⟩
      intro x hx
      rcases (SymMap.mem_emplace rest k v x).mp hx with hx | hx
      · subst hx; simpa using hlt
      · exact h.1 x hx

/-- Among the entries of one key, `emplace` puts the new entry last. -/
theorem SymMap.filter_emplace (m : SymMap) (k : Bytes) (v : ElfSym) (q : Bytes)
    (h : SymMap.Ordered m) :
    (SymMap.emplace m k v).filter (fun e => decide (e.1 = q)) =
      m.filter (fun e => decide (e.1 = q)) ++ (if k = q then [(k, v)] else []) := by
  induction m with
  | nil =>
    by_cases hk : k = q <;> simp [SymMap.emplace, hk]
  | cons e rest ih =>
    unfold SymMap.Ordered at h ih
    rw [List.pairwise_cons] at h
    unfold SymMap.emplace
    split
    · rename_i hlt
      by_cases hk : k = q
      · have hnone : (e :: rest).filter (fun e => decide (e.1 = q)) = [] := by
          rw [List.filter_eq_nil_iff]
          intro x hx
          have hxk : keyLt k x.1 = true := by
            rcases List.mem_cons.mp hx with hx | hx
            · subst hx; exact hlt
            · cases hex : keyLt x.1 e.1 with
              | true => rw [h.1 x hx] at hex; cases hex
              | false =>
                cases hxe : keyLt e.1 x.1 with
                | true => exact keyLt_trans _ _ _ hlt hxe
                | false =>
                  have := keyLt_total _ _ hex hxe
                  rw [this]; exact hlt
          intro hxq
          simp at hxq
          rw [hxq, ← hk, keyLt_irrefl] at hxk
          cases hxk
        rw [List.filter_cons, hnone]
        simp [hk]
      · rw [List.filter_cons]
        simp [hk]
    · rw [List.filter_cons, List.filter_cons, ih h.2]
      split <;> simp

/-- From the lower bound of `q` on, the entries up to the upper bound are those
with key `q`. -/
theorem SymMap.takeWhile_eq_filter (m : SymMap) (q : Bytes) (h : SymMap.Ordered m)
    (hge : ∀ x ∈ m, keyLt x.1 q = false) :
    m.takeWhile (fun e => !keyLt q e.1) = m.filter (fun e => decide (e.1 = q)) := by
  induction m with
  | nil => rfl
  | cons e rest ih =>
    unfold SymMap.Ordered at h ih
    rw [List.pairwise_cons] at h
    have hrest : ∀ x ∈ rest, keyLt x.1 q = false := fun x hx => hge x (List.mem_cons_of_mem _ hx)
    cases hq : keyLt q e.1 with
    | true =>
      have hnone : (e :: rest).filter (fun e => decide (e.1 = q)) = [] := by
        rw [List.filter_eq_nil_iff]
        intro x hx hxq
        simp at hxq
        have hxk : keyLt q x.1 = true := by
          rcases List.mem_cons.mp hx with hx | hx
          · subst hx; exact hq
          · cases hex : keyLt x.1 e.1 with
            | true => rw [h.1 x hx] at hex; cases hex
            | false =>
              cases hxe : keyLt e.1 x.1 with
              | true => exact keyLt_trans _ _ _ hq hxe
              | false =>
                have := keyLt_total _ _ hex hxe
                rw [this]; exact hq
        rw [hxq, keyLt_irrefl] at hxk
        cases hxk
      rw [hnone, List.takeWhile_cons]
      simp [hq]
    | false =>
      have heq : e.1 = q := keyLt_total _ _ (hge e (List.mem_cons_self _ _)) hq
      rw [List.takeWhile_cons, List.filter_cons]
      simp [hq, heq, ih h.2 hrest, keyLt_irrefl]

/-- The entries from `lower_bound q` on are ordered, not below `q`, and hold every
entry with key `q`. -/
theorem SymMap.lower_bound_spec (m : SymMap) (q : Bytes) (h : SymMap.Ordered m) :
    SymMap.Ordered (m.lower_bound q) ∧ (∀ x ∈ m.lower_bound q, keyLt x.1 q = false) ∧
      (m.lower_bound q).filter (fun e => decide (e.1 = q)) =
        m.filter (fun e => decide (e.1 = q)) := by
  induction m with
  | nil => simp [SymMap.lower_bound, SymMap.Ordered]
  | cons e rest ih =>
    unfold SymMap.Ordered at h ih ⊢
    have h' := List.pairwise_cons.mp h
    cases hq : keyLt e.1 q with
    | true =>
      have hlb : SymMap.lower_bound (e :: rest) q = SymMap.lower_bound rest q := by
        simp [SymMap.lower_bound, List.dropWhile_cons, hq]
      rw [hlb]
      refine ⟨(ih h'.2).1, (ih h'.2).2.1, ?_⟩
      rw [(ih h'.2).2.2, List.filter_cons]
      have : e.1 ≠ q := by
        intro he; rw [he, keyLt_irrefl] at hq; cases hq
      simp [this]
    | false =>
      have hlb : SymMap.lower_bound (e :: rest) q = e :: rest := by
        simp [SymMap.lower_bound, List.dropWhile_cons, hq]
      rw [hlb]
      refine ⟨h, ?_, rfl⟩
      intro x hx
      rcases List.mem_cons.mp hx with hx | hx
      · subst hx; exact hq
      · cases hxq : keyLt x.1 q with
        | false => rfl
        | true =>
          cases hex : keyLt e.1 x.1 with
          | true =>
            have := keyLt_trans _ _ _ hex hxq
            rw [hq] at this; cases this
          | false =>
            have := keyLt_total _ _ (h'.1 x hx) hex
            rw [this, hq] at hxq; cases hxq

/-- On an ordered multimap `equal_range q` lists the entries with key `q`, in
iteration order. -/
theorem SymMap.equal_range_eq_filter (m : SymMap) (q : Bytes) (h : SymMap.Ordered m) :
    m.equal_range q = m.filter (fun e => decide (e.1 = q)) := by
  obtain ⟨h1, h2, h3⟩ := SymMap.lower_bound_spec m q h
  unfold SymMap.equal_range
  rw [SymMap.takeWhile_eq_filter _ q h1 h2, h3]

/-- The member `find` returns the first entry of `equal_range`. -/
theorem SymMap.find_eq_head (m : SymMap) (q : Bytes) :
    m.find q = (m.equal_range q).head? := by
  unfold SymMap.find SymMap.equal_range
  cases hlb : m.lower_bound q with
  | nil => simp
  | cons e rest =>
    cases hq : keyLt q e.1 <;> simp [List.takeWhile_cons, hq]

/-! ## The linear index -/

/-- The loop of `MayInitLinearMap` keeps the index ordered and adds the qualifying
symbols, those of one name in table order. -/
theorem MayInitLinearMap.foldl_spec (hdr : Bytes) (off : Nat) (tab : Nat → ElfSym)
    (l : List Nat) (acc : SymMap) (h : SymMap.Ordered acc) :
    SymMap.Ordered (l.foldl (MayInitLinearMap.step hdr off tab) acc) ∧
      (l.foldl (MayInitLinearMap.step hdr off tab) acc).Perm
        (acc ++ (l.filter (fun i => indexed (tab i))).map
          (fun i => (cstr hdr (off + (tab i).st_name), tab i))) ∧
      ∀ q, (l.foldl (MayInitLinearMap.step hdr off tab) acc).filter (fun e => decide (e.1 = q)) =
        acc.filter (fun e => decide (e.1 = q)) ++
          ((l.filter (fun i => indexed (tab i))).map
            (fun i => (cstr hdr (off + (tab i).st_name), tab i))).filter
              (fun e => decide (e.1 = q)) := by
  induction l generalizing acc with
  | nil => simp [h]
  | cons i rest ih =>
    rw [List.foldl_cons]
    by_cases hi : indexed (tab i) = true
    · have hstep : MayInitLinearMap.step hdr off tab acc i =
          SymMap.emplace acc (cstr hdr (off + (tab i).st_name)) (tab i) := by
        unfold MayInitLinearMap.step
        simp only [indexed, decide_eq_true_eq] at hi
        simp [hi]
      rw [hstep]
      obtain ⟨h1, h2, h3⟩ := ih _ (SymMap.emplace_ordered acc _ _ h)
      refine ⟨h1, ?_, ?_⟩
      · refine h2.trans ?_
        rw [List.filter_cons, if_pos hi, List.map_cons]
        refine (List.Perm.append_right _ (SymMap.emplace_perm acc _ _)).trans ?_
        simp only [List.cons_append]
        exact List.perm_middle.symm
      · intro q
        rw [h3 q, SymMap.filter_emplace acc _ _ q h, List.filter_cons, if_pos hi, List.map_cons,
          List.filter_cons]
        by_cases hq : cstr hdr (off + (tab i).st_name) = q <;> simp [hq]
    · have hstep : MayInitLinearMap.step hdr off tab acc i = acc := by
        unfold MayInitLinearMap.step
        simp only [indexed, decide_eq_true_eq] at hi
        simp [hi]
      rw [hstep, List.filter_cons, if_neg hi]
      exact ih acc h

/-- With an empty cache and the guard passed, `MayInitLinearMap` runs its loop. -/
theorem MayInitLinearMap_fresh (img : ElfImg) (tab : Nat → ElfSym)
    (hcache : img.symtabs_ = []) (htab : img.symtab_start = some tab)
    (hstr : img.symstr_offset_for_symtab ≠ 0) :
    (MayInitLinearMap img).symtabs_ =
      (List.range img.symtab_count).foldl
        (MayInitLinearMap.step img.hdr img.symstr_offset_for_symtab tab) [] := by
  simp [MayInitLinearMap, hcache, htab, hstr]

/-- From every reachable cache state the index after `MayInitLinearMap` is the
one the loop builds from the empty index. -/
theorem MayInitLinearMap_reachable (img : ElfImg) (tab : Nat → ElfSym)
    (hcache : img.cacheReachable) (htab : img.symtab_start = some tab)
    (hstr : img.symstr_offset_for_symtab ≠ 0) :
    (MayInitLinearMap img).symtabs_ =
      (List.range img.symtab_count).foldl
        (MayInitLinearMap.step img.hdr img.symstr_offset_for_symtab tab) [] := by
  have hfresh := MayInitLinearMap_fresh { img with symtabs_ := [] } tab rfl htab hstr
  rcases hcache with hc | hc
  · exact MayInitLinearMap_fresh img tab hc htab hstr
  · by_cases he : img.symtabs_ = []
    · exact MayInitLinearMap_fresh img tab he htab hstr
    · have : (MayInitLinearMap img) = img := by
        unfold MayInitLinearMap
        have : img.symtabs_.isEmpty = false := by
          cases hs : img.symtabs_ with
          | nil => exact absurd hs he
          | cons _ _ => rfl
        simp [this]
      rw [this, hc, hfresh]
      rfl

/-- The image that `MayInitLinearMap` reads names from is the image that holds
the static tables. -/
theorem ElfImg.hdr_eq_staticImage (img : ElfImg) : img.hdr = staticImage img := by
  unfold ElfImg.hdr staticImage
  cases img.header_debugdata <;> rfl

/-- The index after `MayInitLinearMap`: ordered, a permutation of the qualifying
entries, and under every key the qualifying entries of that name in table
order. -/
theorem MayInitLinearMap_spec (img : ElfImg) (tab : Nat → ElfSym)
    (hcache : img.cacheReachable) (htab : img.symtab_start = some tab)
    (hstr : img.symstr_offset_for_symtab ≠ 0) :
    SymMap.Ordered (MayInitLinearMap img).symtabs_ ∧
      (MayInitLinearMap img).symtabs_.Perm (indexedEntries img tab) ∧
      ∀ q, (MayInitLinearMap img).symtabs_.equal_range q =
        (indexedEntries img tab).filter (fun e => decide (e.1 = q)) := by
  rw [MayInitLinearMap_reachable img tab hcache htab hstr]
  obtain ⟨h1, h2, h3⟩ := MayInitLinearMap.foldl_spec img.hdr img.symstr_offset_for_symtab tab
    (List.range img.symtab_count) [] (by simp [SymMap.Ordered])
  rw [ElfImg.hdr_eq_staticImage] at h1 h2 h3 ⊢
  refine ⟨h1, by simpa [indexedEntries, staticName] using h2, ?_⟩
  intro q
  rw [SymMap.equal_range_eq_filter _ q h1, h3 q]
  simp [indexedEntries, staticName]

/-- The lazy build keeps an ordered index ordered. -/
theorem MayInitLinearMap_ordered (img : ElfImg) (h : SymMap.Ordered img.symtabs_) :
    SymMap.Ordered (MayInitLinearMap img).symtabs_ := by
  unfold MayInitLinearMap
  split
  · split
    · split
      · exact (MayInitLinearMap.foldl_spec _ _ _ _ _ h).1
      · exact h
    · exact h
  · exact h

/-- The `emplace_back` loop of `LinearRangeLookup` collects the values in order. -/
theorem foldl_append_singleton_map (l : SymMap) (acc : List Nat) :
    l.foldl (fun res e => res ++ [e.2.st_value]) acc = acc ++ l.map (fun e => e.2.st_value) := by
  induction l generalizing acc with
  | nil => simp
  | cons e rest ih => simp [ih]

/-- The head of a filtered list is the first element that passes the filter. -/
theorem head?_filter_eq_find? {α : Type} (p : α → Bool) (l : List α) :
    (l.filter p).head? = l.find? p := by
  induction l with
  | nil => rfl
  | cons a rest ih =>
    rw [List.filter_cons, List.find?_cons]
    cases p a <;> simp [ih]

/-- C7 (amended): when the object records a static symbol table and a static
string-table offset other than 0 (the guard of `MayInitLinearMap`),
`LinearRangeLookup` returns the values of exactly the qualifying entries of the
static symbol table whose name, read from the static string table of the image
that holds the tables, equals the queried name, one per entry, in the order in
which the table stores them. -/
theorem LinearRangeLookup_table_order (img : ElfImg) (tab : Nat → ElfSym) (name : Bytes)
    (hcache : img.cacheReachable) (htab : img.symtab_start = some tab)
    (hstr : img.symstr_offset_for_symtab ≠ 0) :
    (LinearRangeLookup img name).1 =
      ((List.range img.symtab_count).filter
        (fun i => indexed (tab i) && decide (staticName img tab i = name))).map
          (fun i => (tab i).st_value) := by
  obtain ⟨_, _, h3⟩ := MayInitLinearMap_spec img tab hcache htab hstr
  simp only [LinearRangeLookup]
  rw [foldl_append_singleton_map, h3 name, indexedEntries, List.filter_map, List.map_map,
    List.filter_filter]
  simp only [List.nil_append]
  congr 1
  apply List.filter_congr
  intro i _
  simp [Bool.and_comm]

/-- C8 (amended): when the object records a static symbol table and a static
string-table offset other than 0 (the guard of `MayInitLinearMap`), the index
built by `MayInitLinearMap` holds exactly the symbols of function or object type
and non-zero size, keyed by their names from the static string table of the
image that holds the tables; `LinearLookup` returns the value of the first such
entry with the queried name, or 0 when there is none, so it depends on the
qualifying symbols only. -/
theorem MayInitLinearMap_index (img : ElfImg) (tab : Nat → ElfSym) (name : Bytes)
    (hcache : img.cacheReachable) (htab : img.symtab_start = some tab)
    (hstr : img.symstr_offset_for_symtab ≠ 0) :
    (∀ k v, (k, v) ∈ (MayInitLinearMap img).symtabs_ ↔
        ∃ i, i < img.symtab_count ∧ indexed (tab i) = true ∧
          k = staticName img tab i ∧ v = tab i) ∧
      (MayInitLinearMap img).symtabs_.Perm (indexedEntries img tab) ∧
      (LinearLookup img name).1 =
        (match (indexedEntries img tab).find? (fun e => decide (e.1 = name)) with
          | some e => e.2.st_value
          | none => 0) ∧
      ((∃ i, i < img.symtab_count ∧ indexed (tab i) = true ∧ staticName img tab i = name) →
        ∃ i, i < img.symtab_count ∧ indexed (tab i) = true ∧ staticName img tab i = name ∧
          (LinearLookup img name).1 = (tab i).st_value) ∧
      ((∀ i, i < img.symtab_count → indexed (tab i) = true → staticName img tab i ≠ name) →
        (LinearLookup img name).1 = 0) := by
  obtain ⟨_, h2, h3⟩ := MayInitLinearMap_spec img tab hcache htab hstr
  have hmem : ∀ k v, (k, v) ∈ indexedEntries img tab ↔
      ∃ i, i < img.symtab_count ∧ indexed (tab i) = true ∧
        k = staticName img tab i ∧ v = tab i := by
    intro k v
    simp only [indexedEntries, List.mem_map, List.mem_filter, List.mem_range, Prod.mk.injEq]
    constructor
    · rintro ⟨i, ⟨hi, hx⟩, hk, hv⟩
      exact ⟨i, hi, hx, hk.symm, hv.symm⟩
    · rintro ⟨i, hi, hx, hk, hv⟩
      exact ⟨i, ⟨hi, hx⟩, hk.symm, hv.symm⟩
  have hres : (LinearLookup img name).1 =
      (match (indexedEntries img tab).find? (fun e => decide (e.1 = name)) with
        | some e => e.2.st_value
        | none => 0) := by
    simp only [LinearLookup]
    rw [SymMap.find_eq_head, h3 name, head?_filter_eq_find?]
    cases (indexedEntries img tab).find? (fun e => decide (e.1 = name)) <;> rfl
  refine ⟨fun k v => (h2.mem_iff).trans (hmem k v), h2, hres, ?_, ?_⟩
  · rintro ⟨i, hi, hx, hn⟩
    have hin : (staticName img tab i, tab i) ∈ indexedEntries img tab :=
      (hmem _ _).mpr ⟨i, hi, hx, rfl, rfl⟩
    cases hf : (indexedEntries img tab).find? (fun e => decide (e.1 = name)) with
    | none =>
      rw [List.find?_eq_none] at hf
      exact absurd (by simpa using hn) (hf _ hin)
    | some e =>
      have hmem' := List.mem_of_find?_eq_some hf
      have hp := List.find?_some hf
      obtain ⟨j, hj, hxj, hk, hv⟩ := (hmem e.1 e.2).mp hmem'
      refine ⟨j, hj, hxj, ?_, ?_⟩
      · rw [← hk]; simpa using hp
      · rw [hres, hf]; simp only; rw [hv]
  · intro hnone
    have hf : (indexedEntries img tab).find? (fun e => decide (e.1 = name)) = none := by
      rw [List.find?_eq_none]
      rintro ⟨k, v⟩ hin
      obtain ⟨i, hi, hx, hk, _⟩ := (hmem k v).mp hin
      have := hnone i hi hx
      simpa [hk] using this
    rw [hres, hf]

/-- Either every key is below `q`, or `lower_bound q` is the first entry whose
key is not below `q`. -/
theorem SymMap.lower_bound_cases (m : SymMap) (q : Bytes) :
    (m.lower_bound q = [] ∧ ∀ x ∈ m, keyLt x.1 q = true) ∨
      ∃ pre e rest, m = pre ++ e :: rest ∧ m.lower_bound q = e :: rest ∧
        keyLt e.1 q = false ∧ ∀ x ∈ pre, keyLt x.1 q = true := by
  induction m with
  | nil => left; simp [SymMap.lower_bound]
  | cons a rest ih =>
    cases ha : keyLt a.1 q with
    | true =>
      have hlb : SymMap.lower_bound (a :: rest) q = SymMap.lower_bound rest q := by
        simp [SymMap.lower_bound, List.dropWhile_cons, ha]
      rcases ih with ⟨h1, h2⟩ | ⟨pre, e, r, h1, h2, h3, h4⟩
      · left
        refine ⟨by rw [hlb, h1], ?_⟩
        intro x hx
        rcases List.mem_cons.mp hx with hx | hx
        · subst hx; exact ha
        · exact h2 x hx
      · right
        refine ⟨a :: pre, e, r, by rw [h1]; rfl, by rw [hlb, h2], h3, ?_⟩
        intro x hx
        rcases List.mem_cons.mp hx with hx | hx
        · subst hx; exact ha
        · exact h4 x hx
    | false =>
      right
      exact ⟨[], a, rest, rfl, by simp [SymMap.lower_bound, List.dropWhile_cons, ha], ha,
        by simp⟩

/-- C6 (amended): `PrefixLookupFirst` returns 0 when no indexed name starts with
the prefix, and otherwise the recorded value of an entry whose name starts with
the prefix and is not above any other indexed name that does. -/
theorem PrefixLookupFirst_smallest (img : ElfImg) (pfx : Bytes)
    (h : SymMap.Ordered img.symtabs_) :
    ((∀ e ∈ (MayInitLinearMap img).symtabs_, starts_with e.1 pfx = false) →
        (PrefixLookupFirst img pfx).1 = 0) ∧
      ((∃ e ∈ (MayInitLinearMap img).symtabs_, starts_with e.1 pfx = true) →
        ∃ e ∈ (MayInitLinearMap img).symtabs_, starts_with e.1 pfx = true ∧
          (∀ e' ∈ (MayInitLinearMap img).symtabs_, starts_with e'.1 pfx = true →
            keyLt e'.1 e.1 = false) ∧
          (PrefixLookupFirst img pfx).1 = e.2.st_value) := by
  have hord := MayInitLinearMap_ordered img h
  generalize hm : (MayInitLinearMap img).symtabs_ = m at hord
  have hres : (PrefixLookupFirst img pfx).1 =
      (match m.lower_bound pfx with
        | e :: _ => if starts_with e.1 pfx then e.2.st_value else 0
        | [] => 0) := by
    simp only [PrefixLookupFirst, hm]
    cases m.lower_bound pfx with
    | nil => rfl
    | cons e _ => by_cases hs : starts_with e.1 pfx = true <;> simp [hs]
  have hbelow : ∀ x : Bytes × ElfSym, keyLt x.1 pfx = true → starts_with x.1 pfx = false := by
    intro x hx
    cases hs : starts_with x.1 pfx with
    | false => rfl
    | true => rw [keyLt_of_starts_with _ _ hs] at hx; cases hx
  rcases SymMap.lower_bound_cases m pfx with ⟨h1, h2⟩ | ⟨pre, e, rest, h1, h2, h3, h4⟩
  · refine ⟨fun _ => by rw [hres, h1], ?_⟩
    rintro ⟨e, he, hs⟩
    rw [hbelow e (h2 e he)] at hs
    cases hs
  · have hem : e ∈ m := by rw [h1]; simp
    have hord' : ∀ x ∈ rest, keyLt x.1 e.1 = false := by
      unfold SymMap.Ordered at hord
      rw [h1, List.pairwise_append, List.pairwise_cons] at hord
      exact hord.2.1.1
    cases hs : starts_with e.1 pfx with
    | true =>
      have hval : (PrefixLookupFirst img pfx).1 = e.2.st_value := by
        rw [hres, h2]; simp [hs]
      refine ⟨fun hall => ?_, fun _ => ⟨e, hem, hs, ?_, hval⟩⟩
      · rw [hall e hem] at hs; cases hs
      · intro e' he' hs'
        rw [h1] at he'
        rcases List.mem_append.mp he' with hp | hp
        · rw [hbelow e' (h4 e' hp)] at hs'; cases hs'
        · rcases List.mem_cons.mp hp with hp | hp
          · rw [hp]; exact keyLt_irrefl _
          · exact hord' e' hp
    | false =>
      have hval : (PrefixLookupFirst img pfx).1 = 0 := by
        rw [hres, h2]; simp [hs]
      refine ⟨fun _ => hval, ?_⟩
      rintro ⟨e', he', hs'⟩
      exfalso
      rw [h1] at he'
      rcases List.mem_append.mp he' with hp | hp
      · rw [hbelow e' (h4 e' hp)] at hs'; cases hs'
      · rcases List.mem_cons.mp hp with hp | hp
        · rw [hp, hs] at hs'; cases hs'
        · have := keyLt_of_not_starts_with pfx e.1 e'.1 h3 hs hs'
          rw [hord' e' hp] at this
          cases this

/-! ## Examples on concrete inputs -/

/-- C6 fails as stated: the index of `zeroValueImg` holds the name `foobar`,
which starts with `foo`, and `PrefixLookupFirst` still returns 0, the recorded
value of that entry. -/
theorem PrefixLookupFirst_zero_value :
    (∃ e ∈ (MayInitLinearMap zeroValueImg).symtabs_, starts_with e.1 (ascii "foo") = true) ∧
      (PrefixLookupFirst zeroValueImg (ascii "foo")).1 = 0 := by
  refine ⟨⟨(ascii "foobar", ⟨1, 18, 0, 4⟩), by decide, by decide⟩, by decide⟩

/-- C6 (amended) on `exampleImg`, whose index holds `foobar`, `foobaz` and `zzz`:
the prefix `foo` yields the value of `foobar`, the prefix `bar` yields 0. -/
theorem PrefixLookupFirst_smallest_witness :
    SymMap.Ordered exampleImg.symtabs_ ∧
      (∃ e ∈ (MayInitLinearMap exampleImg).symtabs_, starts_with e.1 (ascii "foo") = true ∧
        (∀ e' ∈ (MayInitLinearMap exampleImg).symtabs_, starts_with e'.1 (ascii "foo") = true →
          keyLt e'.1 e.1 = false) ∧
        (PrefixLookupFirst exampleImg (ascii "foo")).1 = e.2.st_value) ∧
      (PrefixLookupFirst exampleImg (ascii "foo")).1 = 0x100 ∧
      (PrefixLookupFirst exampleImg (ascii "bar")).1 = 0 :=
  ⟨List.Pairwise.nil,
    (PrefixLookupFirst_smallest exampleImg (ascii "foo") List.Pairwise.nil).2
      ⟨(ascii "foobar", ⟨1, 17, 0x100, 4⟩), by decide, by decide⟩,
    by decide,
    (PrefixLookupFirst_smallest exampleImg (ascii "bar") List.Pairwise.nil).1 (by decide)⟩

/-- C7 fails as stated: in `noStrtabImg` the static symbol table holds a weak and
a global function named `dup` (entries 4 and 6), but its string table is not
named `.strtab`, so no static string-table offset is recorded, the index stays
empty and `LinearRangeLookup` returns the empty sequence for `dup`. -/
theorem LinearRangeLookup_without_strtab :
    noStrtabImg.symtab_start.map (fun tab => (tab 4, tab 6)) =
        some (⟨19, 34, 0x400, 8⟩, ⟨19, 18, 0x500, 8⟩) ∧
      noStrtabImg.symtab_count = 8 ∧
      cstr exampleFile (4 + 19) = ascii "dup" ∧
      noStrtabImg.symstr_offset_for_symtab = 0 ∧
      (LinearRangeLookup noStrtabImg (ascii "dup")).1 = [] ∧
      parse.faults (symFile 9) = false := by
  decide

/-- C7 (amended) on `exampleImg` and on the stripped construction
`strippedSymImg`, whose names stand in the decompressed image: the weak and the
global `dup` are both returned, in table order, and a name without entry yields
the empty sequence. -/
theorem LinearRangeLookup_table_order_witness :
    exampleImg.cacheReachable ∧ exampleImg.symtab_start = some exampleSymtab ∧
      exampleImg.symstr_offset_for_symtab ≠ 0 ∧
      (LinearRangeLookup exampleImg (ascii "dup")).1 = [0x400, 0x500] ∧
      (LinearRangeLookup exampleImg (ascii "nope")).1 = [] ∧
      strippedSymImg.header = some [] ∧ strippedSymImg.header_debugdata = some exampleFile ∧
      strippedSymImg.cacheReachable ∧ strippedSymImg.symtab_start = some exampleSymtab ∧
      strippedSymImg.symstr_offset_for_symtab ≠ 0 ∧
      (LinearRangeLookup strippedSymImg (ascii "dup")).1 = [0x400, 0x500] :=
  ⟨Or.inl rfl, rfl, by decide,
    (LinearRangeLookup_table_order exampleImg exampleSymtab (ascii "dup") (Or.inl rfl) rfl
      (by decide)).trans (by decide),
    (LinearRangeLookup_table_order exampleImg exampleSymtab (ascii "nope") (Or.inl rfl) rfl
      (by decide)).trans (by decide),
    by decide, by decide, Or.inl rfl, rfl, by decide,
    (LinearRangeLookup_table_order strippedSymImg exampleSymtab (ascii "dup") (Or.inl rfl) rfl
      (by decide)).trans (by decide)⟩

/-- C8 fails as stated: in `noStrtabImg` entry 3 of the static symbol table is an
object of size 4 named `foobar`, but the string table is not named `.strtab`, so
no static string-table offset is recorded: the index holds no entry and
`LinearLookup` returns 0 for `foobar`. -/
theorem MayInitLinearMap_without_strtab :
    noStrtabImg.symtab_start.map (fun tab => tab 3) = some ⟨1, 17, 0x100, 4⟩ ∧
      noStrtabImg.symtab_count = 8 ∧ indexed ⟨1, 17, 0x100, 4⟩ = true ∧
      cstr exampleFile (4 + 1) = ascii "foobar" ∧
      noStrtabImg.symstr_offset_for_symtab = 0 ∧
      (MayInitLinearMap noStrtabImg).symtabs_.length = 0 ∧
      (LinearLookup noStrtabImg (ascii "foobar")).1 = 0 ∧
      parse.faults (symFile 9) = false := by
  decide

/-- C8 (amended) on `exampleImg` and on the stripped construction
`strippedSymImg`, whose names stand in the decompressed image: `foobar` resolves
to the object of size 4, not to the function of size zero that carries the same
name. -/
theorem MayInitLinearMap_index_witness :
    exampleImg.cacheReachable ∧ exampleImg.symtab_start = some exampleSymtab ∧
      exampleImg.symstr_offset_for_symtab ≠ 0 ∧
      (LinearLookup exampleImg (ascii "foobar")).1 = 0x100 ∧
      (LinearLookup exampleImg (ascii "nope")).1 = 0 ∧
      strippedSymImg.header = some [] ∧ strippedSymImg.header_debugdata = some exampleFile ∧
      strippedSymImg.cacheReachable ∧ strippedSymImg.symtab_start = some exampleSymtab ∧
      strippedSymImg.symstr_offset_for_symtab ≠ 0 ∧
      (∀ k v, (k, v) ∈ (MayInitLinearMap strippedSymImg).symtabs_ ↔
        ∃ i, i < 8 ∧ indexed (exampleSymtab i) = true ∧
          k = cstr exampleFile (4 + (exampleSymtab i).st_name) ∧ v = exampleSymtab i) ∧
      (LinearLookup strippedSymImg (ascii "foobar")).1 = 0x100 :=
  ⟨Or.inl rfl, rfl, by decide,
    (MayInitLinearMap_index exampleImg exampleSymtab (ascii "foobar") (Or.inl rfl) rfl
      (by decide)).2.2.1.trans (by decide),
    (MayInitLinearMap_index exampleImg exampleSymtab (ascii "nope") (Or.inl rfl) rfl
      (by decide)).2.2.2.2 (by decide),
    by decide, by decide, Or.inl rfl, rfl, by decide,
    (MayInitLinearMap_index strippedSymImg exampleSymtab (ascii "foobar") (Or.inl rfl) rfl
      (by decide)).1,
    (MayInitLinearMap_index strippedSymImg exampleSymtab (ascii "foobar") (Or.inl rfl) rfl
      (by decide)).2.2.1.trans (by decide)⟩

/-- C9 on `exampleMaps`: a lone `r-xp` entry stands before the pair, and the base
is still the start of the `r--p` entry. -/
theorem findModuleBase_prefers_pair_witness :
    (∃ i, IsPair (filterMaps .elf64 libartImg.elf exampleMaps) i) ∧
      (∃ i a, (filterMaps .elf64 libartImg.elf exampleMaps).get? i = some a ∧
        IsPair (filterMaps .elf64 libartImg.elf exampleMaps) i ∧
        (∀ j < i, ¬ IsPair (filterMaps .elf64 libartImg.elf exampleMaps) j) ∧
        findModuleBase .elf64 libartImg (some exampleMaps) =
          (true, { libartImg with base := a.start_addr, elf := a.pathname })) ∧
      (findModuleBase .elf64 libartImg (some exampleMaps)).2.base = 0x7000 :=
  ⟨⟨1, _, _, rfl, rfl, by decide, by decide⟩,
    findModuleBase_prefers_pair .elf64 libartImg exampleMaps
      ⟨1, _, _, rfl, rfl, by decide, by decide⟩,
    by decide⟩

/-- The filtered list of `fallbackMaps` holds no adjacent (`r--p`, `r-xp`) pair. -/
theorem fallbackMaps_no_pair : ∀ i, ¬ IsPair (filterMaps .elf64 libartImg.elf fallbackMaps) i := by
  rintro i ⟨a, b, ha, hb, hpa, hpb⟩
  have hfl : filterMaps .elf64 libartImg.elf fallbackMaps =
      [⟨0x4000, ascii "rw-p", ascii "/apex/lib64/libart.so"⟩,
        ⟨0x5000, ascii "r-xp", ascii "/apex/lib64/libart.so"⟩,
        ⟨0x6000, ascii "r-xp", ascii "/apex/lib64/libart.so"⟩] := by decide
  rw [hfl] at ha hb
  match i with
  | 0 => cases ha; revert hpa; decide
  | 1 => cases ha; revert hpa; decide
  | 2 => cases ha; revert hpa; decide
  | n + 3 => cases ha

/-- C10 on `fallbackMaps`: no pair, two `r-xp` entries; the base is the start of
the first of them. -/
theorem findModuleBase_fallback_witness :
    (∀ i, ¬ IsPair (filterMaps .elf64 libartImg.elf fallbackMaps) i) ∧
      (∃ y ∈ filterMaps .elf64 libartImg.elf fallbackMaps, y.perms = ascii "r-xp") ∧
      (∃ pre x post, filterMaps .elf64 libartImg.elf fallbackMaps = pre ++ x :: post ∧
        x.perms = ascii "r-xp" ∧ (∀ y ∈ pre, y.perms ≠ ascii "r-xp") ∧
        findModuleBase .elf64 libartImg (some fallbackMaps) =
          (true, { libartImg with base := x.start_addr, elf := x.pathname })) ∧
      (findModuleBase .elf64 libartImg (some fallbackMaps)).2.base = 0x5000 :=
  ⟨fallbackMaps_no_pair,
    ⟨⟨0x5000, ascii "r-xp", ascii "/apex/lib64/libart.so"⟩, by decide, by decide⟩,
    findModuleBase_fallback .elf64 libartImg fallbackMaps fallbackMaps_no_pair
      ⟨⟨0x5000, ascii "r-xp", ascii "/apex/lib64/libart.so"⟩, by decide, by decide⟩,
    by decide⟩

/-! ## The hash tables -/

/-- After `parseHash`, `bucket_[b]` is word `2 + b` of the section. -/
theorem parseHash_bucket (img : ElfImg) (sec : WordPtr) (b : Nat) :
    (parseHash img sec).bucket_.get (b : Int) = hashBucketWord sec b := by
  simp [parseHash, hashBucketWord, WordPtr.get, WordPtr.add]

/-- After `parseHash`, `chain_[n]` is word `2 + nbucket + n` of the section. -/
theorem parseHash_chain (img : ElfImg) (sec : WordPtr) (n : Nat) :
    (parseHash img sec).chain_.get (n : Int) = hashChainWord sec n := by
  simp [parseHash, hashChainWord, WordPtr.get, WordPtr.add, add_assoc]

/-- After `parseGnuHash`, `gnu_bucket_[b]` is the bucket word `b` of the section. -/
theorem parseGnuHash_bucket (cls : ElfClass) (img : ElfImg) (sec : WordPtr) (b : Nat) :
    (parseGnuHash cls img sec).gnu_bucket_.get (b : Int) = gnuBucketWord cls sec b := by
  simp [parseGnuHash, gnuBucketWord, WordPtr.get, WordPtr.add, add_assoc]

/-- After `parseGnuHash`, `gnu_chain_[i]` is the chain word of symbol `i`. -/
theorem parseGnuHash_chain (cls : ElfClass) (img : ElfImg) (sec : WordPtr) (i : Nat) :
    (parseGnuHash cls img sec).gnu_chain_.get (i : Int) = gnuChainWord cls sec i := by
  simp only [parseGnuHash, gnuChainWord, WordPtr.get, WordPtr.add]
  congr 2
  push_cast
  ring

/-- After `parseGnuHash`, `gnu_bloom_filter_[k]` is bloom word `k` of the section. -/
theorem parseGnuHash_bloom (cls : ElfClass) (img : ElfImg) (sec : WordPtr) (k : Nat) :
    readAddr cls (parseGnuHash cls img sec).gnu_bloom_filter_ (k : Int) =
      gnuBloomWord cls sec k := by
  simp [parseGnuHash, gnuBloomWord]

/-- A chain has at most one walk. -/
theorem chainWalk_unique (chain : Nat → Nat) :
    ∀ (l l' : List Nat) (n : Nat), ChainWalk chain n l → ChainWalk chain n l' → l = l'
  | [], [], _, _, _ => rfl
  | [], _ :: _, _, h, h' => absurd h h'.1
  | _ :: _, [], _, h, h' => absurd h' h.1
  | m :: l, m' :: l', n, h, h' => by
    obtain ⟨_, h1, h2⟩ := h
    obtain ⟨_, h1', h2'⟩ := h'
    rw [h1, h1', chainWalk_unique chain l l' _ h2 h2']

/-- The chain walk of `ElfLookup`: on a chain that ends in 0 the loop leaves
once `fuel` covers the chain, with the value of the first symbol of that name. -/
theorem ElfLookup.loop_walk (img : ElfImg) (name : Bytes) :
    ∀ (l : List Nat) (n fuel : Nat), ChainWalk (fun k => img.chain_.get (k : Int)) n l →
      l.length ≤ fuel → ElfLookup.loop img name fuel n = some (chainResult img name l)
  | [], n, fuel, h, _ => by
    have hn : n = 0 := h
    subst hn
    cases fuel <;> simp [ElfLookup.loop, chainResult]
  | m :: l, n, fuel, h, hf => by
    obtain ⟨hn, hm, hrest⟩ := h
    subst hm
    cases fuel with
    | zero => simp at hf
    | succ fuel =>
      rw [ElfLookup.loop]
      simp only [hn, if_false]
      by_cases hq : name = cstr img.strtab_start (img.dynsym_start m).st_name
      · simp [chainResult, dynName, ← hq]
      · have ih := ElfLookup.loop_walk img name l (img.chain_.get (m : Int)) fuel hrest
          (by simpa using hf)
        simp only [hq, if_false, ih]
        simp [chainResult, dynName, hq]

/-- A run has at most one end. -/
theorem gnuRunEnd_unique (chain : Nat → Nat) (start e e' : Nat) (h : GnuRunEnd chain start e)
    (h' : GnuRunEnd chain start e') : e = e' := by
  obtain ⟨h1, _, h3, h4⟩ := h
  obtain ⟨h1', _, h3', h4'⟩ := h'
  rcases Nat.lt_trichotomy e e' with hlt | heq | hgt
  · have := h3' e h1 hlt; omega
  · exact heq
  · have := h3 e' h1' hgt; omega

/-- The test `((c ^ h) >> 1) == 0` compares `c` and `h` in every bit but the
lowest. -/
theorem xor_shift_eq_zero_iff (c h : Nat) : (c ^^^ h) >>> 1 = 0 ↔ c / 2 = h / 2 := by
  rw [Nat.shiftRight_eq_div_pow, pow_one, Nat.xor_div_two, Nat.xor_eq_zero]

/-- The run scan of `GnuLookup`: on a run that ends at `e` the loop leaves once
`fuel` covers the run, with the value of the first qualifying symbol. -/
theorem GnuLookup.loop_run (img : ElfImg) (name : Bytes) (hash : Nat) (e : Nat) :
    ∀ (k start fuel : Nat), e - start = k →
      GnuRunEnd (fun i => img.gnu_chain_.get (i : Int)) start e → k < fuel →
      GnuLookup.loop img name hash fuel start =
        some (gnuRunResult img (fun i => img.gnu_chain_.get (i : Int)) name hash start e) := by
  intro k
  induction k with
  | zero =>
    intro start fuel hk hrun hf
    obtain ⟨h1, h2, h3, h4⟩ := hrun
    have hse : start = e := by omega
    subst hse
    cases fuel with
    | zero => omega
    | succ fuel =>
      rw [GnuLookup.loop]
      simp only [gnuRunResult, Nat.sub_self, zero_add, List.range'_one, List.find?_cons,
        List.find?_nil, gnuQualifies, dynName, xor_shift_eq_zero_iff, Nat.and_one_is_mod]
      by_cases hq : img.gnu_chain_.get (start : Int) / 2 = hash / 2 ∧
          name = cstr img.strtab_start (img.dynsym_start start).st_name
      · simp [hq]
      · simp [hq, h4]
  | succ k ih =>
    intro start fuel hk hrun hf
    obtain ⟨h1, h2, h3, h4⟩ := hrun
    have hlt : start < e := by omega
    cases fuel with
    | zero => omega
    | succ fuel =>
      rw [GnuLookup.loop]
      have hsub : e - start + 1 = (e - (start + 1) + 1) + 1 := by omega
      simp only [gnuRunResult, hsub, List.range'_succ _ (e - (start + 1) + 1), List.find?_cons,
        gnuQualifies, dynName, xor_shift_eq_zero_iff, Nat.and_one_is_mod]
      by_cases hq : img.gnu_chain_.get (start : Int) / 2 = hash / 2 ∧
          name = cstr img.strtab_start (img.dynsym_start start).st_name
      · simp [hq]
      · have hmod : (start + 1) % 2 ^ 32 = start + 1 := Nat.mod_eq_of_lt (by omega)
        have hrun' : GnuRunEnd (fun i => img.gnu_chain_.get (i : Int)) (start + 1) e :=
          ⟨by omega, h2, fun i hi hie => h3 i (by omega) hie, h4⟩
        have := ih (start + 1) fuel (by omega) hrun' (by omega)
        have hmod' : (start + 1) % 4294967296 = start + 1 := hmod
        simp only [gnuRunResult, gnuQualifies, dynName] at this
        simp [hq, h3 start (le_refl _) hlt, hmod', this]

/-- The test `(mask & word) == mask` holds exactly when both mask bits are set
in the word. -/
theorem bloom_mask_test (a b w : Nat) :
    (0 ||| 1 <<< a ||| 1 <<< b) &&& w = (0 ||| 1 <<< a ||| 1 <<< b) ↔
      w.testBit a = true ∧ w.testBit b = true := by
  rw [Nat.zero_or, Nat.one_shiftLeft, Nat.one_shiftLeft]
  constructor
  · intro h
    constructor
    · have := congrArg (fun x => x.testBit a) h
      simpa [Nat.testBit_and, Nat.testBit_or, Nat.testBit_two_pow] using this
    · have := congrArg (fun x => x.testBit b) h
      simpa [Nat.testBit_and, Nat.testBit_or, Nat.testBit_two_pow] using this
  · rintro ⟨ha, hb⟩
    apply Nat.eq_of_testBit_eq
    intro i
    rw [Nat.testBit_and, Nat.testBit_or, Nat.testBit_two_pow, Nat.testBit_two_pow]
    by_cases h1 : a = i
    · subst h1; simp [ha]
    · by_cases h2 : b = i
      · subst h2; simp [hb]
      · simp [h1, h2]

/-- C4: when the GNU table is empty, or one of the two bloom bits of the hash is
clear in the selected bloom word, `GnuLookup` returns 0 whatever the bucket and
chain arrays hold and however few loop runs are allowed (none is taken).  The
shift count of the table is below 32, the width of the hash. -/
theorem GnuLookup_bloom_reject (cls : ElfClass) (img : ElfImg) (fuel : Nat) (name : Bytes)
    (hash : Nat) (bucket chain : WordPtr) (hshift : img.gnu_shift2_ < 32)
    (h : img.gnu_nbucket_ = 0 ∨ img.gnu_bloom_size_ = 0 ∨
      (readAddr cls img.gnu_bloom_filter_
        (((hash / bloom_mask_bits cls) % img.gnu_bloom_size_ : Nat) : Int)).testBit
          (hash % bloom_mask_bits cls) = false ∨
      (readAddr cls img.gnu_bloom_filter_
        (((hash / bloom_mask_bits cls) % img.gnu_bloom_size_ : Nat) : Int)).testBit
          ((hash >>> img.gnu_shift2_) % bloom_mask_bits cls) = false) :
    GnuLookup cls { img with gnu_bucket_ := bucket, gnu_chain_ := chain } fuel name hash =
      some 0 := by
  unfold GnuLookup
  by_cases he : img.gnu_nbucket_ = 0 ∨ img.gnu_bloom_size_ = 0
  · simp [he]
  · have hbits : ¬ (GnuLookup.mask cls { img with gnu_bucket_ := bucket, gnu_chain_ := chain } hash
        &&& GnuLookup.bloom_word cls { img with gnu_bucket_ := bucket, gnu_chain_ := chain } hash
        = GnuLookup.mask cls { img with gnu_bucket_ := bucket, gnu_chain_ := chain } hash) := by
      unfold GnuLookup.mask GnuLookup.bloom_word
      rw [bloom_mask_test]
      rintro ⟨h1, h2⟩
      rcases h with h | h | h | h
      · exact he (Or.inl h)
      · exact he (Or.inr h)
      · simp only at h1; rw [h] at h1; cases h1
      · simp only [Nat.mod_eq_of_lt hshift] at h2; rw [h] at h2; cases h2
    simp only [he, if_false, hbits]

/-- C3: on a GNU table with a shift count below 32 (the width of the hash) that
passes the bloom test, `GnuLookup` returns 0 when the
bucket entry is below the symbol-index floor, and otherwise scans the run from
the bucket entry to the first chain entry with its lowest bit set and returns
the value of the first symbol whose chain entry equals the hash in every bit
but the lowest and whose name equals the query, or 0 when no symbol of the run
does. -/
theorem GnuLookup_run_scan (cls : ElfClass) (img : ElfImg) (sec : WordPtr) (name : Bytes)
    (hash : Nat) (hnb : sec.get 0 ≠ 0) (hbs : sec.get 2 ≠ 0) (hshift : sec.get 3 < 32)
    (hbit1 : (gnuBloomWord cls sec ((hash / bloom_mask_bits cls) % sec.get 2)).testBit
      (hash % bloom_mask_bits cls) = true)
    (hbit2 : (gnuBloomWord cls sec ((hash / bloom_mask_bits cls) % sec.get 2)).testBit
      ((hash >>> sec.get 3) % bloom_mask_bits cls) = true) :
    (gnuBucketWord cls sec (hash % sec.get 0) < sec.get 1 →
        ∀ fuel, GnuLookup cls (parseGnuHash cls img sec) fuel name hash = some 0) ∧
      (∀ e, sec.get 1 ≤ gnuBucketWord cls sec (hash % sec.get 0) →
        GnuRunEnd (gnuChainWord cls sec) (gnuBucketWord cls sec (hash % sec.get 0)) e →
        ∀ fuel, e - gnuBucketWord cls sec (hash % sec.get 0) < fuel →
          GnuLookup cls (parseGnuHash cls img sec) fuel name hash =
            some (gnuRunResult img (gnuChainWord cls sec) name hash
              (gnuBucketWord cls sec (hash % sec.get 0)) e)) := by
  have hpass : GnuLookup.mask cls (parseGnuHash cls img sec) hash &&&
      GnuLookup.bloom_word cls (parseGnuHash cls img sec) hash =
        GnuLookup.mask cls (parseGnuHash cls img sec) hash := by
    have hs : (parseGnuHash cls img sec).gnu_shift2_ % 32 = sec.get 3 :=
      Nat.mod_eq_of_lt hshift
    unfold GnuLookup.mask GnuLookup.bloom_word
    rw [bloom_mask_test, parseGnuHash_bloom, hs]
    exact ⟨hbit1, hbit2⟩
  have hempty : ¬ ((parseGnuHash cls img sec).gnu_nbucket_ = 0 ∨
      (parseGnuHash cls img sec).gnu_bloom_size_ = 0) := by
    simp [parseGnuHash, hnb, hbs]
  have hbucket : (parseGnuHash cls img sec).gnu_bucket_.get
      ((hash % (parseGnuHash cls img sec).gnu_nbucket_ : Nat) : Int) =
        gnuBucketWord cls sec (hash % sec.get 0) := parseGnuHash_bucket cls img sec _
  have hfloor : (parseGnuHash cls img sec).gnu_symndx_ = sec.get 1 := rfl
  constructor
  · intro hlt fuel
    unfold GnuLookup
    simp only [hempty, if_false, hpass, if_true, hbucket, hfloor]
    rw [if_neg (by omega)]
  · intro e hge hrun fuel hf
    unfold GnuLookup
    simp only [hempty, if_false, hpass, if_true, hbucket, hfloor]
    rw [if_pos hge]
    have hchain : (fun i : Nat => (parseGnuHash cls img sec).gnu_chain_.get (i : Int)) =
        gnuChainWord cls sec := funext (parseGnuHash_chain cls img sec)
    have := GnuLookup.loop_run (parseGnuHash cls img sec) name hash e _ _ fuel rfl
      (by rw [hchain]; exact hrun) hf
    rw [this, hchain]
    rfl

/-- C2: on a parsed HASH section whose chain from `bucket[hash mod nbucket]` ends
in 0, `ElfLookup` returns the recorded value of a symbol that is linked into
that chain and is the only one of its name there. -/
theorem ElfLookup_chain_member (img : ElfImg) (sec : WordPtr) (name : Bytes) (hash : Nat)
    (l : List Nat) (s : Nat) (hnb : sec.get 0 ≠ 0)
    (hwalk : ChainWalk (hashChainWord sec) (hashBucketWord sec (hash % sec.get 0)) l)
    (hs : s ∈ l) (hname : dynName img s = name)
    (huniq : ∀ t ∈ l, dynName img t = name → t = s) :
    ∀ fuel, l.length ≤ fuel →
      ElfLookup (parseHash img sec) fuel name hash = some (img.dynsym_start s).st_value := by
  intro fuel hf
  have hchain : (fun k : Nat => (parseHash img sec).chain_.get (k : Int)) = hashChainWord sec :=
    funext (parseHash_chain img sec)
  have hbucket : (parseHash img sec).bucket_.get
      ((hash % (parseHash img sec).nbucket_ : Nat) : Int) =
        hashBucketWord sec (hash % sec.get 0) := parseHash_bucket img sec _
  have hne : ¬ (parseHash img sec).nbucket_ = 0 := hnb
  unfold ElfLookup
  rw [if_neg hne, hbucket,
    ElfLookup.loop_walk (parseHash img sec) name l _ fuel (by rw [hchain]; exact hwalk) hf]
  have hfind : l.find? (fun n => decide (name = dynName img n)) = some s := by
    cases hf : l.find? (fun n => decide (name = dynName img n)) with
    | none =>
      rw [List.find?_eq_none] at hf
      exact absurd (by simpa using hname.symm) (hf s hs)
    | some t =>
      have h1 := List.mem_of_find?_eq_some hf
      have h2 := List.find?_some hf
      rw [huniq t h1 (by simpa using (of_decide_eq_true h2).symm)]
  show some (chainResult img name l) = _
  simp [chainResult, hfind]

/-- A chain over `syms` that links a symbol of the queried name yields the value
shared by the symbols of that name. -/
theorem chainResult_of_named (img : ElfImg) (name : Bytes) (l syms : List Nat) (v : Nat)
    (hl : ∀ s ∈ l, s ∈ syms) (hv : ∀ s ∈ syms, dynName img s = name → (img.dynsym_start s).st_value = v)
    (hex : ∃ s ∈ l, dynName img s = name) : chainResult img name l = v := by
  unfold chainResult
  cases hf : l.find? (fun n => decide (name = dynName img n)) with
  | none =>
    obtain ⟨s, hs, hn⟩ := hex
    rw [List.find?_eq_none] at hf
    exact absurd (by simpa using hn.symm) (hf s hs)
  | some t =>
    have h1 := List.mem_of_find?_eq_some hf
    have h2 := List.find?_some hf
    exact hv t (hl t h1) (of_decide_eq_true h2).symm

/-- A chain that links no symbol of the queried name yields 0. -/
theorem chainResult_of_unnamed (img : ElfImg) (name : Bytes) (l : List Nat)
    (hno : ∀ s ∈ l, dynName img s ≠ name) : chainResult img name l = 0 := by
  unfold chainResult
  have : l.find? (fun n => decide (name = dynName img n)) = none := by
    rw [List.find?_eq_none]
    intro s hs
    have := hno s hs
    simpa using fun h : name = dynName img s => this h.symm
  rw [this]

/-- A run over `syms` that holds a qualifying symbol yields the value shared by
the symbols of the queried name. -/
theorem gnuRunResult_of_named (img : ElfImg) (chain : Nat → Nat) (name : Bytes) (hash : Nat)
    (start e : Nat) (syms : List Nat) (v : Nat)
    (hl : ∀ i, start ≤ i → i ≤ e → i ∈ syms)
    (hv : ∀ s ∈ syms, dynName img s = name → (img.dynsym_start s).st_value = v)
    (hex : ∃ s, start ≤ s ∧ s ≤ e ∧ chain s / 2 = hash / 2 ∧ dynName img s = name) :
    gnuRunResult img chain name hash start e = v := by
  unfold gnuRunResult
  cases hf : (List.range' start (e - start + 1)).find? (gnuQualifies img chain name hash) with
  | none =>
    obtain ⟨s, hs1, hs2, hc, hn⟩ := hex
    rw [List.find?_eq_none] at hf
    have hmem : s ∈ List.range' start (e - start + 1) := by
      rw [List.mem_range'_1]; omega
    exact absurd (by simp [gnuQualifies, hc, hn]) (hf s hmem)
  | some t =>
    have h1 := List.mem_of_find?_eq_some hf
    have h2 := List.find?_some hf
    rw [List.mem_range'_1] at h1
    simp only [gnuQualifies, decide_eq_true_eq] at h2
    exact hv t (hl t h1.1 (by omega)) h2.2.symm

/-- A run that holds no symbol of the queried name yields 0. -/
theorem gnuRunResult_of_unnamed (img : ElfImg) (chain : Nat → Nat) (name : Bytes) (hash : Nat)
    (start e : Nat) (hse : start ≤ e) (hno : ∀ i, start ≤ i → i ≤ e → dynName img i ≠ name) :
    gnuRunResult img chain name hash start e = 0 := by
  unfold gnuRunResult
  have : (List.range' start (e - start + 1)).find? (gnuQualifies img chain name hash) = none := by
    rw [List.find?_eq_none]
    intro i hi
    rw [List.mem_range'_1] at hi
    have := hno i hi.1 (by omega)
    simp only [gnuQualifies, decide_eq_true_eq, not_and]
    intro _ h
    exact this h.symm
  rw [this]

/-- C5 (amended): when the GNU hash table is well formed over the dynamic symbols
`syms`, the SysV hash table is well formed over these and the further symbols
`undefs` (imports, which a GNU table does not list), every symbol of `undefs`
records the value 0, and all of these symbols that carry one name record the
same value, `GnuLookup` and `ElfLookup` return the same address for every name
looked up under its hash values. -/
theorem GnuLookup_eq_ElfLookup (cls : ElfClass) (img : ElfImg) (hS hG : Bytes → Nat)
    (syms undefs : List Nat) (hsysv : SysvWellFormed img hS (syms ++ undefs))
    (hgnu : GnuWellFormed cls img hG syms)
    (hundef : ∀ u ∈ undefs, (img.dynsym_start u).st_value = 0)
    (hval : ∀ s ∈ syms ++ undefs, ∀ t ∈ syms ++ undefs, dynName img s = dynName img t →
      (img.dynsym_start s).st_value = (img.dynsym_start t).st_value)
    (name : Bytes) :
    ∃ v N, ∀ fuel, N ≤ fuel →
      GnuLookup cls img fuel name (hG name) = some v ∧
        ElfLookup img fuel name (hS name) = some v := by
  have hmask : ∀ h, (GnuLookup.mask cls img h &&& GnuLookup.bloom_word cls img h =
      GnuLookup.mask cls img h) ↔
      (readAddr cls img.gnu_bloom_filter_
        (((h / bloom_mask_bits cls) % img.gnu_bloom_size_ : Nat) : Int)).testBit
          (h % bloom_mask_bits cls) = true ∧
      (readAddr cls img.gnu_bloom_filter_
        (((h / bloom_mask_bits cls) % img.gnu_bloom_size_ : Nat) : Int)).testBit
          ((h >>> img.gnu_shift2_) % bloom_mask_bits cls) = true := by
    intro h
    unfold GnuLookup.mask GnuLookup.bloom_word
    rw [bloom_mask_test, Nat.mod_eq_of_lt hgnu.shift_lt]
  -- the SysV side
  obtain ⟨lS, hwalk, hlS⟩ := hsysv.chains_end (hS name % img.nbucket_)
    (Nat.mod_lt _ (Nat.pos_of_ne_zero hsysv.nbucket_ne))
  have helf : ∀ fuel, lS.length ≤ fuel →
      ElfLookup img fuel name (hS name) = some (chainResult img name lS) := by
    intro fuel hf
    unfold ElfLookup
    rw [if_neg hsysv.nbucket_ne]
    exact ElfLookup.loop_walk img name lS _ fuel hwalk hf
  by_cases hex : ∃ s ∈ syms, dynName img s = name
  · -- some symbol of the GNU table carries the name
    obtain ⟨s, hs, hn⟩ := hex
    have hsall : s ∈ syms ++ undefs := List.mem_append_left _ hs
    have hv : ∀ t ∈ syms ++ undefs, dynName img t = name →
        (img.dynsym_start t).st_value = (img.dynsym_start s).st_value :=
      fun t ht htn => hval t ht s hsall (htn.trans hn.symm)
    obtain ⟨lS', hwalk', hsl⟩ := hsysv.complete s hsall
    rw [hn] at hwalk'
    have hl : lS' = lS := chainWalk_unique _ _ _ _ hwalk' hwalk
    rw [hl] at hsl
    have hresS := chainResult_of_named img name lS (syms ++ undefs) _ hlS hv ⟨s, hsl, hn⟩
    obtain ⟨hb1, hb2⟩ := hgnu.bloom_set s hs
    obtain ⟨hfloor, e, hrun, hse1, hse2, hchain⟩ := hgnu.complete s hs
    rw [hn] at hb1 hb2 hfloor hrun hse1 hchain
    obtain ⟨e', hrun', hmem⟩ := hgnu.runs_end (hG name % img.gnu_nbucket_)
      (Nat.mod_lt _ (Nat.pos_of_ne_zero hgnu.nbucket_ne)) hfloor
    have he : e' = e := gnuRunEnd_unique _ _ _ _ hrun' hrun
    rw [he] at hmem
    have hresG := gnuRunResult_of_named img (fun i => img.gnu_chain_.get (i : Int)) name
      (hG name) _ e syms _ hmem (fun t ht => hv t (List.mem_append_left _ ht))
      ⟨s, hse1, hse2, hchain, hn⟩
    refine ⟨(img.dynsym_start s).st_value,
      max lS.length (e - img.gnu_bucket_.get ((hG name % img.gnu_nbucket_ : Nat) : Int) + 1),
      fun fuel hf => ⟨?_, ?_⟩⟩
    · unfold GnuLookup
      have hne : ¬ (img.gnu_nbucket_ = 0 ∨ img.gnu_bloom_size_ = 0) := by
        rintro (h | h)
        · exact hgnu.nbucket_ne h
        · exact hgnu.bloom_size_ne h
      have hpass : GnuLookup.mask cls img (hG name) &&& GnuLookup.bloom_word cls img (hG name) =
          GnuLookup.mask cls img (hG name) := (hmask _).mpr ⟨hb1, hb2⟩
      simp only [hne, if_false, hpass, if_true]
      rw [if_pos hfloor,
        GnuLookup.loop_run img name (hG name) e _ _ fuel rfl hrun (by omega), hresG]
    · rw [helf fuel (by omega), hresS]
  · -- no symbol of the GNU table carries the name
    have hno : ∀ s ∈ syms, dynName img s ≠ name := fun s hs hn => hex ⟨s, hs, hn⟩
    have hresS : chainResult img name lS = 0 := by
      by_cases hun : ∃ u ∈ undefs, dynName img u = name
      · obtain ⟨u, hu, hn⟩ := hun
        have huall : u ∈ syms ++ undefs := List.mem_append_right _ hu
        obtain ⟨lS', hwalk', hul⟩ := hsysv.complete u huall
        rw [hn] at hwalk'
        have hl : lS' = lS := chainWalk_unique _ _ _ _ hwalk' hwalk
        rw [hl] at hul
        refine chainResult_of_named img name lS (syms ++ undefs) 0 hlS ?_ ⟨u, hul, hn⟩
        intro t ht htn
        rcases List.mem_append.mp ht with h | h
        · exact absurd htn (hno t h)
        · exact hundef t h
      · refine chainResult_of_unnamed img name lS (fun s hs hn => ?_)
        rcases List.mem_append.mp (hlS s hs) with h | h
        · exact hno s h hn
        · exact hun ⟨s, h, hn⟩
    by_cases hgo : ¬ (img.gnu_nbucket_ = 0 ∨ img.gnu_bloom_size_ = 0) ∧
        GnuLookup.mask cls img (hG name) &&& GnuLookup.bloom_word cls img (hG name) =
          GnuLookup.mask cls img (hG name) ∧
        img.gnu_symndx_ ≤ img.gnu_bucket_.get ((hG name % img.gnu_nbucket_ : Nat) : Int)
    · obtain ⟨hne, hpass, hfloor⟩ := hgo
      obtain ⟨e, hrun, hmem⟩ := hgnu.runs_end (hG name % img.gnu_nbucket_)
        (Nat.mod_lt _ (Nat.pos_of_ne_zero hgnu.nbucket_ne)) hfloor
      have hresG := gnuRunResult_of_unnamed img (fun i => img.gnu_chain_.get (i : Int)) name
        (hG name) _ e hrun.1 (fun i h1 h2 => hno i (hmem i h1 h2))
      refine ⟨0,
        max lS.length (e - img.gnu_bucket_.get ((hG name % img.gnu_nbucket_ : Nat) : Int) + 1),
        fun fuel hf => ⟨?_, ?_⟩⟩
      · unfold GnuLookup
        simp only [hne, if_false, hpass, if_true]
        rw [if_pos hfloor,
          GnuLookup.loop_run img name (hG name) e _ _ fuel rfl hrun (by omega), hresG]
      · rw [helf fuel (by omega), hresS]
    · refine ⟨0, lS.length, fun fuel hf => ⟨?_, ?_⟩⟩
      · unfold GnuLookup
        by_cases h1 : img.gnu_nbucket_ = 0 ∨ img.gnu_bloom_size_ = 0
        · simp [h1]
        · by_cases h2 : GnuLookup.mask cls img (hG name) &&&
              GnuLookup.bloom_word cls img (hG name) = GnuLookup.mask cls img (hG name)
          · have h3 : ¬ img.gnu_symndx_ ≤
                img.gnu_bucket_.get ((hG name % img.gnu_nbucket_ : Nat) : Int) :=
              fun h3 => hgo ⟨h1, h2, h3⟩
            simp only [h1, if_false, h2, if_true]
            rw [if_neg h3]
          · simp only [h1, if_false, h2]
      · rw [helf fuel hf, hresS]

/-! ## Examples on concrete hash tables -/

/-- C2 on `sysvWords`: the chain visits symbol 2, then symbol 1, whose name is `a`. -/
theorem ElfLookup_chain_member_witness :
    (wordsOf sysvWords).get 0 ≠ 0 ∧
      ChainWalk (hashChainWord (wordsOf sysvWords))
        (hashBucketWord (wordsOf sysvWords) (ElfHash (ascii "a") % (wordsOf sysvWords).get 0))
        [2, 1] ∧
      dynName dynBase 1 = ascii "a" ∧
      ∀ fuel, 2 ≤ fuel →
        ElfLookup (parseHash dynBase (wordsOf sysvWords)) fuel (ascii "a") (ElfHash (ascii "a")) =
          some 0x10 :=
  ⟨by decide, by decide, by decide,
    ElfLookup_chain_member dynBase (wordsOf sysvWords) (ascii "a") (ElfHash (ascii "a")) [2, 1] 1
      (by decide) (by decide) (by decide) (by decide) (by decide)⟩

/-- The run of `gnuWords` that starts at symbol 1 ends at symbol 2. -/
theorem gnuWords_run : GnuRunEnd (gnuChainWord .elf64 (wordsOf gnuWords)) 1 2 := by
  refine ⟨by decide, by decide, ?_, by decide⟩
  intro i h1 h2
  have hi : i = 1 := by omega
  subst hi
  decide

/-- C3 on `gnuWords`: the run holds the symbols 1 and 2; the chain entry of
symbol 1 agrees with the hash of `b` above bit 0, its name does not, and symbol
2 is returned. -/
theorem GnuLookup_run_scan_witness :
    (wordsOf gnuWords).get 0 ≠ 0 ∧ (wordsOf gnuWords).get 2 ≠ 0 ∧
      (wordsOf gnuWords).get 3 < 32 ∧
      GnuRunEnd (gnuChainWord .elf64 (wordsOf gnuWords))
        (gnuBucketWord .elf64 (wordsOf gnuWords)
          (GnuHash (ascii "b") % (wordsOf gnuWords).get 0)) 2 ∧
      ∀ fuel, 1 < fuel →
        GnuLookup .elf64 (parseGnuHash .elf64 dynBase (wordsOf gnuWords)) fuel (ascii "b")
          (GnuHash (ascii "b")) = some 0x20 :=
  ⟨by decide, by decide, by decide, gnuWords_run,
    (GnuLookup_run_scan .elf64 dynBase (wordsOf gnuWords) (ascii "b") (GnuHash (ascii "b"))
      (by decide) (by decide) (by decide) (by decide) (by decide)).2 2 (by decide) gnuWords_run⟩

/-- C4 on `dynImg`: bit 19 of the bloom word is clear, so `zzz` is rejected with
no loop run allowed and with other bucket and chain arrays. -/
theorem GnuLookup_bloom_reject_witness :
    dynImg.gnu_shift2_ < 32 ∧
    (readAddr .elf64 dynImg.gnu_bloom_filter_
        (((GnuHash (ascii "zzz") / bloom_mask_bits .elf64) % dynImg.gnu_bloom_size_ : Nat) :
          Int)).testBit (GnuHash (ascii "zzz") % bloom_mask_bits .elf64) = false ∧
      GnuLookup .elf64 { dynImg with gnu_bucket_ := fun _ => 1, gnu_chain_ := fun _ => 0 } 0
        (ascii "zzz") (GnuHash (ascii "zzz")) = some 0 :=
  ⟨by decide, by decide,
    GnuLookup_bloom_reject .elf64 dynImg 0 (ascii "zzz") (GnuHash (ascii "zzz")) (fun _ => 1)
      (fun _ => 0) (by decide) (Or.inr (Or.inr (Or.inl (by decide))))⟩

/-- The run of `dupImg` that starts at symbol 1 ends at symbol 2. -/
theorem dupImg_run : GnuRunEnd (fun i => dupImg.gnu_chain_.get (i : Int)) 1 2 := by
  refine ⟨by decide, by decide, ?_, by decide⟩
  intro i h1 h2
  have hi : i = 1 := by omega
  subst hi
  decide

/-- The SysV table of `dupImg` is well formed over the symbols 1 and 2. -/
theorem dupImg_sysv : SysvWellFormed dupImg ElfHash [1, 2] where
  nbucket_ne := by decide
  chains_end := by
    intro b hb
    have hb0 : b = 0 := by
      have : dupImg.nbucket_ = 1 := by decide
      omega
    subst hb0
    exact ⟨[2, 1], by decide, by decide⟩
  complete := by
    intro s hs
    simp only [List.mem_cons, List.mem_singleton, List.not_mem_nil, or_false] at hs
    rcases hs with rfl | rfl
    · exact ⟨[2, 1], by decide, by decide⟩
    · exact ⟨[2, 1], by decide, by decide⟩

/-- The GNU table of `dupImg` is well formed over the symbols 1 and 2. -/
theorem dupImg_gnu : GnuWellFormed .elf64 dupImg GnuHash [1, 2] where
  nbucket_ne := by decide
  bloom_size_ne := by decide
  shift_lt := by decide
  runs_end := by
    intro b hb _
    have hb0 : b = 0 := by
      have : dupImg.gnu_nbucket_ = 1 := by decide
      omega
    subst hb0
    have hstart : dupImg.gnu_bucket_.get ((0 : Nat) : Int) = 1 := by decide
    rw [hstart]
    refine ⟨2, dupImg_run, ?_⟩
    intro i h1 h2
    have : i = 1 ∨ i = 2 := by omega
    rcases this with rfl | rfl <;> decide
  bloom_set := by decide
  complete := by
    intro s hs
    simp only [List.mem_cons, List.mem_singleton, List.not_mem_nil, or_false] at hs
    rcases hs with rfl | rfl
    · refine ⟨by decide, 2, ?_, by decide, by decide, by decide⟩
      have hstart : dupImg.gnu_bucket_.get
          ((GnuHash (dynName dupImg 1) % dupImg.gnu_nbucket_ : Nat) : Int) = 1 := by decide
      rw [hstart]
      exact dupImg_run
    · refine ⟨by decide, 2, ?_, by decide, by decide, by decide⟩
      have hstart : dupImg.gnu_bucket_.get
          ((GnuHash (dynName dupImg 2) % dupImg.gnu_nbucket_ : Nat) : Int) = 1 := by decide
      rw [hstart]
      exact dupImg_run

/-- C5 fails as stated: both hash tables of `dupImg` are well formed over the
symbols 1 and 2, which share the name `f`, and under the hash values of `f` the
GNU lookup returns the value of symbol 1 while the SysV lookup returns the value
of symbol 2. -/
theorem lookups_differ_on_shared_name :
    SysvWellFormed dupImg ElfHash [1, 2] ∧ GnuWellFormed .elf64 dupImg GnuHash [1, 2] ∧
      GnuLookup .elf64 dupImg 2 (ascii "f") (GnuHash (ascii "f")) = some 0x10 ∧
      ElfLookup dupImg 2 (ascii "f") (ElfHash (ascii "f")) = some 0x20 :=
  ⟨dupImg_sysv, dupImg_gnu, by decide, by decide⟩

/-- The run of `dynImg` that starts at symbol 1 ends at symbol 2. -/
theorem dynImg_run : GnuRunEnd (fun i => dynImg.gnu_chain_.get (i : Int)) 1 2 := by
  refine ⟨by decide, by decide, ?_, by decide⟩
  intro i h1 h2
  have hi : i = 1 := by omega
  subst hi
  decide

/-- The SysV table of `dynImg` is well formed over the symbols 1 and 2. -/
theorem dynImg_sysv : SysvWellFormed dynImg ElfHash [1, 2] where
  nbucket_ne := by decide
  chains_end := by
    intro b hb
    have hb0 : b = 0 := by
      have : dynImg.nbucket_ = 1 := by decide
      omega
    subst hb0
    exact ⟨[2, 1], by decide, by decide⟩
  complete := by
    intro s hs
    simp only [List.mem_cons, List.mem_singleton, List.not_mem_nil, or_false] at hs
    rcases hs with rfl | rfl
    · exact ⟨[2, 1], by decide, by decide⟩
    · exact ⟨[2, 1], by decide, by decide⟩

/-- The GNU table of `dynImg` is well formed over the symbols 1 and 2. -/
theorem dynImg_gnu : GnuWellFormed .elf64 dynImg GnuHash [1, 2] where
  nbucket_ne := by decide
  bloom_size_ne := by decide
  shift_lt := by decide
  runs_end := by
    intro b hb _
    have hb0 : b = 0 := by
      have : dynImg.gnu_nbucket_ = 1 := by decide
      omega
    subst hb0
    have hstart : dynImg.gnu_bucket_.get ((0 : Nat) : Int) = 1 := by decide
    rw [hstart]
    refine ⟨2, dynImg_run, ?_⟩
    intro i h1 h2
    have : i = 1 ∨ i = 2 := by omega
    rcases this with rfl | rfl <;> decide
  bloom_set := by decide
  complete := by
    intro s hs
    simp only [List.mem_cons, List.mem_singleton, List.not_mem_nil, or_false] at hs
    rcases hs with rfl | rfl
    · refine ⟨by decide, 2, ?_, by decide, by decide, by decide⟩
      have hstart : dynImg.gnu_bucket_.get
          ((GnuHash (dynName dynImg 1) % dynImg.gnu_nbucket_ : Nat) : Int) = 1 := by decide
      rw [hstart]
      exact dynImg_run
    · refine ⟨by decide, 2, ?_, by decide, by decide, by decide⟩
      have hstart : dynImg.gnu_bucket_.get
          ((GnuHash (dynName dynImg 2) % dynImg.gnu_nbucket_ : Nat) : Int) = 1 := by decide
      rw [hstart]
      exact dynImg_run

/-- The run of `impImg` that starts at symbol 2 ends at symbol 3. -/
theorem impImg_run : GnuRunEnd (fun i => impImg.gnu_chain_.get (i : Int)) 2 3 := by
  refine ⟨by decide, by decide, ?_, by decide⟩
  intro i h1 h2
  have hi : i = 2 := by omega
  subst hi
  decide

/-- The SysV table of `impImg` is well formed over the symbols 2 and 3 and the imported
symbol 1. -/
theorem impImg_sysv : SysvWellFormed impImg ElfHash ([2, 3] ++ [1]) where
  nbucket_ne := by decide
  chains_end := by
    intro b hb
    have hb0 : b = 0 := by
      have : impImg.nbucket_ = 1 := by decide
      omega
    subst hb0
    exact ⟨[3, 2, 1], by decide, by decide⟩
  complete := by
    intro s hs
    simp only [List.cons_append, List.nil_append, List.mem_cons, List.mem_singleton,
      List.not_mem_nil, or_false] at hs
    rcases hs with rfl | rfl | rfl
    · exact ⟨[3, 2, 1], by decide, by decide⟩
    · exact ⟨[3, 2, 1], by decide, by decide⟩
    · exact ⟨[3, 2, 1], by decide, by decide⟩

/-- The GNU table of `impImg` is well formed over the symbols 2 and 3. -/
theorem impImg_gnu : GnuWellFormed .elf64 impImg GnuHash [2, 3] where
  nbucket_ne := by decide
  bloom_size_ne := by decide
  shift_lt := by decide
  runs_end := by
    intro b hb _
    have hb0 : b = 0 := by
      have : impImg.gnu_nbucket_ = 1 := by decide
      omega
    subst hb0
    have hstart : impImg.gnu_bucket_.get ((0 : Nat) : Int) = 2 := by decide
    rw [hstart]
    refine ⟨3, impImg_run, ?_⟩
    intro i h1 h2
    have : i = 2 ∨ i = 3 := by omega
    rcases this with rfl | rfl <;> decide
  bloom_set := by decide
  complete := by
    intro s hs
    simp only [List.mem_cons, List.mem_singleton, List.not_mem_nil, or_false] at hs
    rcases hs with rfl | rfl
    · refine ⟨by decide, 3, ?_, by decide, by decide, by decide⟩
      have hstart : impImg.gnu_bucket_.get
          ((GnuHash (dynName impImg 2) % impImg.gnu_nbucket_ : Nat) : Int) = 2 := by decide
      rw [hstart]
      exact impImg_run
    · refine ⟨by decide, 3, ?_, by decide, by decide, by decide⟩
      have hstart : impImg.gnu_bucket_.get
          ((GnuHash (dynName impImg 3) % impImg.gnu_nbucket_ : Nat) : Int) = 2 := by decide
      rw [hstart]
      exact impImg_run

/-- C5 (amended) on `impImg`: the SysV chain links the import `imp` (symbol 1,
below the GNU floor 2, value 0) beside the symbols `a` and `b`; both lookups
return the value of `b`, and both return 0 for `imp`. -/
theorem GnuLookup_eq_ElfLookup_witness :
    SysvWellFormed impImg ElfHash ([2, 3] ++ [1]) ∧ GnuWellFormed .elf64 impImg GnuHash [2, 3] ∧
      impImg.gnu_symndx_ = 2 ∧
      (∀ u ∈ [1], (impImg.dynsym_start u).st_value = 0) ∧
      (∀ s ∈ [2, 3] ++ [1], ∀ t ∈ [2, 3] ++ [1], dynName impImg s = dynName impImg t →
        (impImg.dynsym_start s).st_value = (impImg.dynsym_start t).st_value) ∧
      (∃ v N, ∀ fuel, N ≤ fuel →
        GnuLookup .elf64 impImg fuel (ascii "b") (GnuHash (ascii "b")) = some v ∧
          ElfLookup impImg fuel (ascii "b") (ElfHash (ascii "b")) = some v) ∧
      GnuLookup .elf64 impImg 3 (ascii "b") (GnuHash (ascii "b")) = some 0x20 ∧
      ElfLookup impImg 3 (ascii "b") (ElfHash (ascii "b")) = some 0x20 ∧
      GnuLookup .elf64 impImg 3 (ascii "imp") (GnuHash (ascii "imp")) = some 0 ∧
      ElfLookup impImg 3 (ascii "imp") (ElfHash (ascii "imp")) = some 0 :=
  ⟨impImg_sysv, impImg_gnu, by decide, by decide, by decide,
    GnuLookup_eq_ElfLookup .elf64 impImg ElfHash GnuHash [2, 3] [1] impImg_sysv impImg_gnu
      (by decide) (by decide) (ascii "b"),
    by decide, by decide, by decide, by decide⟩

/-! ## The section walk of `parse` -/

/-- What every section leaves alone once the load bias is assigned: the bias
itself and the recorded dynamic symbol and string tables. -/
theorem parse.step_assigned (cls : ElfClass) (hdr : ElfFile) (img : ElfImg) (t : ElfShdr)
    (h : img.bias ≠ bias_unset) :
    (parse.step cls hdr img t).bias = img.bias ∧ SameDynsym (parse.step cls hdr img t) img ∧
      SameDynstr (parse.step cls hdr img t) img := by
  unfold parse.step SameDynsym SameDynstr
  simp only
  split_ifs
  · simp [parse.dynsym_case, h]
  · unfold parse.symtab_case; split_ifs <;> simp
  · unfold parse.strtab_case parse.strtab_record; split_ifs <;> simp [h]
  · unfold parse.progbits_case parse.bias_record parse.debugdata_record
    by_cases hn : strcmp_eq (cstr hdr.section_str t.sh_name) (ascii ".gnu_debugdata") = true
    · simp only [hn, if_true, h, if_false]
      split_ifs <;> simp
    · simp only [hn, if_false, h, Bool.false_eq_true]
      split_ifs <;> simp
  · simp [parseHash]
  · simp [parseGnuHash]
  · simp

/-- No section changes the base or the path. -/
theorem parse.step_base (cls : ElfClass) (hdr : ElfFile) (img : ElfImg) (t : ElfShdr) :
    (parse.step cls hdr img t).base = img.base ∧ (parse.step cls hdr img t).elf = img.elf := by
  unfold parse.step
  simp only
  split_ifs
  · unfold parse.dynsym_case; split_ifs <;> simp
  · unfold parse.symtab_case; split_ifs <;> simp
  · unfold parse.strtab_case parse.strtab_record; split_ifs <;> simp
  · unfold parse.progbits_case parse.bias_record parse.debugdata_record
    by_cases hn : strcmp_eq (cstr hdr.section_str t.sh_name) (ascii ".gnu_debugdata") = true
    · simp only [hn, if_true]
      split_ifs <;> simp
    · simp only [hn, if_false, Bool.false_eq_true]
      split_ifs <;> simp
  · simp [parseHash]
  · simp [parseGnuHash]
  · simp

/-- Behind an assigned load bias a run of sections leaves the bias and the
recorded dynamic tables alone. -/
theorem parse.foldl_assigned (cls : ElfClass) (hdr : ElfFile) (l : List ElfShdr) :
    ∀ img : ElfImg, img.bias ≠ bias_unset →
      (l.foldl (parse.step cls hdr) img).bias = img.bias ∧
        SameDynsym (l.foldl (parse.step cls hdr) img) img ∧
        SameDynstr (l.foldl (parse.step cls hdr) img) img := by
  induction l with
  | nil => intro img _; simp [SameDynsym, SameDynstr]
  | cons t rest ih =>
    intro img h
    obtain ⟨h1, h2, h3⟩ := parse.step_assigned cls hdr img t h
    obtain ⟨g1, g2, g3⟩ := ih (parse.step cls hdr img t) (by rw [h1]; exact h)
    rw [List.foldl_cons]
    refine ⟨g1.trans h1, ?_, ?_⟩
    · exact ⟨g2.1.trans h2.1, g2.2.1.trans h2.2.1, g2.2.2.trans h2.2.2⟩
    · exact ⟨g3.1.trans h3.1, g3.2.1.trans h3.2.1, g3.2.2.trans h3.2.2⟩

/-- No run of sections changes the base. -/
theorem parse.foldl_base (cls : ElfClass) (hdr : ElfFile) (l : List ElfShdr) :
    ∀ img : ElfImg, (l.foldl (parse.step cls hdr) img).base = img.base := by
  induction l with
  | nil => intro img; rfl
  | cons t rest ih =>
    intro img
    rw [List.foldl_cons, ih, (parse.step_base cls hdr img t).1]

/-- The state behind two runs of sections. -/
theorem parse.upTo_append (cls : ElfClass) (hdr : ElfFile) (img : ElfImg) (a b : List ElfShdr) :
    parse.upTo cls hdr img (a ++ b) = b.foldl (parse.step cls hdr) (parse.upTo cls hdr img a) := by
  simp [parse.upTo, List.foldl_append]

/-- The method `parse` is the state behind the whole table. -/
theorem parse_eq_upTo (cls : ElfClass) (hdr : ElfFile) (img : ElfImg) :
    parse cls img hdr = parse.upTo cls hdr img hdr.shdrs := rfl

/-- The recorded dynamic symbol section behind one section. -/
theorem parse.step_dynsym (cls : ElfClass) (hdr : ElfFile) (img : ElfImg) (t : ElfShdr) :
    (parse.step cls hdr img t).dynsym =
        (if t.sh_type = SHT_DYNSYM ∧ img.bias = bias_unset then some t else img.dynsym) ∧
      (parse.step cls hdr img t).dynsym_offset =
        (if t.sh_type = SHT_DYNSYM ∧ img.bias = bias_unset then t.sh_offset
          else img.dynsym_offset) ∧
      (parse.step cls hdr img t).dynsym_start =
        (if t.sh_type = SHT_DYNSYM ∧ img.bias = bias_unset then hdr.syms t.sh_offset
          else img.dynsym_start) := by
  unfold parse.step
  simp only
  by_cases h1 : t.sh_type = SHT_DYNSYM
  · by_cases h2 : img.bias = bias_unset <;> simp [h1, h2, parse.dynsym_case]
  · simp only [h1, if_false, false_and]
    split_ifs
    · unfold parse.symtab_case; split_ifs <;> simp
    · unfold parse.strtab_case parse.strtab_record; split_ifs <;> simp
    · unfold parse.progbits_case parse.bias_record parse.debugdata_record
      by_cases hn : strcmp_eq (cstr hdr.section_str t.sh_name) (ascii ".gnu_debugdata") = true
      · simp only [hn, if_true]
        split_ifs <;> simp
      · simp only [hn, if_false, Bool.false_eq_true]
        split_ifs <;> simp
    · simp [parseHash]
    · simp [parseGnuHash]
    · simp

/-- The recorded dynamic string section behind one section. -/
theorem parse.step_strtab (cls : ElfClass) (hdr : ElfFile) (img : ElfImg) (t : ElfShdr) :
    (parse.step cls hdr img t).strtab =
        (if t.sh_type = SHT_STRTAB ∧ img.bias = bias_unset then some t else img.strtab) ∧
      (parse.step cls hdr img t).symstr_offset =
        (if t.sh_type = SHT_STRTAB ∧ img.bias = bias_unset then t.sh_offset
          else img.symstr_offset) ∧
      (parse.step cls hdr img t).strtab_start =
        (if t.sh_type = SHT_STRTAB ∧ img.bias = bias_unset then hdr.bytes.drop t.sh_offset
          else img.strtab_start) := by
  unfold parse.step
  simp only
  by_cases h1 : t.sh_type = SHT_STRTAB
  · have h0 : ¬ SHT_STRTAB = SHT_DYNSYM := by decide
    have h0' : ¬ SHT_STRTAB = SHT_SYMTAB := by decide
    by_cases h2 : img.bias = bias_unset
    · simp only [h1, h0, h0', if_false, if_true, true_and, h2]
      unfold parse.strtab_case parse.strtab_record
      split_ifs <;> simp [h2]
    · simp only [h1, h0, h0', if_false, if_true, true_and, h2]
      unfold parse.strtab_case parse.strtab_record
      split_ifs <;> simp [h2]
  · simp only [h1, if_false, false_and]
    split_ifs
    · unfold parse.dynsym_case; split_ifs <;> simp
    · unfold parse.symtab_case; split_ifs <;> simp
    · unfold parse.progbits_case parse.bias_record parse.debugdata_record
      by_cases hn : strcmp_eq (cstr hdr.section_str t.sh_name) (ascii ".gnu_debugdata") = true
      · simp only [hn, if_true]
        split_ifs <;> simp
      · simp only [hn, if_false, Bool.false_eq_true]
        split_ifs <;> simp
    · simp [parseHash]
    · simp [parseGnuHash]
    · simp

/-- The load bias behind one section. -/
theorem parse.step_bias (cls : ElfClass) (hdr : ElfFile) (img : ElfImg) (t : ElfShdr) :
    (parse.step cls hdr img t).bias =
      (if t.sh_type = SHT_PROGBITS ∧ img.strtab ≠ none ∧ img.dynsym ≠ none ∧
          img.bias = bias_unset then
        off_t_sub cls (off_t_cast cls t.sh_addr) (off_t_cast cls t.sh_offset)
      else img.bias) := by
  unfold parse.step
  simp only
  by_cases h1 : t.sh_type = SHT_PROGBITS
  · have h0 : ¬ SHT_PROGBITS = SHT_DYNSYM := by decide
    have h0' : ¬ SHT_PROGBITS = SHT_SYMTAB := by decide
    have h0'' : ¬ SHT_PROGBITS = SHT_STRTAB := by decide
    simp only [h1, h0, h0', h0'', if_false, if_true, true_and]
    unfold parse.progbits_case parse.bias_record parse.debugdata_record
    by_cases hn : strcmp_eq (cstr hdr.section_str t.sh_name) (ascii ".gnu_debugdata") = true
    · simp only [hn, if_true]
      by_cases hs : img.strtab = none <;> by_cases hd : img.dynsym = none <;>
        by_cases hb : img.bias = bias_unset <;> simp [hs, hd, hb]
    · simp only [hn, if_false, Bool.false_eq_true]
      by_cases hs : img.strtab = none <;> by_cases hd : img.dynsym = none <;>
        by_cases hb : img.bias = bias_unset <;> simp [hs, hd, hb]
  · simp only [h1, if_false, false_and]
    split_ifs
    · unfold parse.dynsym_case; split_ifs <;> simp
    · unfold parse.symtab_case; split_ifs <;> simp
    · unfold parse.strtab_case parse.strtab_record; split_ifs <;> simp
    · simp [parseHash]
    · simp [parseGnuHash]
    · simp

/-- While every PROGBITS section comes before a DYNSYM and a STRTAB section
have both been met, the load bias stays unassigned, and a dynamic table is
recorded exactly when a section of its type has been met. -/
theorem parse.upTo_unassigned (cls : ElfClass) (hdr : ElfFile) (img : ElfImg)
    (hb : img.bias = bias_unset) (hd : img.dynsym = none) (hs : img.strtab = none) :
    ∀ pre : List ElfShdr,
      (∀ a t b, pre = a ++ t :: b → t.sh_type = SHT_PROGBITS →
        (∀ u ∈ a, u.sh_type ≠ SHT_DYNSYM) ∨ (∀ u ∈ a, u.sh_type ≠ SHT_STRTAB)) →
      (parse.upTo cls hdr img pre).bias = bias_unset ∧
        ((parse.upTo cls hdr img pre).dynsym ≠ none ↔ ∃ u ∈ pre, u.sh_type = SHT_DYNSYM) ∧
        ((parse.upTo cls hdr img pre).strtab ≠ none ↔ ∃ u ∈ pre, u.sh_type = SHT_STRTAB) := by
  intro pre
  induction pre using List.reverseRecOn with
  | nil =>
    intro _
    simp [parse.upTo, hb, hd, hs]
  | append_singleton l t ih =>
    intro hfirst
    have ih' := ih (fun a u b hl hu => hfirst a u (b ++ [t]) (by rw [hl]; simp) hu)
    obtain ⟨ib, idyn, istr⟩ := ih'
    have hstep : parse.upTo cls hdr img (l ++ [t]) =
        parse.step cls hdr (parse.upTo cls hdr img l) t := by
      rw [parse.upTo_append]; rfl
    rw [hstep]
    obtain ⟨hdy, _, _⟩ := parse.step_dynsym cls hdr (parse.upTo cls hdr img l) t
    obtain ⟨hst, _, _⟩ := parse.step_strtab cls hdr (parse.upTo cls hdr img l) t
    have hbi := parse.step_bias cls hdr (parse.upTo cls hdr img l) t
    refine ⟨?_, ?_, ?_⟩
    · rw [hbi]
      by_cases hp : t.sh_type = SHT_PROGBITS
      · rcases hfirst l t [] rfl hp with hno | hno
        · have : (parse.upTo cls hdr img l).dynsym = none := by
            by_contra hne
            obtain ⟨u, hu, hut⟩ := idyn.mp hne
            exact hno u hu hut
          simp [this, ib]
        · have : (parse.upTo cls hdr img l).strtab = none := by
            by_contra hne
            obtain ⟨u, hu, hut⟩ := istr.mp hne
            exact hno u hu hut
          simp [this, ib]
      · simp [hp, ib]
    · rw [hdy]
      by_cases hp : t.sh_type = SHT_DYNSYM
      · simp only [hp, ib, and_self, if_true, ne_eq, reduceCtorEq, not_false_eq_true, true_iff]
        exact ⟨t, by simp, hp⟩
      · simp only [hp, false_and, if_false, List.mem_append, List.mem_singleton]
        rw [idyn]
        constructor
        · rintro ⟨u, hu, hut⟩; exact ⟨u, Or.inl hu, hut⟩
        · rintro ⟨u, hu | hu, hut⟩
          · exact ⟨u, hu, hut⟩
          · rw [hu] at hut; exact absurd hut hp
    · rw [hst]
      by_cases hp : t.sh_type = SHT_STRTAB
      · simp only [hp, ib, and_self, if_true, ne_eq, reduceCtorEq, not_false_eq_true, true_iff]
        exact ⟨t, by simp, hp⟩
      · simp only [hp, false_and, if_false, List.mem_append, List.mem_singleton]
        rw [istr]
        constructor
        · rintro ⟨u, hu, hut⟩; exact ⟨u, Or.inl hu, hut⟩
        · rintro ⟨u, hu | hu, hut⟩
          · exact ⟨u, hu, hut⟩
          · rw [hu] at hut; exact absurd hut hp

/-- On a table without a faulting section the call of `parse` returns the object
behind the walk. -/
theorem parse.run_eq (cls : ElfClass) (img : ElfImg) (hdr : ElfFile)
    (hok : parse.faults hdr = false) : parse.run cls img hdr = some (parse cls img hdr) := by
  simp [parse.run, hok]

/-- A difference that fits `off_t` is stored as it is. -/
theorem off_t_sub_eq (cls : ElfClass) (a b : Int)
    (hlo : -2 ^ (32 * cls.addrWords - 1) ≤ a - b) (hhi : a - b < 2 ^ (32 * cls.addrWords - 1)) :
    off_t_sub cls a b = a - b := by
  unfold off_t_sub
  have hw : (2 : Int) ^ (32 * cls.addrWords) = 2 * 2 ^ (32 * cls.addrWords - 1) := by
    have : 32 * cls.addrWords = (32 * cls.addrWords - 1) + 1 := by
      cases cls <;> decide
    conv_lhs => rw [this]
    rw [pow_succ]; ring
  rw [Int.emod_eq_of_lt (by omega) (by omega)]
  omega

/-- C15 (amended): on a fresh image and a table on which `parse` does not fault,
when a PROGBITS section with address `V` and offset `F` is the first PROGBITS
section met after a DYNSYM and a STRTAB section, `parse` sets the load bias to
the `off_t` difference of `V` and `F` at that section, which is `V - F` when
`V - F` fits `off_t`; the load bias has this value when `parse` returns unless
it is the value `-4396` that marks an unassigned bias, and the runtime address
of a symbol is then `base + value - bias`. -/
theorem parse_bias_first_progbits (cls : ElfClass) (hdr : ElfFile) (img : ElfImg)
    (pre post : List ElfShdr) (s : ElfShdr) (hok : parse.faults hdr = false)
    (hb : img.bias = bias_unset) (hd : img.dynsym = none) (hs : img.strtab = none)
    (htab : hdr.shdrs = pre ++ s :: post) (hty : s.sh_type = SHT_PROGBITS)
    (hdyn : ∃ u ∈ pre, u.sh_type = SHT_DYNSYM) (hstr : ∃ u ∈ pre, u.sh_type = SHT_STRTAB)
    (hfirst : ∀ a t b, pre = a ++ t :: b → t.sh_type = SHT_PROGBITS →
      (∀ u ∈ a, u.sh_type ≠ SHT_DYNSYM) ∨ (∀ u ∈ a, u.sh_type ≠ SHT_STRTAB)) :
    parse.run cls img hdr = some (parse cls img hdr) ∧
      (parse.upTo cls hdr img (pre ++ [s])).bias =
        off_t_sub cls (off_t_cast cls s.sh_addr) (off_t_cast cls s.sh_offset) ∧
      (-2 ^ (32 * cls.addrWords - 1) ≤ off_t_cast cls s.sh_addr - off_t_cast cls s.sh_offset →
        off_t_cast cls s.sh_addr - off_t_cast cls s.sh_offset < 2 ^ (32 * cls.addrWords - 1) →
        off_t_sub cls (off_t_cast cls s.sh_addr) (off_t_cast cls s.sh_offset) =
          off_t_cast cls s.sh_addr - off_t_cast cls s.sh_offset) ∧
      (off_t_sub cls (off_t_cast cls s.sh_addr) (off_t_cast cls s.sh_offset) ≠ bias_unset →
        (parse cls img hdr).bias =
            off_t_sub cls (off_t_cast cls s.sh_addr) (off_t_cast cls s.sh_offset) ∧
          ∀ value, runtimeAddress (parse cls img hdr) value =
            (img.base : Int) + (value : Int) -
              off_t_sub cls (off_t_cast cls s.sh_addr) (off_t_cast cls s.sh_offset)) := by
  obtain ⟨ib, idyn, istr⟩ := parse.upTo_unassigned cls hdr img hb hd hs pre hfirst
  have hset : (parse.upTo cls hdr img (pre ++ [s])).bias =
      off_t_sub cls (off_t_cast cls s.sh_addr) (off_t_cast cls s.sh_offset) := by
    rw [parse.upTo_append]
    show (parse.step cls hdr (parse.upTo cls hdr img pre) s).bias = _
    rw [parse.step_bias]
    simp [hty, ib, idyn.mpr hdyn, istr.mpr hstr]
  refine ⟨parse.run_eq cls img hdr hok, hset, off_t_sub_eq cls _ _, fun hne => ?_⟩
  have hfinal : (parse cls img hdr).bias =
      off_t_sub cls (off_t_cast cls s.sh_addr) (off_t_cast cls s.sh_offset) := by
    rw [parse_eq_upTo, htab, show pre ++ s :: post = (pre ++ [s]) ++ post by simp,
      parse.upTo_append,
      (parse.foldl_assigned cls hdr post _ (by rw [hset]; exact hne)).1, hset]
  refine ⟨hfinal, fun value => ?_⟩
  unfold runtimeAddress
  rw [hfinal, parse_eq_upTo]
  unfold parse.upTo
  rw [parse.foldl_base]

/-- C16 (amended): on tables on which `parse` does not fault, once `parse` has
assigned the load bias a value other than `-4396`, no later section of the table
changes it, and neither does a later `parse` of another (nested) table. -/
theorem parse_bias_once (cls : ElfClass) (hdr nested : ElfFile) (img : ElfImg)
    (pre post : List ElfShdr) (hok : parse.faults hdr = false)
    (hnok : parse.faults nested = false) (htab : hdr.shdrs = pre ++ post)
    (hset : (parse.upTo cls hdr img pre).bias ≠ bias_unset) :
    parse.run cls img hdr = some (parse cls img hdr) ∧
      (∀ a b, post = a ++ b →
        (parse.upTo cls hdr img (pre ++ a)).bias = (parse.upTo cls hdr img pre).bias) ∧
      (parse cls img hdr).bias = (parse.upTo cls hdr img pre).bias ∧
      ∀ img2 : ElfImg, img2.bias = (parse cls img hdr).bias →
        parse.run cls img2 nested = some (parse cls img2 nested) ∧
          (parse cls img2 nested).bias = (parse.upTo cls hdr img pre).bias := by
  have hfinal : (parse cls img hdr).bias = (parse.upTo cls hdr img pre).bias := by
    rw [parse_eq_upTo, htab, parse.upTo_append]
    exact (parse.foldl_assigned cls hdr post _ hset).1
  refine ⟨parse.run_eq cls img hdr hok, fun a b _ => ?_, hfinal,
    fun img2 h2 => ⟨parse.run_eq cls img2 nested hnok, ?_⟩⟩
  · rw [parse.upTo_append]
    exact (parse.foldl_assigned cls hdr a _ hset).1
  · have h3 : ({ img2 with section_header := nested.shdrs } : ElfImg).bias ≠ bias_unset := by
      show img2.bias ≠ bias_unset
      rw [h2, hfinal]; exact hset
    exact ((parse.foldl_assigned cls nested nested.shdrs _ h3).1).trans (h2.trans hfinal)

/-- C17 (amended): on a table on which `parse` does not fault, the dynamic symbol
table that `parse` records is that of the last DYNSYM section met while the load
bias is unassigned; a DYNSYM section met after the load bias was assigned
changes nothing. -/
theorem parse_dynsym_last_unassigned (cls : ElfClass) (hdr : ElfFile) (img : ElfImg)
    (pre post : List ElfShdr) (d : ElfShdr) (hok : parse.faults hdr = false)
    (htab : hdr.shdrs = pre ++ d :: post)
    (hty : d.sh_type = SHT_DYNSYM) (hun : (parse.upTo cls hdr img pre).bias = bias_unset)
    (hlater : ∀ a t b, post = a ++ t :: b → t.sh_type = SHT_DYNSYM →
      (parse.upTo cls hdr img (pre ++ d :: a)).bias ≠ bias_unset) :
    parse.run cls img hdr = some (parse cls img hdr) ∧
      ((parse cls img hdr).dynsym = some d ∧ (parse cls img hdr).dynsym_offset = d.sh_offset ∧
        (parse cls img hdr).dynsym_start = hdr.syms d.sh_offset) ∧
      ∀ (img' : ElfImg) (t : ElfShdr), t.sh_type = SHT_DYNSYM → img'.bias ≠ bias_unset →
        parse.step cls hdr img' t = img' := by
  refine ⟨parse.run_eq cls img hdr hok, ?_⟩
  constructor
  · rw [parse_eq_upTo, htab]
    clear htab
    induction post using List.reverseRecOn with
    | nil =>
      rw [show pre ++ [d] = pre ++ [d] from rfl, parse.upTo_append]
      show (parse.step cls hdr _ d).dynsym = _ ∧ (parse.step cls hdr _ d).dynsym_offset = _ ∧
        (parse.step cls hdr _ d).dynsym_start = _
      obtain ⟨h1, h2, h3⟩ := parse.step_dynsym cls hdr (parse.upTo cls hdr img pre) d
      rw [h1, h2, h3]
      simp [hty, hun]
    | append_singleton l t ih =>
      have ih' := ih (fun a u b hl hu => hlater a u (b ++ [t]) (by rw [hl]; simp) hu)
      rw [show pre ++ d :: (l ++ [t]) = (pre ++ d :: l) ++ [t] by simp, parse.upTo_append]
      show (parse.step cls hdr _ t).dynsym = _ ∧ (parse.step cls hdr _ t).dynsym_offset = _ ∧
        (parse.step cls hdr _ t).dynsym_start = _
      obtain ⟨h1, h2, h3⟩ := parse.step_dynsym cls hdr (parse.upTo cls hdr img (pre ++ d :: l)) t
      rw [h1, h2, h3]
      by_cases hp : t.sh_type = SHT_DYNSYM
      · have hne := hlater l t [] rfl hp
        simp only [hne, and_false, if_false]
        exact ih'
      · simp only [hp, false_and, if_false]
        exact ih'
  · intro img' t ht hb
    unfold parse.step
    simp [ht, parse.dynsym_case, hb]

/-- C18 (amended): on a table on which `parse` does not fault, the dynamic string
table that `parse` records is the last STRTAB section met while the load bias is
unassigned; a STRTAB section met after the load bias was assigned changes the
static string-table offset when it is named `.strtab`, and nothing else. -/
theorem parse_strtab_last_unassigned (cls : ElfClass) (hdr : ElfFile) (img : ElfImg)
    (pre post : List ElfShdr) (s : ElfShdr) (hok : parse.faults hdr = false)
    (htab : hdr.shdrs = pre ++ s :: post)
    (hty : s.sh_type = SHT_STRTAB) (hun : (parse.upTo cls hdr img pre).bias = bias_unset)
    (hlater : ∀ a t b, post = a ++ t :: b → t.sh_type = SHT_STRTAB →
      (parse.upTo cls hdr img (pre ++ s :: a)).bias ≠ bias_unset) :
    parse.run cls img hdr = some (parse cls img hdr) ∧
      ((parse cls img hdr).strtab = some s ∧ (parse cls img hdr).symstr_offset = s.sh_offset ∧
        (parse cls img hdr).strtab_start = hdr.bytes.drop s.sh_offset) ∧
      ∀ (img' : ElfImg) (t : ElfShdr), t.sh_type = SHT_STRTAB → img'.bias ≠ bias_unset →
        parse.step cls hdr img' t =
          if strcmp_eq (cstr hdr.section_str t.sh_name) (ascii ".strtab") = true then
            { img' with symstr_offset_for_symtab := t.sh_offset }
          else img' := by
  refine ⟨parse.run_eq cls img hdr hok, ?_⟩
  constructor
  · rw [parse_eq_upTo, htab]
    clear htab
    induction post using List.reverseRecOn with
    | nil =>
      rw [parse.upTo_append]
      show (parse.step cls hdr _ s).strtab = _ ∧ (parse.step cls hdr _ s).symstr_offset = _ ∧
        (parse.step cls hdr _ s).strtab_start = _
      obtain ⟨h1, h2, h3⟩ := parse.step_strtab cls hdr (parse.upTo cls hdr img pre) s
      rw [h1, h2, h3]
      simp [hty, hun]
    | append_singleton l t ih =>
      have ih' := ih (fun a u b hl hu => hlater a u (b ++ [t]) (by rw [hl]; simp) hu)
      rw [show pre ++ s :: (l ++ [t]) = (pre ++ s :: l) ++ [t] by simp, parse.upTo_append]
      show (parse.step cls hdr _ t).strtab = _ ∧ (parse.step cls hdr _ t).symstr_offset = _ ∧
        (parse.step cls hdr _ t).strtab_start = _
      obtain ⟨h1, h2, h3⟩ := parse.step_strtab cls hdr (parse.upTo cls hdr img (pre ++ s :: l)) t
      rw [h1, h2, h3]
      by_cases hp : t.sh_type = SHT_STRTAB
      · have hne := hlater l t [] rfl hp
        simp only [hne, and_false, if_false]
        exact ih'
      · simp only [hp, false_and, if_false]
        exact ih'
  · intro img' t ht hb
    have h0 : ¬ SHT_STRTAB = SHT_DYNSYM := by decide
    have h0' : ¬ SHT_STRTAB = SHT_SYMTAB := by decide
    unfold parse.step
    simp only [ht, h0, h0', if_false, if_true]
    unfold parse.strtab_case parse.strtab_record
    simp [hb]

/-- A section that is not a HASH section leaves the SysV hash fields alone. -/
theorem parse.step_sysv (cls : ElfClass) (hdr : ElfFile) (img : ElfImg) (t : ElfShdr)
    (h : t.sh_type ≠ SHT_HASH) : SameSysvHash (parse.step cls hdr img t) img := by
  unfold parse.step SameSysvHash
  simp only [h, if_false]
  split_ifs
  · unfold parse.dynsym_case; split_ifs <;> simp
  · unfold parse.symtab_case; split_ifs <;> simp
  · unfold parse.strtab_case parse.strtab_record; split_ifs <;> simp
  · unfold parse.progbits_case parse.bias_record parse.debugdata_record
    by_cases hn : strcmp_eq (cstr hdr.section_str t.sh_name) (ascii ".gnu_debugdata") = true
    · simp only [hn, if_true]
      split_ifs <;> simp
    · simp only [hn, if_false, Bool.false_eq_true]
      split_ifs <;> simp
  · simp [parseGnuHash]
  · simp

/-- A section that is not a GNU_HASH section leaves the GNU hash fields alone. -/
theorem parse.step_gnu (cls : ElfClass) (hdr : ElfFile) (img : ElfImg) (t : ElfShdr)
    (h : t.sh_type ≠ SHT_GNU_HASH) : SameGnuHash (parse.step cls hdr img t) img := by
  unfold parse.step SameGnuHash
  simp only [h, if_false]
  split_ifs
  · unfold parse.dynsym_case; split_ifs <;> simp
  · unfold parse.symtab_case; split_ifs <;> simp
  · unfold parse.strtab_case parse.strtab_record; split_ifs <;> simp
  · unfold parse.progbits_case parse.bias_record parse.debugdata_record
    by_cases hn : strcmp_eq (cstr hdr.section_str t.sh_name) (ascii ".gnu_debugdata") = true
    · simp only [hn, if_true]
      split_ifs <;> simp
    · simp only [hn, if_false, Bool.false_eq_true]
      split_ifs <;> simp
  · simp [parseHash]
  · simp

/-- A run of sections without HASH section leaves the SysV hash fields alone. -/
theorem parse.foldl_sysv (cls : ElfClass) (hdr : ElfFile) (l : List ElfShdr)
    (h : ∀ t ∈ l, t.sh_type ≠ SHT_HASH) :
    ∀ img : ElfImg, SameSysvHash (l.foldl (parse.step cls hdr) img) img := by
  induction l with
  | nil => intro img; simp [SameSysvHash]
  | cons t rest ih =>
    intro img
    have h1 := parse.step_sysv cls hdr img t (h t (List.mem_cons_self _ _))
    have h2 := ih (fun u hu => h u (List.mem_cons_of_mem _ hu)) (parse.step cls hdr img t)
    rw [List.foldl_cons]
    exact ⟨h2.1.trans h1.1, h2.2.1.trans h1.2.1, h2.2.2.trans h1.2.2⟩

/-- A run of sections without GNU_HASH section leaves the GNU hash fields alone. -/
theorem parse.foldl_gnu (cls : ElfClass) (hdr : ElfFile) (l : List ElfShdr)
    (h : ∀ t ∈ l, t.sh_type ≠ SHT_GNU_HASH) :
    ∀ img : ElfImg, SameGnuHash (l.foldl (parse.step cls hdr) img) img := by
  induction l with
  | nil => intro img; simp [SameGnuHash]
  | cons t rest ih =>
    intro img
    have h1 := parse.step_gnu cls hdr img t (h t (List.mem_cons_self _ _))
    have h2 := ih (fun u hu => h u (List.mem_cons_of_mem _ hu)) (parse.step cls hdr img t)
    rw [List.foldl_cons]
    exact ⟨h2.1.trans h1.1, h2.2.1.trans h1.2.1, h2.2.2.1.trans h1.2.2.1,
      h2.2.2.2.1.trans h1.2.2.2.1, h2.2.2.2.2.1.trans h1.2.2.2.2.1,
      h2.2.2.2.2.2.1.trans h1.2.2.2.2.2.1, h2.2.2.2.2.2.2.trans h1.2.2.2.2.2.2⟩

/-- C19 (amended): when the load bias is assigned at the start of the second
`parse` and this `parse` does not fault on the nested table, it leaves the load
bias and the recorded dynamic symbol and
string tables as they are, whatever the nested table holds; it leaves the SysV
hash fields as they are when the nested table holds no HASH section, and the GNU
hash fields when it holds no GNU_HASH section. -/
theorem parse_nested_frame (cls : ElfClass) (nested : ElfFile) (img : ElfImg)
    (hok : parse.faults nested = false) (h : img.bias ≠ bias_unset) :
    parse.run cls img nested = some (parse cls img nested) ∧
      (parse cls img nested).bias = img.bias ∧ SameDynsym (parse cls img nested) img ∧
      SameDynstr (parse cls img nested) img ∧
      ((∀ t ∈ nested.shdrs, t.sh_type ≠ SHT_HASH) → SameSysvHash (parse cls img nested) img) ∧
      ((∀ t ∈ nested.shdrs, t.sh_type ≠ SHT_GNU_HASH) →
        SameGnuHash (parse cls img nested) img) := by
  have h' : ({ img with section_header := nested.shdrs } : ElfImg).bias ≠ bias_unset := h
  obtain ⟨h1, h2, h3⟩ := parse.foldl_assigned cls nested nested.shdrs _ h'
  exact ⟨parse.run_eq cls img nested hok, h1, h2, h3,
    fun hh => parse.foldl_sysv cls nested nested.shdrs hh _,
    fun hh => parse.foldl_gnu cls nested nested.shdrs hh _⟩

/-! ## Examples on concrete section tables -/

/-- C15 fails as stated: in `biasFile` the first PROGBITS section behind the
recorded `.dynsym` and `.dynstr` has `V - F = -4396`; `parse` assigns this value
at that section, takes it for an unassigned bias at the next PROGBITS section,
and returns with the load bias `0x5000`. -/
theorem parse_bias_reassigned :
    (parse.upTo .elf64 biasFile blankImg [shDynsym, shDynstr]).dynsym = some shDynsym ∧
      (parse.upTo .elf64 biasFile blankImg [shDynsym, shDynstr]).strtab = some shDynstr ∧
      off_t_cast .elf64 0x1000 - off_t_cast .elf64 0x212c = -4396 ∧
      (parse .elf64 blankImg biasFile).bias = 0x5000 ∧
      parse.faults biasFile = false := by
  decide

/-- C15 (amended) on `usualFile`: `.text` has address `0x3000` and offset
`0x1000`, and `parse` returns with the load bias `0x2000`. -/
theorem parse_bias_first_progbits_witness :
    usualFile.shdrs = [shDynsym, shDynstr] ++ shText :: [shHash, shComment, shStrtab] ∧
      parse.faults usualFile = false ∧
      parse.run .elf64 blankImg usualFile = some (parse .elf64 blankImg usualFile) ∧
      (parse.upTo .elf64 usualFile blankImg ([shDynsym, shDynstr] ++ [shText])).bias =
        off_t_cast .elf64 shText.sh_addr - off_t_cast .elf64 shText.sh_offset ∧
      (parse .elf64 blankImg usualFile).bias = 0x2000 ∧
      runtimeAddress (parse .elf64 { blankImg with base := 0x7000 } usualFile) 0x3010 = 0x8010 := by
  have hfirst : ∀ a t b, [shDynsym, shDynstr] = a ++ t :: b → t.sh_type = SHT_PROGBITS →
      (∀ u ∈ a, u.sh_type ≠ SHT_DYNSYM) ∨ (∀ u ∈ a, u.sh_type ≠ SHT_STRTAB) := by
    intro a t b hl ht
    have hm : t ∈ [shDynsym, shDynstr] := by rw [hl]; simp
    simp only [List.mem_cons, List.mem_singleton, List.not_mem_nil, or_false] at hm
    rcases hm with rfl | rfl <;> exact absurd ht (by decide)
  have h := parse_bias_first_progbits .elf64 usualFile blankImg [shDynsym, shDynstr]
    [shHash, shComment, shStrtab] shText (by decide) rfl rfl rfl rfl rfl
    ⟨shDynsym, by decide, rfl⟩ ⟨shDynstr, by decide, rfl⟩ hfirst
  have h7 := parse_bias_first_progbits .elf64 usualFile { blankImg with base := 0x7000 }
    [shDynsym, shDynstr] [shHash, shComment, shStrtab] shText (by decide) rfl rfl rfl rfl rfl
    ⟨shDynsym, by decide, rfl⟩ ⟨shDynstr, by decide, rfl⟩ hfirst
  refine ⟨rfl, by decide, h.1, h.2.1.trans (h.2.2.1 (by decide) (by decide)), ?_, ?_⟩
  · rw [(h.2.2.2 (by decide)).1]; decide
  · rw [(h7.2.2.2 (by decide)).2 0x3010]; decide

/-- C16 fails as stated: in `commentFile` the section `.comment` assigns the load
bias `0 - 4396`, and the later section `.text` changes it to `0x2000`. -/
theorem parse_bias_assigned_twice :
    (parse.upTo .elf64 commentFile blankImg [shDynsym, shDynstr]).dynsym ≠ none ∧
      (parse.upTo .elf64 commentFile blankImg [shDynsym, shDynstr]).strtab ≠ none ∧
      (parse.upTo .elf64 commentFile blankImg [shDynsym, shDynstr, shComment]).bias =
        off_t_cast .elf64 shComment.sh_addr - off_t_cast .elf64 shComment.sh_offset ∧
      (parse.upTo .elf64 commentFile blankImg [shDynsym, shDynstr, shComment]).bias = -4396 ∧
      (parse .elf64 blankImg commentFile).bias = 0x2000 ∧
      parse.faults commentFile = false := by
  decide

/-- C16 (amended) on `usualFile`: behind `.text` the load bias is `0x2000`, and
neither the later sections nor a parse of `nestedSymFile`, whose `.symtab` has
entries of 24 bytes, change it. -/
theorem parse_bias_once_witness :
    usualFile.shdrs = [shDynsym, shDynstr, shText] ++ [shHash, shComment, shStrtab] ∧
      parse.faults usualFile = false ∧ parse.faults nestedSymFile = false ∧
      (parse.upTo .elf64 usualFile blankImg [shDynsym, shDynstr, shText]).bias ≠ bias_unset ∧
      (parse .elf64 blankImg usualFile).bias =
        (parse.upTo .elf64 usualFile blankImg [shDynsym, shDynstr, shText]).bias ∧
      parse.run .elf64 (parse .elf64 blankImg usualFile) nestedSymFile =
        some (parse .elf64 (parse .elf64 blankImg usualFile) nestedSymFile) ∧
      (parse .elf64 (parse .elf64 blankImg usualFile) nestedSymFile).bias =
        (parse.upTo .elf64 usualFile blankImg [shDynsym, shDynstr, shText]).bias :=
  ⟨rfl, by decide, by decide, by decide,
    (parse_bias_once .elf64 usualFile nestedSymFile blankImg [shDynsym, shDynstr, shText]
      [shHash, shComment, shStrtab] (by decide) (by decide) rfl (by decide)).2.2.1,
    (parse_bias_once .elf64 usualFile nestedSymFile blankImg [shDynsym, shDynstr, shText]
      [shHash, shComment, shStrtab] (by decide) (by decide) rfl (by decide)).2.2.2 _ rfl⟩

/-- C17 fails as stated: of the two DYNSYM sections of `twoDynsymFile`, `parse`
records the second. -/
theorem parse_dynsym_second :
    twoDynsymFile.shdrs = [shDynsym, ⟨1, SHT_DYNSYM, 0x400, 0x400, 0x60, 24⟩] ∧
      (parse .elf64 blankImg twoDynsymFile).dynsym = some ⟨1, SHT_DYNSYM, 0x400, 0x400, 0x60, 24⟩ ∧
      (parse .elf64 blankImg twoDynsymFile).dynsym ≠ some shDynsym ∧
      (parse .elf64 blankImg twoDynsymFile).dynsym_offset = 0x400 ∧
      parse.faults twoDynsymFile = false := by
  decide

/-- C17 (amended) on `lateDynsymFile`: the second DYNSYM section is the last one
before `.text` assigns the load bias and is the one recorded; the one behind
`.text` is ignored. -/
theorem parse_dynsym_last_unassigned_witness :
    lateDynsymFile.shdrs =
        [⟨1, SHT_DYNSYM, 0x100, 0x100, 0x60, 24⟩] ++ shDynsym ::
          [shDynstr, shText, ⟨1, SHT_DYNSYM, 0x400, 0x400, 0x60, 24⟩] ∧
      (parse.upTo .elf64 lateDynsymFile blankImg [⟨1, SHT_DYNSYM, 0x100, 0x100, 0x60, 24⟩]).bias =
        bias_unset ∧
      (parse .elf64 blankImg lateDynsymFile).dynsym = some shDynsym ∧
      (parse .elf64 blankImg lateDynsymFile).dynsym_offset = 0x200 := by
  have hlater : ∀ a t b,
      [shDynstr, shText, (⟨1, SHT_DYNSYM, 0x400, 0x400, 0x60, 24⟩ : ElfShdr)] = a ++ t :: b →
      t.sh_type = SHT_DYNSYM →
      (parse.upTo .elf64 lateDynsymFile blankImg
        ([⟨1, SHT_DYNSYM, 0x100, 0x100, 0x60, 24⟩] ++ shDynsym :: a)).bias ≠ bias_unset := by
    intro a t b hl ht
    match a, hl with
    | [], hl =>
      simp only [List.nil_append, List.cons.injEq] at hl
      rw [← hl.1] at ht; exact absurd ht (by decide)
    | [x], hl =>
      simp only [List.cons_append, List.nil_append, List.cons.injEq] at hl
      rw [← hl.2.1] at ht; exact absurd ht (by decide)
    | [x, y], hl =>
      simp only [List.cons_append, List.nil_append, List.cons.injEq] at hl
      rw [← hl.1, ← hl.2.1]; decide
    | x :: y :: z :: w, hl =>
      simp at hl
  have h := parse_dynsym_last_unassigned .elf64 lateDynsymFile blankImg
    [⟨1, SHT_DYNSYM, 0x100, 0x100, 0x60, 24⟩]
    [shDynstr, shText, ⟨1, SHT_DYNSYM, 0x400, 0x400, 0x60, 24⟩] shDynsym (by decide) rfl rfl
    (by decide) hlater
  exact ⟨rfl, by decide, h.2.1.1, h.2.1.2.1⟩

/-- C18 fails as stated: in `twoStrtabFile` the section `.strtab` follows
`.dynstr`, and `parse` records `.strtab` as the dynamic string table too, at the
same offset as the static one. -/
theorem parse_strtab_conflated :
    twoStrtabFile.shdrs = [shDynstr, shStrtab] ∧
      (parse .elf64 blankImg twoStrtabFile).strtab = some shStrtab ∧
      (parse .elf64 blankImg twoStrtabFile).strtab ≠ some shDynstr ∧
      (parse .elf64 blankImg twoStrtabFile).symstr_offset = 0x900 ∧
      (parse .elf64 blankImg twoStrtabFile).symstr_offset_for_symtab = 0x900 ∧
      parse.faults twoStrtabFile = false := by
  decide

/-- C18 (amended) on `usualFile`: `.strtab` stands behind `.text`, which assigns
the load bias; `.dynstr` stays the dynamic string table and `.strtab` sets the
static offset only. -/
theorem parse_strtab_last_unassigned_witness :
    usualFile.shdrs = [shDynsym] ++ shDynstr :: [shText, shHash, shComment, shStrtab] ∧
      (parse.upTo .elf64 usualFile blankImg [shDynsym]).bias = bias_unset ∧
      (parse .elf64 blankImg usualFile).strtab = some shDynstr ∧
      (parse .elf64 blankImg usualFile).symstr_offset = 0x300 ∧
      (parse .elf64 blankImg usualFile).symstr_offset_for_symtab = 0x900 := by
  have hlater : ∀ a t b, [shText, shHash, shComment, shStrtab] = a ++ t :: b →
      t.sh_type = SHT_STRTAB →
      (parse.upTo .elf64 usualFile blankImg ([shDynsym] ++ shDynstr :: a)).bias ≠
        bias_unset := by
    intro a t b hl ht
    match a, hl with
    | [], hl =>
      simp only [List.nil_append, List.cons.injEq] at hl
      rw [← hl.1] at ht; exact absurd ht (by decide)
    | [x], hl =>
      simp only [List.cons_append, List.nil_append, List.cons.injEq] at hl
      rw [← hl.2.1] at ht; exact absurd ht (by decide)
    | [x, y], hl =>
      simp only [List.cons_append, List.nil_append, List.cons.injEq] at hl
      rw [← hl.2.2.1] at ht; exact absurd ht (by decide)
    | [x, y, z], hl =>
      simp only [List.cons_append, List.nil_append, List.cons.injEq] at hl
      rw [← hl.1, ← hl.2.1, ← hl.2.2.1]; decide
    | x :: y :: z :: v :: w, hl =>
      simp at hl
  have h := parse_strtab_last_unassigned .elf64 usualFile blankImg [shDynsym]
    [shText, shHash, shComment, shStrtab] shDynstr (by decide) rfl rfl (by decide) hlater
  exact ⟨rfl, by decide, h.2.1.1, h.2.1.2.1, by decide⟩

/-- C19 fails as stated: the construction over `strippedHashFile`, whose nested
image holds a HASH section, ends with the SysV bucket count 7 where the outer
image gave 1; and the construction over `earlyDebugFile`, which leaves the load
bias unassigned, ends with the dynamic symbol table of the nested image (offset
`0x40` where the outer image gave `0x200`). -/
theorem parse_nested_overrides :
    (parse .elf64 blankImg strippedHashFile).nbucket_ = 1 ∧
      (ElfImg.ctor .elf64 (nestedEnv strippedHashFile) 1 (ascii "libart.so")).map
          (fun r => (r.events, r.img.nbucket_)) =
        some ([Event.open_file (ascii "/apex/lib64/libart.so"), Event.parse_image (some []),
          Event.parse_image (some [0x7F, 0x45, 0x4C, 0x46])], 7) ∧
      (parse .elf64 blankImg earlyDebugFile).dynsym_offset = 0x200 ∧
      (ElfImg.ctor .elf64 (nestedEnv earlyDebugFile) 1 (ascii "libart.so")).map
          (fun r => (r.events, r.img.dynsym_offset)) =
        some ([Event.open_file (ascii "/apex/lib64/libart.so"), Event.parse_image (some []),
          Event.parse_image (some [0x7F, 0x45, 0x4C, 0x46])], 0x40) := by
  decide

/-- C19 (amended) on `usualFile` as outer and `nestedSymFile` as nested table:
the load bias, the dynamic tables and both hash tables stay; the static symbol
table is the nested one. -/
theorem parse_nested_frame_witness :
    parse.faults nestedSymFile = false ∧
      (parse .elf64 blankImg usualFile).bias ≠ bias_unset ∧
      parse.run .elf64 (parse .elf64 blankImg usualFile) nestedSymFile =
        some (parse .elf64 (parse .elf64 blankImg usualFile) nestedSymFile) ∧
      (parse .elf64 (parse .elf64 blankImg usualFile) nestedSymFile).bias =
        (parse .elf64 blankImg usualFile).bias ∧
      SameDynsym (parse .elf64 (parse .elf64 blankImg usualFile) nestedSymFile)
        (parse .elf64 blankImg usualFile) ∧
      SameDynstr (parse .elf64 (parse .elf64 blankImg usualFile) nestedSymFile)
        (parse .elf64 blankImg usualFile) ∧
      SameSysvHash (parse .elf64 (parse .elf64 blankImg usualFile) nestedSymFile)
        (parse .elf64 blankImg usualFile) ∧
      SameGnuHash (parse .elf64 (parse .elf64 blankImg usualFile) nestedSymFile)
        (parse .elf64 blankImg usualFile) ∧
      (parse .elf64 (parse .elf64 blankImg usualFile) nestedSymFile).symtab = some shSymtab := by
  have h := parse_nested_frame .elf64 nestedSymFile (parse .elf64 blankImg usualFile)
    (by decide) (by decide)
  exact ⟨by decide, by decide, h.1, h.2.1, h.2.2.1, h.2.2.2.1, h.2.2.2.2.1 (by decide),
    h.2.2.2.2.2 (by decide), by decide⟩

/-! ## Failure of `findModuleBase` -/

/-- The filtered list holds one entry for every line with three parsed items
whose path contains the fragment, in listing order. -/
theorem filterMaps_eq_map (cls : ElfClass) (elf : Bytes) (lines : List MapLine) :
    filterMaps cls elf lines =
      (lines.filter (fun line =>
        decide (line.items_parsed = 3 ∧ strstr_found line.path_buffer elf = true))).map
        (fun line =>
          { start_addr := line.temp_start % 2 ^ uintptr_bits cls
            perms := (cstr line.p 0).take 4
            pathname := cstr line.path_buffer 0 }) := by
  unfold filterMaps
  suffices H : ∀ acc : List MapEntry,
      lines.foldl
        (fun filtered_list line =>
          if line.items_parsed = 3 ∧ strstr_found line.path_buffer elf then
            filtered_list ++
              [{ start_addr := line.temp_start % 2 ^ uintptr_bits cls
                 perms := (cstr line.p 0).take 4
                 pathname := cstr line.path_buffer 0 }]
          else filtered_list) acc =
        acc ++ (lines.filter (fun line =>
          decide (line.items_parsed = 3 ∧ strstr_found line.path_buffer elf = true))).map
          (fun line =>
            { start_addr := line.temp_start % 2 ^ uintptr_bits cls
              perms := (cstr line.p 0).take 4
              pathname := cstr line.path_buffer 0 }) by
    simpa using H []
  induction lines with
  | nil => intro acc; simp
  | cons line rest ih =>
    intro acc
    rw [List.foldl_cons, ih]
    by_cases hq : line.items_parsed = 3 ∧ strstr_found line.path_buffer elf = true
    · simp [hq, List.filter_cons]
    · simp [hq, List.filter_cons]

/-- The filtered list is empty exactly when no parsed line has a path that
contains the fragment. -/
theorem filterMaps_eq_nil_iff (cls : ElfClass) (elf : Bytes) (lines : List MapLine) :
    filterMaps cls elf lines = [] ↔
      ∀ line ∈ lines, ¬ (line.items_parsed = 3 ∧ strstr_found line.path_buffer elf = true) := by
  rw [filterMaps_eq_map, List.map_eq_nil_iff, List.filter_eq_nil_iff]
  constructor
  · intro h line hl; simpa using h line hl
  · intro h line hl; simpa using h line hl

/-- The two loops of `findModuleBase` find no block exactly when the list holds
neither an adjacent pair nor an `r-xp` entry. -/
theorem findBlock_eq_none_iff (fl : List MapEntry) (hfl : ∀ e ∈ fl, cstr e.perms 0 = e.perms) :
    findBlock fl = none ↔ (∀ i, ¬ IsPair fl i) ∧ ∀ y ∈ fl, y.perms ≠ ascii "r-xp" := by
  unfold findBlock
  cases hfind : (List.range (fl.length - 1)).find? (pairAt fl) with
  | some i =>
    have hp : pairAt fl i = true := List.find?_some hfind
    have hpair : IsPair fl i := (pairAt_iff fl hfl i).mp hp
    obtain ⟨a, b, ha, _, _, _⟩ := hpair
    simp only [ha]
    constructor
    · intro h; cases h
    · intro h; exact absurd ((pairAt_iff fl hfl i).mp hp) (h.1 i)
  | none =>
    simp only
    rw [List.find?_eq_none]
    have hno : ∀ i, ¬ IsPair fl i := by
      intro i hi
      obtain ⟨a, b, ha, hb, hpa, hpb⟩ := hi
      have hlen : i + 1 < fl.length := by
        rcases Nat.lt_or_ge (i + 1) fl.length with h1 | h1
        · exact h1
        · rw [List.get?_eq_none.mpr h1] at hb; cases hb
      rw [List.find?_eq_none] at hfind
      have := hfind i (List.mem_range.mpr (by omega))
      rw [(pairAt_iff fl hfl i).mpr ⟨a, b, ha, hb, hpa, hpb⟩] at this
      exact this rfl
    constructor
    · intro h
      refine ⟨hno, fun y hy hyp => ?_⟩
      exact h y hy ((strcmp_eq_iff _ _ (hfl y hy) cstr_r_xp).mpr hyp)
    · intro h y hy hs
      exact h.2 y hy ((strcmp_eq_iff _ _ (hfl y hy) cstr_r_xp).mp hs)

/-- A failed `findModuleBase` leaves the object as it was. -/
theorem findModuleBase_false_state (cls : ElfClass) (img : ElfImg) (maps : Option (List MapLine))
    (h : (findModuleBase cls img maps).1 = false) : findModuleBase cls img maps = (false, img) := by
  unfold findModuleBase at h ⊢
  cases maps with
  | none => rfl
  | some lines =>
    simp only at h ⊢
    split_ifs with he
    · rfl
    · rw [if_neg he] at h
      cases hb : findBlock (filterMaps cls img.elf lines) with
      | none => rfl
      | some x => rw [hb] at h; cases h

/-- C11: on a readable map listing `findModuleBase` fails exactly when no parsed
line has a path that contains the fragment, or the filtered entries hold
neither an adjacent (`r--p`, `r-xp`) pair nor an `r-xp` entry; the constructor
then sets the base to null and calls neither `open` nor `parse`. -/
theorem findModuleBase_fails_iff (cls : ElfClass) (img : ElfImg) (lines : List MapLine) :
    ((findModuleBase cls img (some lines)).1 = false ↔
        (∀ line ∈ lines,
          ¬ (line.items_parsed = 3 ∧ strstr_found line.path_buffer img.elf = true)) ∨
        ((∀ i, ¬ IsPair (filterMaps cls img.elf lines) i) ∧
          ∀ y ∈ filterMaps cls img.elf lines, y.perms ≠ ascii "r-xp")) ∧
      ∀ (env : Env) (fuel : Nat) (base_name : Bytes), env.maps = some lines →
        (findModuleBase cls { blankImg with elf := base_name } (some lines)).1 = false →
        ElfImg.ctor cls env fuel base_name =
          some { img := { blankImg with elf := base_name, base := 0 }, events := [],
                 crashed := false } := by
  constructor
  · have hperm := mem_filterMaps_perms cls img.elf lines
    rw [← filterMaps_eq_nil_iff cls img.elf lines, ← findBlock_eq_none_iff _ hperm]
    unfold findModuleBase
    simp only
    cases hfl : filterMaps cls img.elf lines with
    | nil => simp
    | cons e rest =>
      cases hb : findBlock (e :: rest) with
      | none => simp
      | some x => simp
  · intro env fuel base_name hmaps hfail
    have := findModuleBase_false_state cls { blankImg with elf := base_name } (some lines) hfail
    unfold ElfImg.ctor
    rw [hmaps, this]

/-- C11 on `otherMaps` (no path contains the fragment) and on `dataMaps` (no
pair, no `r-xp` entry): `findModuleBase` fails, and the constructor returns the
initial object with a null base, without a call of `open` or `parse`. -/
theorem findModuleBase_fails_iff_witness :
    (findModuleBase .elf64 libartImg (some otherMaps)).1 = false ∧
      (findModuleBase .elf64 libartImg (some dataMaps)).1 = false ∧
      ElfImg.ctor .elf64 (exampleEnv dataMaps none noDecoder) 0 (ascii "libart.so") =
        some { img := { blankImg with elf := ascii "libart.so", base := 0 }, events := [],
               crashed := false } :=
  ⟨(findModuleBase_fails_iff .elf64 libartImg otherMaps).1.mpr (Or.inl (by decide)),
    by decide,
    (findModuleBase_fails_iff .elf64 libartImg dataMaps).2 _ 0 (ascii "libart.so") rfl
      (by decide)⟩

/-- C13: when the decode loop ends with a value other than `XZ_STREAM_END`,
`xzdecompress` returns false and leaves the object as it is, with
`elf_debugdata` unset; the constructor, whose parse of the outer image did not
fault, then returns the object as that parse left it, having called `parse`
once. -/
theorem xzdecompress_fails_unless_stream_end (cls : ElfClass) (env : Env) (fuel : Nat)
    (img : ElfImg) (str_xz_dec : env.decoder.σ) (st : XzLoop env.decoder.σ) (ret : xz_ret)
    (hinit : env.decoder.xz_dec_init = some str_xz_dec)
    (hloop : xzdecompress.loop env.decoder env.any_check (xzdecompress.input img) fuel
      (xzdecompress.start env.decoder env.heap str_xz_dec) = some (st, ret))
    (hret : ret ≠ xz_ret.XZ_STREAM_END) :
    xzdecompress env.decoder env.any_check env.malloc_ok env.heap fuel img = some (false, img) ∧
      ElfImg.debugdata cls env fuel img = some { img := img, events := [], crashed := false } ∧
      ∀ (base_name : Bytes) (img1 : ElfImg) (f : OpenFile) (hdr : ElfFile),
        findModuleBase cls { blankImg with elf := base_name } env.maps = (true, img1) →
        env.files (cstr img1.elf 0) = some f → f.mapped = some hdr →
        parse.faults hdr = false →
        img = parse cls { img1 with size := f.size, header := some hdr.bytes } hdr →
        ElfImg.ctor cls env fuel base_name =
          some { img := img
                 events := [Event.open_file (cstr img1.elf 0), Event.parse_image (some hdr.bytes)]
                 crashed := false } := by
  have hxz : xzdecompress env.decoder env.any_check env.malloc_ok env.heap fuel img =
      some (false, img) := by
    unfold xzdecompress
    rw [hinit]
    simp only
    split_ifs
    · rfl
    · rw [hloop]; simp [hret]
  have hdbg : ElfImg.debugdata cls env fuel img =
      some { img := img, events := [], crashed := false } := by
    unfold ElfImg.debugdata
    split_ifs
    · rw [hxz]
    · rfl
  refine ⟨hxz, hdbg, ?_⟩
  intro base_name img1 f hdr hfind hfile hmap hok himg
  unfold ElfImg.ctor
  rw [hfind]
  simp only
  rw [hfile]
  simp only
  rw [hmap]
  simp only
  rw [parse.run_eq cls _ hdr hok]
  simp only
  rw [← himg, hdbg]
  simp

/-- C13 on `corruptEnv`: the decoder reports corrupt data; `xzdecompress` fails,
the object stays as the outer parse left it, and `parse` was called once. -/
theorem xzdecompress_fails_unless_stream_end_witness :
    (∃ st, xzdecompress.loop corruptEnv.decoder corruptEnv.any_check
        (xzdecompress.input strippedImg) 1
        (xzdecompress.start corruptEnv.decoder corruptEnv.heap (0 : Nat)) =
          some (st, xz_ret.XZ_DATA_ERROR)) ∧
      xzdecompress corruptEnv.decoder corruptEnv.any_check corruptEnv.malloc_ok corruptEnv.heap 1
        strippedImg = some (false, strippedImg) ∧
      ElfImg.ctor .elf64 corruptEnv 1 (ascii "libart.so") =
        some { img := strippedImg
               events := [Event.open_file (ascii "/apex/lib64/libart.so"),
                 Event.parse_image (some strippedFile.bytes)]
               crashed := false } := by
  have hloop : ∃ st, xzdecompress.loop corruptEnv.decoder corruptEnv.any_check
      (xzdecompress.input strippedImg) 1
      (xzdecompress.start corruptEnv.decoder corruptEnv.heap (0 : Nat)) =
        some (st, xz_ret.XZ_DATA_ERROR) := ⟨_, rfl⟩
  obtain ⟨st, hst⟩ := hloop
  have h := xzdecompress_fails_unless_stream_end .elf64 corruptEnv 1 strippedImg (0 : Nat) st
    xz_ret.XZ_DATA_ERROR rfl hst (by decide)
  refine ⟨⟨st, hst⟩, h.1, ?_⟩
  exact h.2.2 (ascii "libart.so")
    { blankImg with elf := ascii "/apex/lib64/libart.so", base := 0x7000 } strippedOpen
    strippedFile rfl rfl rfl (by decide) rfl

/-! ## The decode loop on full chunks -/

/-- Reading a block back behind a store: the bytes held before, then the bytes
stored. -/
theorem writeAt_range (buf : Nat → Nat) (a w : Bytes)
    (h : ∀ i, i < a.length → buf i = a.getD i 0) :
    (List.range (a.length + w.length)).map (writeAt buf a.length w) = a ++ w := by
  apply List.ext_getElem
  · simp
  · intro i h1 h2
    simp only [List.getElem_map, List.getElem_range, writeAt]
    by_cases hi : i < a.length
    · have : ¬ (a.length ≤ i ∧ i < a.length + w.length) := by omega
      rw [if_neg this, h i hi, List.getElem_append_left hi]
      simp [List.getD_eq_getElem?_getD, List.getElem?_eq_getElem hi]
    · have hlen : i < a.length + w.length := by simpa using h2
      have : a.length ≤ i ∧ i < a.length + w.length := ⟨by omega, hlen⟩
      rw [if_pos this, List.getElem_append_right (by omega)]
      have hw : i - a.length < w.length := by omega
      simp [List.getD_eq_getElem?_getD, List.getElem?_eq_getElem hw]

/-- The variables behind a call of `xz_dec_run` that starts on a chunk boundary. -/
theorem xzdecompress.call_boundary (d : XzDecoder) (input : Bytes) (st : XzLoop d.σ)
    (hpos : st.out_pos = 0) :
    (xzdecompress.call d input st).2.1.length ≤ BUFSIZE ∧
    (xzdecompress.call d input st).1.sBuffOut =
      writeAt st.sBuffOut st.out (xzdecompress.call d input st).2.1 ∧
    (xzdecompress.call d input st).1.out = st.out ∧
    ((xzdecompress.call d input st).2.1.length = BUFSIZE →
      (xzdecompress.call d input st).1.out_pos = 0 ∧
      (xzdecompress.call d input st).1.iSkip = (st.iSkip + 1) % 2 ^ 8 ∧
      (xzdecompress.call d input st).1.iSzOut = st.iSzOut) ∧
    ((xzdecompress.call d input st).2.1.length ≠ BUFSIZE →
      (xzdecompress.call d input st).1.iSzOut =
        st.iSzOut - ((BUFSIZE - (xzdecompress.call d input st).2.1.length : Nat) : Int)) := by
  simp only [xzdecompress.call, hpos, Nat.sub_zero, Nat.zero_add, Nat.add_zero]
  refine ⟨by rw [List.length_take]; omega, ?_, ?_, ?_, ?_⟩
  · split_ifs <;> rfl
  · split_ifs <;> rfl
  · intro h; rw [if_pos h]; exact ⟨rfl, rfl, rfl⟩
  · intro h; rw [if_neg h]

/-- The decode loop from a chunk boundary on: when every call that asks for more
space has filled its chunk and the chunk counter stays below 256, the block read
back over the recorded length is the bytes held before followed by the bytes
appended. -/
theorem xzdecompress.loop_full (d : XzDecoder) (input : Bytes) :
    ∀ (fuel : Nat) (st st' : XzLoop d.σ) (ret : xz_ret) (acc : Bytes),
      st.out_pos = 0 → st.out = acc.length → acc.length = st.iSkip * BUFSIZE →
      st.iSzOut = ((acc.length + BUFSIZE : Nat) : Int) →
      (∀ i, i < acc.length → st.sBuffOut i = acc.getD i 0) →
      st.iSkip + fuel ≤ 256 →
      xzdecompress.loop d false input fuel st = some (st', ret) →
      xzdecompress.fullChunks d input fuel st = true →
      ∃ rest, xzdecompress.written d false input fuel st = some rest ∧
        (List.range st'.iSzOut.toNat).map st'.sBuffOut = acc ++ rest := by
  intro fuel
  induction fuel with
  | zero => intro st st' ret acc _ _ _ _ _ _ hrun; simp [xzdecompress.loop] at hrun
  | succ fuel ih =>
    intro st st' ret acc hpos hout hacc hsz hbuf hskip hrun hfull
    obtain ⟨hwlen, hcb, hco, hcfull, hcpart⟩ := xzdecompress.call_boundary d input st hpos
    simp only [xzdecompress.loop, xzdecompress.written, xzdecompress.fullChunks] at hrun hfull ⊢
    by_cases hok : (xzdecompress.call d input st).2.2 = xz_ret.XZ_OK
    · rw [if_pos hok] at hrun hfull
      rw [if_pos hok]
      simp only [Bool.and_eq_true, decide_eq_true_eq] at hfull
      obtain ⟨hlen, hfull⟩ := hfull
      obtain ⟨hp1, hk1, hz1⟩ := hcfull hlen
      cases fuel with
      | zero => simp [xzdecompress.loop] at hrun
      | succ fuel =>
        have hk : (st.iSkip + 1) % 2 ^ 8 = st.iSkip + 1 := Nat.mod_eq_of_lt (by omega)
        have hl2 : (acc ++ (xzdecompress.call d input st).2.1).length =
            (st.iSkip + 1) * BUFSIZE := by
          rw [List.length_append, hlen, hacc, Nat.add_mul, Nat.one_mul]
        obtain ⟨rest, hw, hr⟩ := ih (xzdecompress.grow (xzdecompress.call d input st).1) st' ret
          (acc ++ (xzdecompress.call d input st).2.1)
          (by simp only [xzdecompress.grow]; exact hp1)
          (by simp only [xzdecompress.grow]; rw [hk1, hk, hl2])
          (by simp only [xzdecompress.grow]; rw [hk1, hk, hl2])
          (by
            simp only [xzdecompress.grow]
            rw [hz1, hsz, List.length_append, hlen]; push_cast; ring)
          (by
            intro i hi
            simp only [xzdecompress.grow]
            rw [hcb, hout]
            unfold writeAt
            rw [List.length_append] at hi
            by_cases hia : i < acc.length
            · rw [if_neg (by omega), hbuf i hia]
              simp [List.getD_eq_getElem?_getD, List.getElem?_append_left hia]
            · rw [if_pos ⟨by omega, hi⟩]
              simp [List.getD_eq_getElem?_getD,
                List.getElem?_append_right (Nat.le_of_not_lt hia)])
          (by simp only [xzdecompress.grow]; rw [hk1, hk]; omega)
          hrun hfull
        exact ⟨(xzdecompress.call d input st).2.1 ++ rest, by rw [hw]; rfl,
          by rw [hr, List.append_assoc]⟩
    · rw [if_neg hok] at hrun
      rw [if_neg hok]
      simp only [Bool.false_eq_true, false_and, if_false, Option.some.injEq,
        Prod.mk.injEq] at hrun ⊢
      obtain ⟨rfl, -⟩ := hrun
      refine ⟨_, rfl, ?_⟩
      have hsz' : (xzdecompress.call d input st).1.iSzOut.toNat =
          acc.length + (xzdecompress.call d input st).2.1.length := by
        by_cases h : (xzdecompress.call d input st).2.1.length = BUFSIZE
        · rw [(hcfull h).2.2, hsz, h]; exact Int.toNat_ofNat _
        · rw [hcpart h, hsz]; omega
      rw [hsz', hcb, hout]
      exact writeAt_range st.sBuffOut acc _ hbuf

/-- The decode loop, where it is right: with `XZ_DEC_ANY_CHECK` not defined, for
a run of at most 256 calls in which every call that asks for more space has
filled its chunk, the block read back over the recorded length `iSzOut` is the
bytes the decoder appended, in order. -/
theorem xzdecompress_full_chunks (d : XzDecoder) (input : Bytes) (heap : Nat → Nat)
    (str_xz_dec : d.σ) (fuel : Nat) (st : XzLoop d.σ) (ret : xz_ret) (hfuel : fuel ≤ 256)
    (hrun : xzdecompress.loop d false input fuel (xzdecompress.start d heap str_xz_dec) =
      some (st, ret))
    (hfull : xzdecompress.fullChunks d input fuel (xzdecompress.start d heap str_xz_dec) = true) :
    xzdecompress.written d false input fuel (xzdecompress.start d heap str_xz_dec) =
      some ((List.range st.iSzOut.toNat).map st.sBuffOut) := by
  obtain ⟨rest, hw, hr⟩ := xzdecompress.loop_full d input fuel
    (xzdecompress.start d heap str_xz_dec) st ret [] rfl rfl (by simp [xzdecompress.start])
    (by simp [xzdecompress.start]) (by intro i hi; simp at hi)
    (by simp only [xzdecompress.start]; omega) hrun hfull
  rw [hw, hr]; rfl

/-- The run of `badMagicEnv` is a run of one call, which ends the stream: the
bytes appended are the bytes recorded. -/
theorem xzdecompress_full_chunks_one_call :
    ∃ st, xzdecompress.loop badMagicEnv.decoder false (xzdecompress.input strippedImg) 1
        (xzdecompress.start badMagicEnv.decoder badMagicEnv.heap (0 : Nat)) =
          some (st, xz_ret.XZ_STREAM_END) ∧
      xzdecompress.written badMagicEnv.decoder false (xzdecompress.input strippedImg) 1
        (xzdecompress.start badMagicEnv.decoder badMagicEnv.heap (0 : Nat)) =
          some ((List.range st.iSzOut.toNat).map st.sBuffOut) := by
  refine ⟨_, rfl, ?_⟩
  exact xzdecompress_full_chunks badMagicEnv.decoder (xzdecompress.input strippedImg)
    badMagicEnv.heap (0 : Nat) 1 _ xz_ret.XZ_STREAM_END (by decide) rfl rfl

/-! ## Slips of `xzdecompress` and of the constructor -/

/-- C12 on `badMagicEnv`: the decompressed bytes start with `7F 00 00 00`, which
is not the ELF magic; `xzdecompress` returns true all the same, the bytes are
recorded, and the constructor parses them as the nested image. -/
theorem xzdecompress_accepts_bad_magic :
    (xzdecompress badMagicEnv.decoder badMagicEnv.any_check badMagicEnv.malloc_ok
        badMagicEnv.heap 1 strippedImg).map (fun r => (r.1, r.2.elf_debugdata)) =
      some (true, [0x7F, 0, 0, 0, 1, 2]) ∧
    (ElfImg.ctor .elf64 badMagicEnv 1 (ascii "libart.so")).map
        (fun r => (r.events, r.img.header_debugdata)) =
      some ([Event.open_file (ascii "/apex/lib64/libart.so"),
          Event.parse_image (some strippedFile.bytes),
          Event.parse_image (some [0x7F, 0, 0, 0, 1, 2])],
        some [0x7F, 0, 0, 0, 1, 2]) := by
  decide

/-- C14 on `partialEnv`: the decoder appends `7F 45 4C`, asks for more space with
its chunk partly filled, then appends `46 02` and ends the stream: five bytes.
The buffer that `xzdecompress` records holds eight bytes, the five followed by
three that the decoder never wrote. -/
theorem xzdecompress_partial_chunk :
    xzdecompress.written partialEnv.decoder partialEnv.any_check
        (xzdecompress.input strippedImg) 2
        (xzdecompress.start partialEnv.decoder partialEnv.heap (0 : Nat)) =
      some [0x7F, 0x45, 0x4C, 0x46, 2] ∧
    (xzdecompress partialEnv.decoder partialEnv.any_check partialEnv.malloc_ok partialEnv.heap 2
        strippedImg).map (fun r => (r.1, r.2.elf_debugdata)) =
      some (true, [0x7F, 0x45, 0x4C, 0x46, 2, 0xAA, 0xAA, 0xAA]) := by
  decide

/-- C20 at an `open` that fails and at an `mmap` that fails for a file of length
0: in the first construction the base stays at the located address `0x7000`, so
the object passes the validity check; in the second the constructor goes on to
`parse` with the pointer `MAP_FAILED`. -/
theorem ctor_open_failure_keeps_base :
    (ElfImg.ctor .elf64 (exampleEnv exampleMaps none noDecoder) 0 (ascii "libart.so")).map
        (fun r => (r.events, r.img.base, isValid r.img, r.crashed)) =
      some ([Event.open_file (ascii "/apex/lib64/libart.so")], 0x7000, true, false) ∧
    (ElfImg.ctor .elf64 (exampleEnv exampleMaps (some ⟨0, none⟩) noDecoder) 0
        (ascii "libart.so")).map (fun r => (r.events, r.img.base, isValid r.img, r.crashed)) =
      some ([Event.open_file (ascii "/apex/lib64/libart.so"), Event.parse_image none], 0x7000,
        true, true) := by
  decide

/-! ## The section `.gnu_debugdata` in `parse` -/

/-- C21 (amended): on a table on which `parse` does not fault, a PROGBITS section
named `.gnu_debugdata` has its offset and size recorded, and for the load bias
it is a PROGBITS section like any other: met with both dynamic tables known and
the load bias unassigned it sets the load bias to the `off_t` difference of its
address and its offset, otherwise it leaves the load bias as it is; nothing else
changes. -/
theorem parse_debugdata_section (cls : ElfClass) (hdr : ElfFile) (img : ElfImg)
    (pre post : List ElfShdr) (s : ElfShdr) (hok : parse.faults hdr = false)
    (htab : hdr.shdrs = pre ++ s :: post) (hty : s.sh_type = SHT_PROGBITS)
    (hname : strcmp_eq (cstr hdr.section_str s.sh_name) (ascii ".gnu_debugdata") = true) :
    parse.run cls img hdr =
        some (post.foldl (parse.step cls hdr) (parse.upTo cls hdr img (pre ++ [s]))) ∧
    parse.upTo cls hdr img (pre ++ [s]) =
      { parse.upTo cls hdr img pre with
        debugdata_offset := s.sh_offset
        debugdata_size := s.sh_size
        bias :=
          if (parse.upTo cls hdr img pre).strtab ≠ none ∧
              (parse.upTo cls hdr img pre).dynsym ≠ none ∧
              (parse.upTo cls hdr img pre).bias = bias_unset then
            off_t_sub cls (off_t_cast cls s.sh_addr) (off_t_cast cls s.sh_offset)
          else (parse.upTo cls hdr img pre).bias } := by
  refine ⟨?_, ?_⟩
  · rw [parse.run_eq cls img hdr hok, parse_eq_upTo, htab,
      show pre ++ s :: post = (pre ++ [s]) ++ post by simp, parse.upTo_append]
  rw [parse.upTo_append]
  generalize parse.upTo cls hdr img pre = st
  have h1 : s.sh_type ≠ SHT_DYNSYM := by rw [hty]; decide
  have h2 : s.sh_type ≠ SHT_SYMTAB := by rw [hty]; decide
  have h3 : s.sh_type ≠ SHT_STRTAB := by rw [hty]; decide
  simp only [List.foldl_cons, List.foldl_nil, parse.step, if_neg h1, if_neg h2, if_neg h3,
    if_pos hty, parse.progbits_case, parse.debugdata_record, hname, if_true, parse.bias_record]
  by_cases hs : st.strtab = none
  · simp [hs]
  · by_cases hd : st.dynsym = none
    · simp [hd]
    · by_cases hb : st.bias = bias_unset
      · simp [hs, hd, hb]
      · simp [hs, hd, hb]

/-- C21 fails as stated: in `debugFirstFile` the section `.gnu_debugdata` (address
0, offset `0x700`) is the first PROGBITS section behind `.dynsym` and `.dynstr`;
`parse` records its offset and size and also takes the load bias `0 - 0x700`
from it, which the later section `.text` (address minus offset `0x2000`) no
longer changes. -/
theorem parse_debugdata_yields_bias :
    debugFirstFile.shdrs = [shDynsym, shDynstr, shDebugdata, shText] ∧
      cstr debugFirstFile.section_str shDebugdata.sh_name = ascii ".gnu_debugdata" ∧
      (parse.upTo .elf64 debugFirstFile blankImg [shDynsym, shDynstr]).bias = bias_unset ∧
      (parse.upTo .elf64 debugFirstFile blankImg [shDynsym, shDynstr, shDebugdata]).bias =
        -0x700 ∧
      (parse .elf64 blankImg debugFirstFile).debugdata_offset = 0x700 ∧
      (parse .elf64 blankImg debugFirstFile).debugdata_size = 0x40 ∧
      (parse .elf64 blankImg debugFirstFile).bias = -0x700 ∧
      parse.faults debugFirstFile = false := by
  decide

/-- C21 (amended) on `strippedFile`: `.gnu_debugdata` stands behind `.text`, which
has assigned the load bias `0x2000`; its offset and size are recorded and the
load bias stays. -/
theorem parse_debugdata_section_witness :
    strippedFile.shdrs = [shDynsym, shDynstr, shText] ++ shDebugdata :: [] ∧
      parse.faults strippedFile = false ∧ shDebugdata.sh_type = SHT_PROGBITS ∧
      strcmp_eq (cstr strippedFile.section_str shDebugdata.sh_name) (ascii ".gnu_debugdata") =
        true ∧
      (parse.upTo .elf64 strippedFile blankImg ([shDynsym, shDynstr, shText] ++ [shDebugdata])).bias
        = 0x2000 ∧
      (parse.upTo .elf64 strippedFile blankImg
        ([shDynsym, shDynstr, shText] ++ [shDebugdata])).debugdata_offset = 0x700 ∧
      (parse.upTo .elf64 strippedFile blankImg
        ([shDynsym, shDynstr, shText] ++ [shDebugdata])).debugdata_size = 0x40 := by
  have h := (parse_debugdata_section .elf64 strippedFile blankImg [shDynsym, shDynstr, shText]
    [] shDebugdata (by decide) rfl (by decide) (by decide)).2
  refine ⟨rfl, by decide, by decide, by decide, ?_, ?_, ?_⟩
  · rw [h]; decide
  · rw [h]; rfl
  · rw [h]; rfl

/-! ## The lazy build, repeated -/

/-- A second run of `MayInitLinearMap` changes nothing. -/
theorem MayInitLinearMap_twice (img : ElfImg) :
    MayInitLinearMap (MayInitLinearMap img) = MayInitLinearMap img := by
  by_cases he : img.symtabs_.isEmpty = true
  · have hnil : img.symtabs_ = [] := List.isEmpty_iff.mp he
    cases hst : img.symtab_start with
    | none =>
      have h1 : MayInitLinearMap img = img := by simp [MayInitLinearMap, hst]
      rw [h1, h1]
    | some tab =>
      by_cases hoff : img.symstr_offset_for_symtab ≠ 0
      · have hbuild : ∀ img2 : ElfImg, img2.symtabs_ = [] → img2.symtab_start = some tab →
            img2.symstr_offset_for_symtab ≠ 0 →
            MayInitLinearMap img2 =
              { img2 with
                symtabs_ := (List.range img2.symtab_count).foldl
                  (MayInitLinearMap.step img2.hdr img2.symstr_offset_for_symtab tab) [] } := by
          intro img2 h2 hst2 hoff2
          have he2 : img2.symtabs_.isEmpty = true := by rw [h2]; rfl
          simp only [MayInitLinearMap, he2, hst2, if_true, if_pos hoff2]
          rw [h2]
        rw [hbuild img hnil hst hoff]
        by_cases hS : (List.range img.symtab_count).foldl
            (MayInitLinearMap.step img.hdr img.symstr_offset_for_symtab tab) [] = []
        · have e1 : ({ img with
              symtabs_ := (List.range img.symtab_count).foldl
                (MayInitLinearMap.step img.hdr img.symstr_offset_for_symtab tab) [] } : ElfImg) =
              { img with symtabs_ := [] } := by rw [hS]
          rw [e1, hbuild { img with symtabs_ := [] } rfl hst hoff]
          exact congrArg (fun m => ({ img with symtabs_ := m } : ElfImg)) hS
        · have hne : ((List.range img.symtab_count).foldl
              (MayInitLinearMap.step img.hdr img.symstr_offset_for_symtab tab) []).isEmpty =
              false := by
            cases hl : (List.range img.symtab_count).foldl
              (MayInitLinearMap.step img.hdr img.symstr_offset_for_symtab tab) [] with
            | nil => exact absurd hl hS
            | cons a l => rfl
          simp only [MayInitLinearMap, hne, Bool.false_eq_true, if_false]
      · have h1 : MayInitLinearMap img = img := by
          simp only [MayInitLinearMap, he, hst, if_true, if_neg hoff]
        rw [h1, h1]
  · have h1 : MayInitLinearMap img = img := by simp [MayInitLinearMap, he]
    rw [h1, h1]

/-- C22: a second run of `MayInitLinearMap` leaves the object, and with it the
linear index, as the first run left it; every linear query leaves the object as
one run of `MayInitLinearMap` leaves it, so a linear query that follows any
number of linear queries returns what it returns as the first query. -/
theorem MayInitLinearMap_idempotent (img : ElfImg) :
    MayInitLinearMap (MayInitLinearMap img) = MayInitLinearMap img ∧
      (MayInitLinearMap (MayInitLinearMap img)).symtabs_ = (MayInitLinearMap img).symtabs_ ∧
      (∀ name, (LinearLookup img name).2 = MayInitLinearMap img ∧
        LinearLookup (MayInitLinearMap img) name = LinearLookup img name) ∧
      (∀ name, (LinearRangeLookup img name).2 = MayInitLinearMap img ∧
        LinearRangeLookup (MayInitLinearMap img) name = LinearRangeLookup img name) ∧
      (∀ pfx, (PrefixLookupFirst img pfx).2 = MayInitLinearMap img ∧
        PrefixLookupFirst (MayInitLinearMap img) pfx = PrefixLookupFirst img pfx) := by
  have h := MayInitLinearMap_twice img
  refine ⟨h, by rw [h], ?_, ?_, ?_⟩
  · intro name
    refine ⟨?_, ?_⟩
    · unfold LinearLookup; simp only; split <;> rfl
    · unfold LinearLookup; simp only [h]
  · intro name
    exact ⟨rfl, by unfold LinearRangeLookup; simp only [h]⟩
  · intro pfx
    refine ⟨?_, ?_⟩
    · unfold PrefixLookupFirst; simp only; split
      · split_ifs <;> rfl
      · rfl
    · unfold PrefixLookupFirst; simp only [h]

/-! ## Results carry the queried name -/

/-- A value other than 0 that the loop of `ElfLookup` returns is the value of a
dynamic symbol with the queried name. -/
theorem ElfLookup.chain_name (img : ElfImg) (name : Bytes) :
    ∀ (fuel n off : Nat), ElfLookup.loop img name fuel n = some off → off ≠ 0 →
      ∃ m, dynName img m = name ∧ (img.dynsym_start m).st_value = off := by
  intro fuel
  induction fuel with
  | zero =>
    intro n off h hne
    unfold ElfLookup.loop at h
    by_cases hn : n = 0
    · simp [hn] at h; exact absurd h.symm hne
    · simp [hn] at h
  | succ fuel ih =>
    intro n off h hne
    unfold ElfLookup.loop at h
    by_cases hn : n = 0
    · simp [hn] at h; exact absurd h.symm hne
    · simp only [hn, if_false] at h
      by_cases hm : name = cstr img.strtab_start (img.dynsym_start n).st_name
      · rw [if_pos hm] at h
        exact ⟨n, hm.symm, Option.some.inj h⟩
      · rw [if_neg hm] at h
        exact ih _ off h hne

/-- A value other than 0 that the loop of `GnuLookup` returns is the value of a
dynamic symbol with the queried name. -/
theorem GnuLookup.run_name (img : ElfImg) (name : Bytes) (hash : Nat) :
    ∀ (fuel sym_index off : Nat), GnuLookup.loop img name hash fuel sym_index = some off →
      off ≠ 0 → ∃ m, dynName img m = name ∧ (img.dynsym_start m).st_value = off := by
  intro fuel
  induction fuel with
  | zero => intro n off h; simp [GnuLookup.loop] at h
  | succ fuel ih =>
    intro n off h hne
    unfold GnuLookup.loop at h
    simp only at h
    split_ifs at h with h1 h2
    · exact ⟨n, h1.2.symm, Option.some.inj h⟩
    · exact ih _ off h hne
    · exact absurd (Option.some.inj h).symm hne

/-- An entry that `find` returns is an entry of the map whose key is the
queried one. -/
theorem SymMap.find_key (m : SymMap) (q : Bytes) (e : Bytes × ElfSym)
    (h : m.find q = some e) : e ∈ m ∧ e.1 = q := by
  unfold SymMap.find at h
  rcases SymMap.lower_bound_cases m q with ⟨hnil, -⟩ | ⟨pre, e', rest, hm, hlb, hge, -⟩
  · rw [hnil] at h; simp at h
  · rw [hlb] at h
    simp only at h
    by_cases hk : keyLt q e'.1 = true
    · rw [if_pos hk] at h; simp at h
    · rw [if_neg hk] at h
      have he : e' = e := Option.some.inj h
      subst he
      refine ⟨by rw [hm]; simp, ?_⟩
      exact keyLt_total _ _ hge (by simpa using hk)

/-- On a reachable cache every entry of the index after `MayInitLinearMap` is a
qualifying symbol of the static symbol table under its name. -/
theorem MayInitLinearMap_entry_static (img : ElfImg) (hcache : img.cacheReachable)
    (e : Bytes × ElfSym) (he : e ∈ (MayInitLinearMap img).symtabs_) :
    ∃ tab, img.symtab_start = some tab ∧ ∃ i, i < img.symtab_count ∧ indexed (tab i) = true ∧
      e.1 = staticName img tab i ∧ e.2 = tab i := by
  cases hst : img.symtab_start with
  | none =>
    exfalso
    have hblank : (MayInitLinearMap { img with symtabs_ := [] }).symtabs_ = [] := by
      simp [MayInitLinearMap, hst]
    have hnil : img.symtabs_ = [] := by
      rcases hcache with h | h
      · exact h
      · rw [h, hblank]
    have h1 : (MayInitLinearMap img).symtabs_ = [] := by
      simp [MayInitLinearMap, hst, hnil]
    rw [h1] at he; simp at he
  | some tab =>
    by_cases hoff : img.symstr_offset_for_symtab ≠ 0
    · refine ⟨tab, rfl, ?_⟩
      have hperm := (MayInitLinearMap_spec img tab hcache hst hoff).2.1
      have hin : e ∈ indexedEntries img tab := hperm.mem_iff.mp he
      simp only [indexedEntries, List.mem_map, List.mem_filter, List.mem_range] at hin
      obtain ⟨i, ⟨hi, hx⟩, hk⟩ := hin
      exact ⟨i, hi, hx, by rw [← hk], by rw [← hk]⟩
    · exfalso
      have hblank : (MayInitLinearMap { img with symtabs_ := [] }).symtabs_ = [] := by
        simp [MayInitLinearMap, hst, hoff]
      have hnil : img.symtabs_ = [] := by
        rcases hcache with h | h
        · exact h
        · rw [h, hblank]
      have h1 : (MayInitLinearMap img).symtabs_ = [] := by
        simp [MayInitLinearMap, hst, hnil, hoff]
      rw [h1] at he; simp at he

/-- C23: a result of `getSymbOffset` other than 0 comes from the GNU or the SysV
lookup and is the value of a dynamic symbol whose name is the queried name, or
comes from the linear lookup and is the value of an index entry whose key is the
queried name, which on a reachable cache is a qualifying symbol of the static
symbol table under its name; the hash values are arbitrary. -/
theorem getSymbOffset_name_match (cls : ElfClass) (img img1 : ElfImg) (fuel : Nat)
    (name : Bytes) (gnu_hash elf_hash off : Nat)
    (h : getSymbOffset cls img fuel name gnu_hash elf_hash = some (off, img1))
    (hne : off ≠ 0) :
    ((GnuLookup cls img fuel name gnu_hash = some off ∨
          ElfLookup img fuel name elf_hash = some off) ∧
        ∃ n, dynName img n = name ∧ (img.dynsym_start n).st_value = off) ∨
      ((LinearLookup img name).1 = off ∧
        ∃ e ∈ (MayInitLinearMap img).symtabs_, e.1 = name ∧ e.2.st_value = off ∧
          (img.cacheReachable →
            ∃ tab, img.symtab_start = some tab ∧ ∃ i, i < img.symtab_count ∧
              indexed (tab i) = true ∧ staticName img tab i = name ∧
              (tab i).st_value = off)) := by
  unfold getSymbOffset at h
  cases hg : GnuLookup cls img fuel name gnu_hash with
  | none => rw [hg] at h; simp at h
  | some g =>
    rw [hg] at h
    simp only at h
    by_cases hg0 : g > 0
    · rw [if_pos hg0] at h
      have hoff : g = off := (Prod.mk.inj (Option.some.inj h)).1
      subst hoff
      left
      refine ⟨Or.inl rfl, ?_⟩
      unfold GnuLookup at hg
      simp only at hg
      split_ifs at hg
      · exact absurd (Option.some.inj hg).symm hne
      · exact GnuLookup.run_name img name gnu_hash fuel _ g hg hne
      · exact absurd (Option.some.inj hg).symm hne
      · exact absurd (Option.some.inj hg).symm hne
    · rw [if_neg hg0] at h
      cases hs : ElfLookup img fuel name elf_hash with
      | none => rw [hs] at h; simp at h
      | some s =>
        rw [hs] at h
        simp only at h
        by_cases hs0 : s > 0
        · rw [if_pos hs0] at h
          have hoff : s = off := (Prod.mk.inj (Option.some.inj h)).1
          subst hoff
          left
          refine ⟨Or.inr rfl, ?_⟩
          unfold ElfLookup at hs
          split_ifs at hs with h1
          · exact absurd (Option.some.inj hs).symm hne
          · exact ElfLookup.chain_name img name fuel _ s hs hne
        · rw [if_neg hs0] at h
          have hlin : (LinearLookup img name).1 = off := by
            split_ifs at h
            · exact (Prod.mk.inj (Option.some.inj h)).1
            · exact absurd (Prod.mk.inj (Option.some.inj h)).1.symm hne
          right
          refine ⟨hlin, ?_⟩
          unfold LinearLookup at hlin
          simp only at hlin
          cases hf : (MayInitLinearMap img).symtabs_.find name with
          | none => rw [hf] at hlin; exact absurd hlin.symm hne
          | some e =>
            rw [hf] at hlin
            obtain ⟨hmem, hkey⟩ := SymMap.find_key _ _ _ hf
            refine ⟨e, hmem, hkey, hlin, ?_⟩
            intro hcache
            obtain ⟨tab, htab, i, hi, hidx, hk, hv⟩ :=
              MayInitLinearMap_entry_static img hcache e hmem
            exact ⟨tab, htab, i, hi, hidx, by rw [← hk, hkey], by rw [← hv]; exact hlin⟩

/-- C23 on `exampleImg`, which has no hash tables, with both hash values 0: the
result `0x100` for `foobar` is the value of an index entry under that name. -/
theorem getSymbOffset_name_match_witness :
    getSymbOffset .elf64 exampleImg 0 (ascii "foobar") 0 0 =
        some (0x100, MayInitLinearMap exampleImg) ∧
      (0x100 : Nat) ≠ 0 ∧
      ∃ e ∈ (MayInitLinearMap exampleImg).symtabs_, e.1 = ascii "foobar" ∧
        e.2.st_value = 0x100 := by
  have h := getSymbOffset_name_match .elf64 exampleImg (MayInitLinearMap exampleImg) 0
    (ascii "foobar") 0 0 0x100 rfl (by decide)
  refine ⟨rfl, by decide, ?_⟩
  rcases h with ⟨h1 | h1, -⟩ | ⟨-, e, he, hk, hv, -⟩
  · exact absurd h1 (by decide)
  · exact absurd h1 (by decide)
  · exact ⟨e, he, hk, hv⟩

/-! ## Termination of `ElfLookup` -/

/-- A walk that passes an index goes on from it as the walk entered there. -/
theorem chainWalk_suffix (chain : Nat → Nat) :
    ∀ (a : List Nat) (x y : Nat) (b : List Nat), ChainWalk chain x (a ++ y :: b) →
      ChainWalk chain y (y :: b)
  | [], x, y, b, h => by
    obtain ⟨h1, h2, h3⟩ := h
    subst h2
    exact ⟨h1, rfl, h3⟩
  | _ :: a, x, y, b, h => chainWalk_suffix chain a (chain x) y b h.2.2

/-- A walk that reaches the terminator visits no index twice. -/
theorem chainWalk_nodup (chain : Nat → Nat) :
    ∀ (l : List Nat) (n : Nat), ChainWalk chain n l → l.Nodup
  | [], _, _ => List.nodup_nil
  | m :: l, n, h => by
    have hl : l.Nodup := chainWalk_nodup chain l (chain n) h.2.2
    refine List.nodup_cons.mpr ⟨?_, hl⟩
    intro hm
    obtain ⟨a, b, hab⟩ := List.append_of_mem hm
    have h2 : ChainWalk chain m (m :: b) := by
      have := h.2.2
      rw [hab] at this
      exact chainWalk_suffix chain a (chain n) m b this
    have h3 : ChainWalk chain m (m :: l) := by
      obtain ⟨h1, h2', h3'⟩ := h
      subst h2'
      exact ⟨h1, rfl, h3'⟩
    have := chainWalk_unique chain _ _ _ h2 h3
    have hlen : b.length = l.length := by rw [List.cons.inj (this) |>.2]
    rw [hab] at hlen
    simp at hlen
    omega

/-- On a chain that links no symbol of the queried name the loop of `ElfLookup`
does not leave before it has run once for every chain member. -/
theorem ElfLookup.loop_short (img : ElfImg) (name : Bytes) :
    ∀ (l : List Nat) (n fuel : Nat), ChainWalk (fun k => img.chain_.get (k : Int)) n l →
      (∀ s ∈ l, dynName img s ≠ name) → fuel < l.length →
      ElfLookup.loop img name fuel n = none
  | [], _, _, _, _, hf => by simp at hf
  | m :: l, n, fuel, h, hno, hf => by
    obtain ⟨hn, hm, hrest⟩ := h
    subst hm
    cases fuel with
    | zero => rw [ElfLookup.loop]; simp [hn]
    | succ fuel =>
      rw [ElfLookup.loop]
      have hq : ¬ name = cstr img.strtab_start (img.dynsym_start m).st_name := by
        intro hq
        exact hno m (by simp) hq.symm
      simp only [hn, if_false, hq]
      exact ElfLookup.loop_short img name l _ fuel hrest
        (fun s hs => hno s (List.mem_cons_of_mem _ hs)) (by simpa using hf)

/-- C24: when the chain from `bucket[hash mod nbucket]` reaches 0 over the members
`l` and none of them carries the queried name, `ElfLookup` returns 0 after one
run of its loop body for each member of `l`, no member being visited twice;
with a bucket count of 0 it returns 0 whatever the bucket and chain arrays hold,
without a run of the loop. -/
theorem ElfLookup_absent_name (img : ElfImg) (name : Bytes) (hash : Nat) :
    (∀ l : List Nat, img.nbucket_ ≠ 0 →
      ChainWalk (fun k => img.chain_.get (k : Int))
        (img.bucket_.get ((hash % img.nbucket_ : Nat) : Int)) l →
      (∀ s ∈ l, dynName img s ≠ name) →
      l.Nodup ∧ (∀ fuel, l.length ≤ fuel → ElfLookup img fuel name hash = some 0) ∧
        ∀ fuel, fuel < l.length → ElfLookup img fuel name hash = none) ∧
      (img.nbucket_ = 0 → ∀ (bucket chain : WordPtr) (fuel : Nat),
        ElfLookup { img with bucket_ := bucket, chain_ := chain } fuel name hash = some 0) := by
  refine ⟨?_, ?_⟩
  · intro l hnb hwalk hno
    refine ⟨chainWalk_nodup _ l _ hwalk, ?_, ?_⟩
    · intro fuel hf
      unfold ElfLookup
      rw [if_neg hnb, ElfLookup.loop_walk img name l _ fuel hwalk hf,
        chainResult_of_unnamed img name l hno]
    · intro fuel hf
      unfold ElfLookup
      rw [if_neg hnb]
      exact ElfLookup.loop_short img name l _ fuel hwalk hno hf
  · intro hnb bucket chain fuel
    unfold ElfLookup
    simp [hnb]

/-- C24 on `sysvWords`: the chain visits the symbols 2 and 1, neither of which is
named `zz`; the lookup of `zz` returns 0 with two runs of the loop body and not
with one; on `dynBase`, which has no buckets, it returns 0 without a run. -/
theorem ElfLookup_absent_name_witness :
    ChainWalk (fun k => (parseHash dynBase (wordsOf sysvWords)).chain_.get (k : Int))
        ((parseHash dynBase (wordsOf sysvWords)).bucket_.get
          ((7 % (parseHash dynBase (wordsOf sysvWords)).nbucket_ : Nat) : Int)) [2, 1] ∧
      (∀ fuel, 2 ≤ fuel →
        ElfLookup (parseHash dynBase (wordsOf sysvWords)) fuel (ascii "zz") 7 = some 0) ∧
      ElfLookup (parseHash dynBase (wordsOf sysvWords)) 1 (ascii "zz") 7 = none ∧
      dynBase.nbucket_ = 0 ∧ ElfLookup dynBase 0 (ascii "zz") 7 = some 0 := by
  have hwalk : ChainWalk (fun k => (parseHash dynBase (wordsOf sysvWords)).chain_.get (k : Int))
      ((parseHash dynBase (wordsOf sysvWords)).bucket_.get
        ((7 % (parseHash dynBase (wordsOf sysvWords)).nbucket_ : Nat) : Int)) [2, 1] := by
    decide
  have h := (ElfLookup_absent_name (parseHash dynBase (wordsOf sysvWords)) (ascii "zz") 7).1
    [2, 1] (by decide) hwalk (by decide)
  have h0 := (ElfLookup_absent_name dynBase (ascii "zz") 7).2 (by decide) dynBase.bucket_
    dynBase.chain_ 0
  exact ⟨hwalk, h.2.1, h.2.2 1 (by decide), by decide, h0⟩

/-! ## The key/value store: `ModifyStoreInPlace` -/

/-- The parameter has 26 bytes. -/
theorem param_to_remove_length : param_to_remove.length = 26 := by decide

/-- The length of a range of memory. -/
theorem memRange_length (mem : Nat → Nat) (a b : Nat) : (memRange mem a b).length = b - a := by
  simp [memRange]

/-- The bytes of a range of memory, by index. -/
theorem memRange_getD (mem : Nat → Nat) (a b j : Nat) (h : j < b - a) :
    (memRange mem a b).getD j 0 = mem (a + j) := by
  simp [memRange, List.getD_eq_getElem?_getD, List.getElem?_map, List.getElem?_range' _ _ h]

/-- The call `std::search` returns the first occurrence of the parameter. -/
theorem std_search_first (mem : Nat → Nat) (n i : Nat) (h : FirstOccurrence mem n i) :
    std_search mem n param_to_remove = i ∧ i < n := by
  obtain ⟨⟨hle, heq⟩, hmin⟩ := h
  have hlen := param_to_remove_length
  refine ⟨?_, by omega⟩
  unfold std_search
  rw [find?_range_first _ _ i (by omega) (by simpa using heq)]
  · rfl
  · intro j hj
    have : ¬ Occurs mem n j := hmin j hj
    simp only [decide_eq_false_iff_not]
    intro hj2
    exact this ⟨by omega, hj2⟩

/-- The call `std::search` returns the end of the store when the parameter does
not occur. -/
theorem std_search_none (mem : Nat → Nat) (n : Nat) (h : ∀ i, ¬ Occurs mem n i) :
    std_search mem n param_to_remove = n := by
  unfold std_search
  have : (List.range (n + 1 - param_to_remove.length)).find?
      (fun i => decide (memRange mem i (i + param_to_remove.length) = param_to_remove)) =
      none := by
    rw [List.find?_eq_none]
    intro j hj
    have hj2 := List.mem_range.mp hj
    simp only [decide_eq_true_eq]
    intro heq
    exact h j ⟨by omega, heq⟩
  rw [this]; rfl

/-- Reading a block of zeros gives zero. -/
theorem getD_replicate_zero (k j : Nat) : (List.replicate k (0 : Nat)).getD j 0 = 0 := by
  rw [List.getD_eq_getElem?_getD, List.getElem?_replicate]
  split_ifs <;> rfl

/-- The memory behind the `memset` of CASE A, byte by byte. -/
theorem ModifyStoreInPlace.overwrite_apply (mem : Nat → Nat) (i j : Nat) :
    ModifyStoreInPlace.overwrite mem i j = if i ≤ j ∧ j < i + 26 then 0 else mem j := by
  unfold ModifyStoreInPlace.overwrite writeAt
  rw [getD_replicate_zero, List.length_replicate, param_to_remove_length]

/-- The memory behind the `memmove` of CASE B, byte by byte. -/
theorem ModifyStoreInPlace.shift_apply (mem : Nat → Nat) (n i j : Nat) (hi : i + 26 ≤ n) :
    ModifyStoreInPlace.shift mem n i j = if i ≤ j ∧ j < n - 26 then mem (j + 26) else mem j := by
  unfold ModifyStoreInPlace.shift
  simp only [param_to_remove_length]
  by_cases hmove : n - (i + 26) > 0
  · rw [if_pos hmove]
    unfold writeAt
    rw [memRange_length]
    by_cases h : i ≤ j ∧ j < n - 26
    · rw [if_pos (by omega), if_pos h, memRange_getD _ _ _ _ (by omega)]
      congr 1; omega
    · rw [if_neg (by omega), if_neg h]
  · rw [if_neg hmove, if_neg (by omega)]

/-- The bytes of a range of memory, by position. -/
theorem memRange_getElem (mem : Nat → Nat) (a b j : Nat) (h : j < (memRange mem a b).length) :
    (memRange mem a b)[j] = mem (a + j) := by
  simp [memRange]

/-- C25 (amended): for the first occurrence of the parameter, at offset `i` of a
store of `n` bytes, `ModifyStoreInPlace` finds padding exactly when the second
byte behind the parameter, at offset `i + 27`, lies inside the store and is
zero; it then returns false, with the 26 bytes of the parameter zero and every
other byte as before. -/
theorem ModifyStoreInPlace_padding (mem : Nat → Nat) (n i : Nat)
    (hfirst : FirstOccurrence mem n i) :
    (ModifyStoreInPlace.has_padding mem n i = true ↔ i + 27 < n ∧ mem (i + 27) = 0) ∧
      ((ModifyStoreInPlace (some mem) n).1 = false ↔ i + 27 < n ∧ mem (i + 27) = 0) ∧
      (i + 27 < n ∧ mem (i + 27) = 0 →
        ∃ mem', ModifyStoreInPlace (some mem) n = (false, some mem') ∧
          ∀ j, mem' j = if i ≤ j ∧ j < i + 26 then 0 else mem j) := by
  obtain ⟨hit, hlt⟩ := std_search_first mem n i hfirst
  have hpad : ModifyStoreInPlace.has_padding mem n i = true ↔ i + 27 < n ∧ mem (i + 27) = 0 := by
    unfold ModifyStoreInPlace.has_padding
    simp only [param_to_remove_length, decide_eq_true_eq]
  have hn : ¬ n = 0 := by omega
  have hne : ¬ i = n := by omega
  have hrun : ModifyStoreInPlace (some mem) n =
      if ModifyStoreInPlace.has_padding mem n i = true then
        (false, some (ModifyStoreInPlace.overwrite mem i))
      else (true, some (ModifyStoreInPlace.shift mem n i)) := by
    simp only [ModifyStoreInPlace, if_neg hn, hit, if_neg hne]
  refine ⟨hpad, ?_, ?_⟩
  · rw [hrun, ← hpad]
    by_cases hp : ModifyStoreInPlace.has_padding mem n i = true
    · simp [hp]
    · simp [hp]
  · intro hc
    refine ⟨ModifyStoreInPlace.overwrite mem i, ?_, ModifyStoreInPlace.overwrite_apply mem i⟩
    rw [hrun, if_pos (hpad.mpr hc)]

/-- A store without the parameter: `ModifyStoreInPlace` returns false and leaves
the memory as it is. -/
theorem ModifyStoreInPlace_absent (mem : Nat → Nat) (n : Nat) (hno : ∀ i, ¬ Occurs mem n i) :
    ModifyStoreInPlace (some mem) n = (false, some mem) := by
  by_cases hn : n = 0
  · subst hn; rfl
  · simp only [ModifyStoreInPlace, if_neg hn, std_search_none mem n hno, if_true]

/-- C26: when the parameter occurs in a store of `n` bytes, first at offset `i`,
and no padding is found, `ModifyStoreInPlace` returns true and the first
`n - 26` bytes are then the bytes before offset `i` followed by the bytes from
offset `i + 26` on; for a null store, an empty store and a store without the
parameter it returns false and leaves the memory as it is. -/
theorem ModifyStoreInPlace_removes_first (mem : Nat → Nat) (n : Nat) :
    (∀ i, FirstOccurrence mem n i → ModifyStoreInPlace.has_padding mem n i = false →
        ∃ mem', ModifyStoreInPlace (some mem) n = (true, some mem') ∧
          memRange mem' 0 (n - 26) = memRange mem 0 i ++ memRange mem (i + 26) n ∧
          ∀ j, n - 26 ≤ j → mem' j = mem j) ∧
      ModifyStoreInPlace none n = (false, none) ∧
      ModifyStoreInPlace (some mem) 0 = (false, some mem) ∧
      ((∀ i, ¬ Occurs mem n i) → ModifyStoreInPlace (some mem) n = (false, some mem)) := by
  refine ⟨?_, rfl, rfl, ?_⟩
  · intro i hfirst hpad
    obtain ⟨hit, hlt⟩ := std_search_first mem n i hfirst
    have hle : i + 26 ≤ n := by
      have := hfirst.1.1
      rw [param_to_remove_length] at this
      exact this
    have hn : ¬ n = 0 := by omega
    have hne : ¬ i = n := by omega
    refine ⟨ModifyStoreInPlace.shift mem n i, ?_, ?_, ?_⟩
    · simp only [ModifyStoreInPlace, if_neg hn, hit, if_neg hne, hpad, Bool.false_eq_true,
        if_false]
    · apply List.ext_getElem
      · simp only [memRange_length, List.length_append]; omega
      · intro j h1 h2
        rw [memRange_getElem, ModifyStoreInPlace.shift_apply mem n i _ hle]
        rw [memRange_length] at h1
        by_cases hj : j < i
        · rw [List.getElem_append_left (by rw [memRange_length]; omega), memRange_getElem,
            if_neg (by omega)]
        · rw [List.getElem_append_right (by rw [memRange_length]; omega), memRange_getElem,
            if_pos (by omega), memRange_length]
          congr 1; omega
    · intro j hj
      rw [ModifyStoreInPlace.shift_apply mem n i j hle, if_neg (by omega)]
  · exact ModifyStoreInPlace_absent mem n

/-! ## Examples on concrete stores -/

/-- C25 fails as stated: in `plainStore` the byte directly behind the parameter,
at offset 45, lies inside the store and is zero (it ends the value), yet
`ModifyStoreInPlace` finds no padding, removes the parameter by shifting and
returns true; in `blankStore` that byte is a blank, yet `ModifyStoreInPlace`
finds padding, overwrites the parameter with zeros and returns false. -/
theorem ModifyStoreInPlace_next_byte :
    FirstOccurrence (memOf plainStore) 63 19 ∧ memOf plainStore (19 + 26) = 0 ∧
      (ModifyStoreInPlace (some (memOf plainStore)) 63).1 = true ∧
      (ModifyStoreInPlace (some (memOf plainStore)) 63).2.map (fun m => memRange m 0 37) =
        some (ascii "dex2oat-cmdline" ++ 0 :: ascii "--x" ++ 0 :: ascii "debuggable" ++
          0 :: ascii "false" ++ [0]) ∧
      FirstOccurrence (memOf blankStore) 64 19 ∧ memOf blankStore (19 + 26) = 0x20 ∧
      (ModifyStoreInPlace (some (memOf blankStore)) 64).1 = false ∧
      (ModifyStoreInPlace (some (memOf blankStore)) 64).2.map (fun m => memRange m 0 64) =
        some (ascii "dex2oat-cmdline" ++ 0 :: ascii "--x" ++ List.replicate 26 0 ++ ascii " " ++
          0 :: ascii "debuggable" ++ 0 :: ascii "false" ++ [0]) := by
  decide

/-- C25 (amended) on `paddedStore`: the byte at offset `19 + 27` is a byte of
padding; the parameter is overwritten with zeros and nothing else changes. -/
theorem ModifyStoreInPlace_padding_witness :
    FirstOccurrence (memOf paddedStore) 49 19 ∧
      (19 + 27 < 49 ∧ memOf paddedStore (19 + 27) = 0) ∧
      (ModifyStoreInPlace (some (memOf paddedStore)) 49).1 = false ∧
      ∃ mem', ModifyStoreInPlace (some (memOf paddedStore)) 49 = (false, some mem') ∧
        ∀ j, mem' j = if 19 ≤ j ∧ j < 19 + 26 then 0 else memOf paddedStore j := by
  have h := ModifyStoreInPlace_padding (memOf paddedStore) 49 19 (by decide)
  exact ⟨by decide, by decide, h.2.1.mpr (by decide), h.2.2 (by decide)⟩

/-- C26 on `plainStore`: the parameter is removed, and the 37 bytes left are the
19 bytes before it followed by the 18 bytes behind it. -/
theorem ModifyStoreInPlace_removes_first_witness :
    FirstOccurrence (memOf plainStore) 63 19 ∧
      ModifyStoreInPlace.has_padding (memOf plainStore) 63 19 = false ∧
      ∃ mem', ModifyStoreInPlace (some (memOf plainStore)) 63 = (true, some mem') ∧
        memRange mem' 0 (63 - 26) =
          memRange (memOf plainStore) 0 19 ++ memRange (memOf plainStore) (19 + 26) 63 ∧
        ∀ j, 63 - 26 ≤ j → mem' j = memOf plainStore j :=
  ⟨by decide, by decide,
    (ModifyStoreInPlace_removes_first (memOf plainStore) 63).1 19 (by decide) (by decide)⟩

/-! ## The hooks of the key/value store -/

/-- A call of the hooked `GetKeyValueStore` on a store without the parameter
clears `store_resized`, whatever it held: the hooked `GetKeyValueStoreSize`
then reports the size field as it is. -/
theorem new_GetKeyValueStore_clears (st : HookState)
    (h : ∀ i, ¬ Occurs st.header.key_value_store_ (old_GetKeyValueStoreSize st.header) i) :
    (new_GetKeyValueStore st).store_resized = false ∧
      (new_GetKeyValueStore st).header = st.header ∧
      new_GetKeyValueStoreSize (new_GetKeyValueStore st) = old_GetKeyValueStoreSize st.header := by
  have hr := ModifyStoreInPlace_absent st.header.key_value_store_
    (old_GetKeyValueStoreSize st.header) h
  have h1 : (new_GetKeyValueStore st).store_resized = false := by
    simp only [new_GetKeyValueStore, old_GetKeyValueStore, hr]
  have h2 : (new_GetKeyValueStore st).header = st.header := by
    simp only [new_GetKeyValueStore, old_GetKeyValueStore, hr, Option.getD_some]
  refine ⟨h1, h2, ?_⟩
  unfold new_GetKeyValueStoreSize
  rw [h1, h2]
  simp

/-- C27 on a header whose store is `plainStore` (size field 63): the first call
of the hooked `GetKeyValueStore` removes the parameter by shifting and the size
is reported as 37; the second call finds no parameter in the 63 bytes and clears
`store_resized`, and the size is then reported as 63, although the store still
holds the 37 bytes. -/
theorem hooks_report_stale_size :
    (runHooks ⟨⟨63, memOf plainStore⟩, false⟩
        [HookCall.GetKeyValueStore, HookCall.GetKeyValueStoreSize, HookCall.GetKeyValueStore,
          HookCall.GetKeyValueStoreSize]).1 = [37, 63] ∧
      (runHooks ⟨⟨63, memOf plainStore⟩, false⟩ [HookCall.GetKeyValueStore]).2.store_resized =
        true ∧
      memRange (runHooks ⟨⟨63, memOf plainStore⟩, false⟩
          [HookCall.GetKeyValueStore, HookCall.GetKeyValueStoreSize, HookCall.GetKeyValueStore,
            HookCall.GetKeyValueStoreSize]).2.header.key_value_store_ 0 37 =
        ascii "dex2oat-cmdline" ++ 0 :: ascii "--x" ++ 0 :: ascii "debuggable" ++
          0 :: ascii "false" ++ [0] := by
  decide

end SandHook
